import Mathlib

/-
Shallow embedding of
crates/polars-parquet/src/arrow/read/deserialize/utils/dict_encoded.rs
(the dictionary-encoded column decoder) and proofs about its claims.

Modelling conventions:
* A fixed-width value `B` is an opaque type; the `B::zeroed()` padding value is
  passed explicitly as a parameter `z`.
* The output `Vec<B>` is a `Vek B`: a logical length plus a capacity buffer of
  `Option B` slots, where `none` marks bytes that were never written.  Raw
  pointer writes past the logical length mutate the buffer; `set_len` only
  changes the logical length (exactly as in the source, where it runs last).
* `dict.get_unchecked(idx)` is embedded checked: an out-of-range index yields
  the distinct error `DErr.uncheckedOOB`, whose unreachability is a theorem.
* Always-on `assert!`/`unwrap` failures are embedded as `DErr.panicked`;
  `debug_assert!`s are no-ops (release semantics), as in the source.
* The collaborators `HybridRleDecoder`, `BitMask`, `filter_from_range` and
  `filter_boolean_kernel` live outside this file's source; they are modelled
  from the spec's contracts (sections 2, 4.1, 6.2, 6.3).
-/

set_option autoImplicit false

namespace PQ

/-- Error surface: `oob` is `OutOfBoundsDictIndex`, `uncheckedOOB` the error
branch of a checked embedding of `dict.get_unchecked`, `panicked` an always-on
`assert!`/`unwrap` failure. -/
inductive DErr where
  | oob
  | uncheckedOOB
  | panicked
deriving DecidableEq, Repr

/-- One chunk of the hybrid-RLE index stream: a run-length-encoded run of one
index, or a bit-packed block of indices (batched 32 at a time). -/
inductive HChunk where
  | Rle (value : Nat) (length : Nat)
  | Bitpacked (idxs : List Nat)
deriving DecidableEq, Repr

/-- Number of indices a chunk produces. -/
def chunkSize : HChunk → Nat
  | .Rle _ l => l
  | .Bitpacked xs => xs.length

/-- The indices a chunk produces, in stream order. -/
def chunkIndices : HChunk → List Nat
  | .Rle v l => List.replicate l v
  | .Bitpacked xs => xs

/-- Total index count of a chunk list. -/
def streamLen : List HChunk → Nat
  | [] => 0
  | c :: cs => chunkSize c + streamLen cs

/-- All indices of a chunk list, in stream order. -/
def streamIndices : List HChunk → List Nat
  | [] => []
  | c :: cs => chunkIndices c ++ streamIndices cs

/-- Clamp a chunk list to its first `n` indices (the effect of `limit_to`). -/
def truncateChunks : List HChunk → Nat → List HChunk
  | _, 0 => []
  | [], _ + 1 => []
  | .Rle v l :: cs, n + 1 =>
    if l ≤ n + 1 then .Rle v l :: truncateChunks cs (n + 1 - l) else [.Rle v (n + 1)]
  | .Bitpacked xs :: cs, n + 1 =>
    if xs.length ≤ n + 1 then .Bitpacked xs :: truncateChunks cs (n + 1 - xs.length)
    else [.Bitpacked (xs.take (n + 1))]

/-- Modelled from the spec: `HybridRleDecoder` (section 6.2), a lazy finite
producer of chunks whose total index count is `len` and which can be clamped
with `limit_to`.  Modelled as the list of chunks it will produce. -/
structure HybridRleDecoder where
  chunks : List HChunk
deriving DecidableEq, Repr

/-- Remaining index count (`HybridRleDecoder::len`). -/
def HybridRleDecoder.len (d : HybridRleDecoder) : Nat := streamLen d.chunks

/-- Clamp future output to `n` indices (`HybridRleDecoder::limit_to`). -/
def HybridRleDecoder.limit_to (d : HybridRleDecoder) (n : Nat) : HybridRleDecoder :=
  ⟨truncateChunks d.chunks n⟩

/-- Set-bit count of a bitmap (`Bitmap::set_bits` / `count_ones`). -/
def countT (bs : List Bool) : Nat := bs.count true

/-- Modelled from the spec: `BitMask::nth_set_bit_idx k 0` (section 6.3), the
index of the `k`-th (0-based) set bit, if it exists. -/
def nthSetBitIdx : List Bool → Nat → Option Nat
  | [], _ => none
  | b :: bs, k =>
    if b then
      if k = 0 then some 0 else (nthSetBitIdx bs (k - 1)).map (· + 1)
    else (nthSetBitIdx bs k).map (· + 1)

/-- Modelled from the spec: the full 56-bit words of `fast_iter_u56`. -/
def fullWords56 (bs : List Bool) : List (List Bool) :=
  if h : 56 ≤ bs.length then bs.take 56 :: fullWords56 (bs.drop 56) else []
termination_by bs.length
decreasing_by simp [List.length_drop]; omega

/-- Modelled from the spec: the remainder word of `fast_iter_u56` (bits past
its length read as 0, matching the u64 packing). -/
def rem56 (bs : List Bool) : List Bool := bs.drop (56 * (bs.length / 56))

/-- Whether a filter word is nonzero (`f != 0`). -/
def hasTrue (f : List Bool) : Bool := f.any (fun b => b)

/-- Trailing-zero count of a word (`f.trailing_zeros()` for nonzero `f`). -/
def firstTrueIdx : List Bool → Nat
  | [] => 0
  | b :: bs => if b then 0 else firstTrueIdx bs + 1

/-- The output vector: logical length plus capacity buffer.  `none` slots model
uninitialised bytes past writes. -/
structure Vek (B : Type) where
  len : Nat
  buf : List (Option B)
deriving DecidableEq, Repr

/-- Observable contents of the vector (`&target[..target.len()]`). -/
def Vek.obs {B : Type} (t : Vek B) : List (Option B) := t.buf.take t.len

/-- Raw write of one value at absolute position `p` (a pointer write into
reserved capacity; it does not change the logical length). -/
def Vek.wr {B : Type} (t : Vek B) (p : Nat) (x : B) : Vek B :=
  { t with buf := t.buf.set p (some x) }

/-- Fill `n` slots starting at `p` (`slice::fill` through a raw slice view). -/
def Vek.fill {B : Type} (t : Vek B) (p : Nat) : Nat → B → Vek B
  | 0, _ => t
  | n + 1, x => (t.wr p x).fill (p + 1) n x

/-- Reserve capacity for `n` more values past the logical length. -/
def Vek.reserve {B : Type} (t : Vek B) (n : Nat) : Vek B :=
  { t with buf := t.buf ++ List.replicate (t.len + n - t.buf.length) none }

/-- Set the logical length (`Vec::set_len`). -/
def Vek.setLen {B : Type} (t : Vek B) (n : Nat) : Vek B := { t with len := n }

/-- Checked embedding of `dict.get_unchecked(idx)`: the `uncheckedOOB` branch
corresponds to an out-of-bounds read in the source. -/
def dictUnchecked {B : Type} (dict : List B) (idx : Nat) : Except DErr B :=
  match dict.get? idx with
  | some x => .ok x
  | none => .error .uncheckedOOB

/-- Branchless validation of a 32-index batch (`verify_dict_indices`): fold
`is_valid &= idx < dict_size` over the batch. -/
def verify_dict_indices (indices : List Nat) (dict_size : Nat) : Bool :=
  indices.all (fun idx => decide (idx < dict_size))

/-- Write the values `xs` into consecutive ring slots starting at `base`. -/
def setFrom (ring : List Nat) (base : Nat) : List Nat → List Nat
  | [] => ring
  | x :: xs => setFrom (ring.set base x) (base + 1) xs

/-- Fill ring part `partIdx` (32 slots) with up to 32 indices
(`chunked.next_into(buffer_part)`); slots not filled keep their old values. -/
def writePart (ring : List Nat) (partIdx : Nat) (xs : List Nat) : List Nat :=
  setFrom ring (partIdx * 32) (xs.take 32)

/-- The 32-slot ring part at `partIdx` (the `buffer_part` array view). -/
def ringPart (ring : List Nat) (partIdx : Nat) : List Nat :=
  (ring.drop (partIdx * 32)).take 32

/-- Ring read `values_buffer[k % 128]`. -/
def ringGet (ring : List Nat) (k : Nat) : Nat := (ring.get? (k % 128)).getD 0

/-- Per-bitpacked-chunk decoder state: remaining sub-decoder indices, the
128-slot ring, the round-robin part index, the read offset, and the number of
buffered (decoded, unread) indices. -/
structure RState where
  xs : List Nat
  ring : List Nat
  partIdx : Nat
  offset : Nat
  buffered : Nat
deriving DecidableEq, Repr

/-- Refill loop of `decode_optional_dict`'s main word loop: buffer until at
least `need` indices are available; on sub-decoder exhaustion report `false`
(the `break 'outer`). -/
def refillOpt (d need : Nat) (s : RState) : Except DErr (RState × Bool) :=
  if need ≤ s.buffered then .ok (s, true)
  else match hxs : s.xs with
    | [] => .ok (s, false)
    | _ :: _ =>
      let part := s.xs.take 32
      let ring' := writePart s.ring s.partIdx part
      if verify_dict_indices (ringPart ring' s.partIdx) d then
        refillOpt d need ⟨s.xs.drop 32, ring', (s.partIdx + 1) % 4, s.offset,
          s.buffered + part.length⟩
      else .error .oob
termination_by s.xs.length
decreasing_by simp [List.length_drop, hxs]; omega

/-- Refill loop of the tail (`decoder_limit`) path, where exhaustion is an
`unwrap` panic. -/
def refillPanic (d need : Nat) (s : RState) : Except DErr RState :=
  if need ≤ s.buffered then .ok s
  else match hxs : s.xs with
    | [] => .error .panicked
    | _ :: _ =>
      let part := s.xs.take 32
      let ring' := writePart s.ring s.partIdx part
      if verify_dict_indices (ringPart ring' s.partIdx) d then
        refillPanic d need ⟨s.xs.drop 32, ring', (s.partIdx + 1) % 4, s.offset,
          s.buffered + part.length⟩
      else .error .oob
termination_by s.xs.length
decreasing_by simp [List.length_drop, hxs]; omega

/-- Refill loop of the masked kernels, which also consumes a residual skip
count out of newly decoded batches. -/
def refillSkip (d need : Nat) (s : RState) (skip : Nat) :
    Except DErr (RState × Nat) :=
  if need ≤ s.buffered then .ok (s, skip)
  else match hxs : s.xs with
    | [] => .error .panicked
    | _ :: _ =>
      let part := s.xs.take 32
      let ring' := writePart s.ring s.partIdx part
      if verify_dict_indices (ringPart ring' s.partIdx) d then
        let scv := min skip part.length
        refillSkip d need ⟨s.xs.drop 32, ring', (s.partIdx + 1) % 4,
          s.offset + scv, s.buffered + (part.length - scv)⟩ (skip - scv)
      else .error .oob
termination_by s.xs.length
decreasing_by simp [List.length_drop, hxs]; omega

/-- Unchecked writes of one verified batch, in order. -/
def writeBatch {B : Type} (dict : List B) :
    List Nat → Nat → Vek B → (Except DErr Unit) × Vek B
  | [], _, t => (.ok (), t)
  | i :: is, pos, t =>
    match dictUnchecked dict i with
    | .error e => (.error e, t)
    | .ok x => writeBatch dict is (pos + 1) (t.wr pos x)

/-- Full-32-batch and remainder loop of `decode_required_dict`'s bitpacked
arm.  Returns the final write position. -/
def goBitpackedReq {B : Type} (dict : List B) (xs : List Nat) (pos : Nat)
    (t : Vek B) : (Except DErr Unit) × Vek B × Nat :=
  if h32 : 32 ≤ xs.length then
    if verify_dict_indices (xs.take 32) dict.length then
      match writeBatch dict (xs.take 32) pos t with
      | (.error e, t') => (.error e, t', pos)
      | (.ok (), t') => goBitpackedReq dict (xs.drop 32) (pos + 32) t'
    else (.error .oob, t, pos)
  else
    match xs with
    | [] => (.ok (), t, pos)
    | _ :: _ =>
      if dict.length ≤ xs.foldl max 0 then (.error .oob, t, pos)
      else
        match writeBatch dict xs pos t with
        | (.error e, t') => (.error e, t', pos)
        | (.ok (), t') => (.ok (), t', pos + xs.length)
termination_by xs.length
decreasing_by simp [List.length_drop]; omega

/-- Chunk loop of `decode_required_dict`. -/
def goRequired {B : Type} (dict : List B) :
    List HChunk → Nat → Vek B → (Except DErr Unit) × Vek B
  | [], _, t => (.ok (), t)
  | .Rle value length :: cs, pos, t =>
    if length = 0 then goRequired dict cs pos t
    else
      match dict.get? value with
      | none => (.error .oob, t)
      | some x => goRequired dict cs (pos + length) (t.fill pos length x)
  | .Bitpacked xs :: cs, pos, t =>
    match goBitpackedReq dict xs pos t with
    | (.error e, t', _) => (.error e, t')
    | (.ok (), t', pos') => goRequired dict cs pos' t'

/-- `decode_required_dict`: no nulls, no filter. -/
def decode_required_dict {B : Type} (values : HybridRleDecoder) (dict : List B)
    (target : Vek B) : (Except DErr Unit) × Vek B :=
  if dict.isEmpty ∧ 0 < values.len then (.error .oob, target)
  else
    let start_length := target.len
    let end_length := start_length + values.len
    let t := target.reserve values.len
    match goRequired dict values.chunks start_length t with
    | (.error e, t') => (.error e, t')
    | (.ok (), t') => (.ok (), t'.setLen end_length)

/-- Branchless inner loop of `decode_optional_dict`: write `count` slots from
`pos`, always writing the ring value at the read cursor and advancing the
cursor only on set validity bits.  Returns the final `num_read`. -/
def writeWord {B : Type} (dict : List B) (ring : List Nat) :
    List Bool → Nat → Nat → Nat → Nat → Vek B → (Except DErr Unit) × Vek B × Nat
  | _, 0, _, numRead, _, t => (.ok (), t, numRead)
  | bits, count + 1, offset, numRead, pos, t =>
    match dictUnchecked dict (ringGet ring (offset + numRead)) with
    | .error e => (.error e, t, numRead)
    | .ok x =>
      writeWord dict ring bits.tail count offset
        (numRead + (if bits.headD false then 1 else 0)) (pos + 1) (t.wr pos x)

/-- State threaded through `decode_optional_dict`'s word loop. -/
structure OState (B : Type) where
  t : Vek B
  s : RState
  pos : Nat
  numDone : Nat
deriving DecidableEq, Repr

/-- Word loop of `decode_optional_dict`'s bitpacked arm over full 56-bit
validity words; stops early (without error) when the sub-decoder is
exhausted (`break 'outer`). -/
def goOptWords {B : Type} (dict : List B) :
    List (List Bool) → OState B → (Except DErr Unit) × OState B
  | [], o => (.ok (), o)
  | v :: ws, o =>
    match refillOpt dict.length (countT v) o.s with
    | .error e => (.error e, o)
    | .ok (s', false) => (.ok (), { o with s := s' })
    | .ok (s', true) =>
      match writeWord dict s'.ring v 56 s'.offset 0 o.pos o.t with
      | (.error e, t', _) => (.error e, { o with t := t', s := s' })
      | (.ok (), t', numRead) =>
        goOptWords dict ws
          { t := t',
            s := { s' with offset := (s'.offset + numRead) % 128,
                           buffered := s'.buffered - numRead },
            pos := o.pos + 56,
            numDone := o.numDone + 56 }

/-- Bitpacked arm of `decode_optional_dict`: the main word loop followed by
the `decoder_limit` tail.  Returns the ring, the remaining validity and the
write position. -/
def goOptBitpacked {B : Type} (dict : List B) (xs ring : List Nat)
    (validity : List Bool) (t : Vek B) (pos : Nat) :
    (Except DErr Unit) × Vek B × List Nat × List Bool × Nat :=
  match goOptWords dict (fullWords56 validity) ⟨t, ⟨xs, ring, 0, 0, 0⟩, pos, 0⟩ with
  | (.error e, o) => (.error e, o.t, o.s.ring, validity, o.pos)
  | (.ok (), o) =>
    let validity1 := validity.drop o.numDone
    let ndr := o.s.buffered + o.s.xs.length
    let decoderLimit := (nthSetBitIdx validity1 ndr).getD validity1.length
    let currentValidity := validity1.take decoderLimit
    let validity2 := validity1.drop decoderLimit
    let v := rem56 currentValidity
    match refillPanic dict.length (countT v) o.s with
    | .error e => (.error e, o.t, o.s.ring, validity2, o.pos)
    | .ok s' =>
      match writeWord dict s'.ring v decoderLimit s'.offset 0 o.pos o.t with
      | (.error e, t', _) => (.error e, t', s'.ring, validity2, o.pos)
      | (.ok (), t', _) => (.ok (), t', s'.ring, validity2, o.pos + decoderLimit)

/-- Chunk loop of `decode_optional_dict`.  Returns the remaining validity and
the final write position for the trailing `B::zeroed()` fill. -/
def goOpt {B : Type} (dict : List B) :
    List HChunk → List Bool → List Nat → Vek B → Nat →
    (Except DErr Unit) × Vek B × List Bool × Nat
  | [], validity, _, t, pos => (.ok (), t, validity, pos)
  | .Rle value size :: cs, validity, ring, t, pos =>
    if size = 0 then goOpt dict cs validity ring t pos
    else
      let ncr := (nthSetBitIdx validity size).getD validity.length
      let validity' := validity.drop ncr
      match dict.get? value with
      | none => (.error .oob, t, validity', pos)
      | some x => goOpt dict cs validity' ring (t.fill pos ncr x) (pos + ncr)
  | .Bitpacked xs :: cs, validity, ring, t, pos =>
    match goOptBitpacked dict xs ring validity t pos with
    | (.error e, t', _, validity', pos') => (.error e, t', validity', pos')
    | (.ok (), t', ring', validity', pos') => goOpt dict cs validity' ring' t' pos'

/-- `decode_optional_dict`: nulls, no filter. -/
def decode_optional_dict {B : Type} (z : B) (values : HybridRleDecoder)
    (dict : List B) (validity : List Bool) (target : Vek B) :
    (Except DErr Unit) × Vek B :=
  let num_valid_values := countT validity
  if num_valid_values = validity.length then
    decode_required_dict (values.limit_to validity.length) dict target
  else if dict.isEmpty ∧ 0 < num_valid_values then (.error .oob, target)
  else if ¬ num_valid_values ≤ values.len then (.error .panicked, target)
  else
    let start_length := target.len
    let end_length := start_length + validity.length
    let t := target.reserve validity.length
    let values' := values.limit_to num_valid_values
    match goOpt dict values'.chunks validity (List.replicate 128 0) t start_length with
    | (.error e, t', _, _) => (.error e, t')
    | (.ok (), t', validityRem, pos) =>
      (.ok (), (t'.fill pos validityRem.length z).setLen end_length)

/-- Nonzero words are nonempty bit lists. -/
theorem hasTrue_length_pos {f : List Bool} (hf : hasTrue f = true) :
    0 < f.length := by
  cases f with
  | nil => simp [hasTrue] at hf
  | cons b bs => simp

/-- Set-bit walk of `decode_masked_required_dict`: for each set filter bit,
skip `trailing_zeros` unselected indices, read the next ring index and write
its dictionary value.  Returns the final `num_read` and `num_written`. -/
def walkReq {B : Type} (dict : List B) (ring : List Nat) (f : List Bool)
    (offset numRead numWritten pos : Nat) (t : Vek B) :
    (Except DErr Unit) × Vek B × Nat × Nat :=
  if hf : hasTrue f then
    match dictUnchecked dict (ringGet ring (offset + (numRead + firstTrueIdx f))) with
    | .error e => (.error e, t, numRead + firstTrueIdx f, numWritten)
    | .ok x =>
      walkReq dict ring (f.drop (firstTrueIdx f + 1)) offset
        (numRead + firstTrueIdx f + 1) (numWritten + 1) pos
        (t.wr (pos + numWritten) x)
  else (.ok (), t, numRead, numWritten)
termination_by f.length
decreasing_by
  have h0 : 0 < f.length := hasTrue_length_pos hf
  simp [List.length_drop]; omega

/-- State threaded through the masked kernels' word loops. -/
structure MState (B : Type) where
  t : Vek B
  s : RState
  skip : Nat
  pos : Nat
  rowsLeft : Nat
deriving DecidableEq, Repr

/-- One 56-bit filter word of `decode_masked_required_dict`'s bitpacked arm
(the closure `iter(f, len)`). -/
def iterReq {B : Type} (dict : List B) (f : List Bool) (len : Nat)
    (m : MState B) : (Except DErr Unit) × MState B :=
  if ¬ hasTrue f then (.ok (), { m with skip := m.skip + len })
  else
    let nbs := min m.skip m.s.buffered
    let s1 : RState := { m.s with offset := m.s.offset + nbs,
                                  buffered := m.s.buffered - nbs }
    let skip1 := m.skip - nbs
    let s2 : RState := { s1 with xs := s1.xs.drop (32 * (skip1 / 32)) }
    let skip2 := skip1 % 32
    match refillSkip dict.length len s2 skip2 with
    | .error e => (.error e, { m with s := s2, skip := skip2 })
    | .ok (s3, skip3) =>
      match walkReq dict s3.ring f s3.offset 0 0 m.pos m.t with
      | (.error e, t', _, _) => (.error e, { m with t := t', s := s3, skip := skip3 })
      | (.ok (), t', _, numWritten) =>
        (.ok (), { t := t',
                   s := { s3 with offset := (s3.offset + len) % 128,
                                  buffered := s3.buffered - len },
                   skip := skip3,
                   pos := m.pos + numWritten,
                   rowsLeft := m.rowsLeft - numWritten })

/-- Full-word loop of `decode_masked_required_dict`'s bitpacked arm. -/
def goReqWords {B : Type} (dict : List B) :
    List (List Bool) → MState B → (Except DErr Unit) × MState B
  | [], m => (.ok (), m)
  | f :: ws, m =>
    match iterReq dict f 56 m with
    | (.error e, m') => (.error e, m')
    | (.ok (), m') => goReqWords dict ws m'

/-- Chunk loop of `decode_masked_required_dict`; breaks early once all
selected rows are written. -/
def goMReq {B : Type} (dict : List B) :
    List HChunk → List Bool → List Nat → Vek B → Nat → Nat →
    (Except DErr Unit) × Vek B
  | [], _, _, t, _, _ => (.ok (), t)
  | c :: cs, filter, ring, t, pos, rowsLeft =>
    if rowsLeft = 0 then (.ok (), t)
    else
      match c with
      | .Rle value size =>
        if size = 0 then goMReq dict cs filter ring t pos rowsLeft
        else
          let size' := min size filter.length
          let cf := filter.take size'
          let filter' := filter.drop size'
          let ncr := countT cf
          if 0 < ncr then
            match dict.get? value with
            | none => (.error .oob, t)
            | some x =>
              goMReq dict cs filter' ring (t.fill pos ncr x) (pos + ncr)
                (rowsLeft - ncr)
          else goMReq dict cs filter' ring t pos rowsLeft
      | .Bitpacked xs =>
        let size := min xs.length filter.length
        let cf := filter.take size
        let filter' := filter.drop size
        match goReqWords dict (fullWords56 cf) ⟨t, ⟨xs, ring, 0, 0, 0⟩, 0, pos, rowsLeft⟩ with
        | (.error e, m') => (.error e, m'.t)
        | (.ok (), m') =>
          match iterReq dict (rem56 cf) (cf.length % 56) m' with
          | (.error e, m'') => (.error e, m''.t)
          | (.ok (), m'') =>
            goMReq dict cs filter' m''.s.ring m''.t m''.pos m''.rowsLeft

/-- `decode_masked_required_dict`: no nulls, boolean filter. -/
def decode_masked_required_dict {B : Type} (values : HybridRleDecoder)
    (dict : List B) (filter : List Bool) (target : Vek B) :
    (Except DErr Unit) × Vek B :=
  let num_rows := countT filter
  if num_rows = filter.length then
    decode_required_dict (values.limit_to filter.length) dict target
  else if dict.isEmpty ∧ ¬ filter.isEmpty then (.error .oob, target)
  else
    let start_length := target.len
    let t := target.reserve num_rows
    let values' := values.limit_to filter.length
    match goMReq dict values'.chunks filter (List.replicate 128 0) t start_length num_rows with
    | (.error e, t') => (.error e, t')
    | (.ok (), t') => (.ok (), t'.setLen (start_length + num_rows))

/-- Set-bit walk of `decode_masked_optional_dict`: pairs the filter word with
the validity word, advancing the ring read cursor by the count of valid bits
below each selected position. -/
def walkOpt {B : Type} (dict : List B) (ring : List Nat) (f v : List Bool)
    (offset numRead numWritten pos : Nat) (t : Vek B) :
    (Except DErr Unit) × Vek B × Nat × Nat :=
  if hf : hasTrue f then
    match dictUnchecked dict
        (ringGet ring (offset + (numRead + countT (v.take (firstTrueIdx f))))) with
    | .error e => (.error e, t, numRead + countT (v.take (firstTrueIdx f)), numWritten)
    | .ok x =>
      walkOpt dict ring (f.drop (firstTrueIdx f + 1))
        ((v.drop (firstTrueIdx f)).drop 1) offset
        (numRead + countT (v.take (firstTrueIdx f)) +
          (if (v.drop (firstTrueIdx f)).headD false then 1 else 0))
        (numWritten + 1) pos (t.wr (pos + numWritten) x)
  else (.ok (), t, numRead + countT v, numWritten)
termination_by f.length
decreasing_by
  have h0 : 0 < f.length := hasTrue_length_pos hf
  simp [List.length_drop]; omega

/-- One 56-bit word pair of `decode_masked_optional_dict`'s bitpacked arm
(the closure `iter(f, v)`). -/
def iterOpt {B : Type} (dict : List B) (f v : List Bool) (m : MState B) :
    (Except DErr Unit) × MState B :=
  if ¬ hasTrue f then (.ok (), { m with skip := m.skip + countT v })
  else
    let nbs := min m.skip m.s.buffered
    let s1 : RState := { m.s with offset := m.s.offset + nbs,
                                  buffered := m.s.buffered - nbs }
    let skip1 := m.skip - nbs
    let s2 : RState := { s1 with xs := s1.xs.drop (32 * (skip1 / 32)) }
    let skip2 := skip1 % 32
    match refillSkip dict.length (countT v) s2 skip2 with
    | .error e => (.error e, { m with s := s2, skip := skip2 })
    | .ok (s3, skip3) =>
      match walkOpt dict s3.ring f v s3.offset 0 0 m.pos m.t with
      | (.error e, t', _, _) => (.error e, { m with t := t', s := s3, skip := skip3 })
      | (.ok (), t', numRead, numWritten) =>
        (.ok (), { t := t',
                   s := { s3 with offset := (s3.offset + numRead) % 128,
                                  buffered := s3.buffered - numRead },
                   skip := skip3,
                   pos := m.pos + numWritten,
                   rowsLeft := m.rowsLeft - numWritten })

/-- Full-word-pair loop of `decode_masked_optional_dict`'s bitpacked arm
(zip of the two `fast_iter_u56` iterators). -/
def goMOptWords {B : Type} (dict : List B) :
    List (List Bool) → List (List Bool) → MState B → (Except DErr Unit) × MState B
  | f :: fws, v :: vws, m =>
    match iterOpt dict f v m with
    | (.error e, m') => (.error e, m')
    | (.ok (), m') => goMOptWords dict fws vws m'
  | _, _, m => (.ok (), m)

/-- Chunk loop of `decode_masked_optional_dict`.  Returns the final write
position and remaining selected-row count for the trailing zeroed fill. -/
def goMOpt {B : Type} (dict : List B) :
    List HChunk → List Bool → List Bool → List Nat → Vek B → Nat → Nat →
    (Except DErr Unit) × Vek B × Nat × Nat
  | [], _, _, _, t, pos, rowsLeft => (.ok (), t, pos, rowsLeft)
  | c :: cs, filter, validity, ring, t, pos, rowsLeft =>
    if rowsLeft = 0 then (.ok (), t, pos, rowsLeft)
    else
      match c with
      | .Rle value size =>
        if size = 0 then goMOpt dict cs filter validity ring t pos rowsLeft
        else
          let ncv := (nthSetBitIdx validity size).getD validity.length
          let validity' := validity.drop ncv
          let cf := filter.take ncv
          let filter' := filter.drop ncv
          let ncr := countT cf
          if 0 < ncr then
            match dict.get? value with
            | none => (.error .oob, t, pos, rowsLeft)
            | some x =>
              goMOpt dict cs filter' validity' ring (t.fill pos ncr x)
                (pos + ncr) (rowsLeft - ncr)
          else goMOpt dict cs filter' validity' ring t pos rowsLeft
      | .Bitpacked xs =>
        let size := xs.length
        let ncv := (nthSetBitIdx validity size).getD validity.length
        let cf := filter.take ncv
        let filter' := filter.drop ncv
        let cv := validity.take ncv
        let validity' := validity.drop ncv
        match goMOptWords dict (fullWords56 cf) (fullWords56 cv)
            ⟨t, ⟨xs, ring, 0, 0, 0⟩, 0, pos, rowsLeft⟩ with
        | (.error e, m') => (.error e, m'.t, m'.pos, m'.rowsLeft)
        | (.ok (), m') =>
          if (rem56 cf).length ≠ (rem56 cv).length then
            (.error .panicked, m'.t, m'.pos, m'.rowsLeft)
          else
            match iterOpt dict (rem56 cf) (rem56 cv) m' with
            | (.error e, m'') => (.error e, m''.t, m''.pos, m''.rowsLeft)
            | (.ok (), m'') =>
              goMOpt dict cs filter' validity' m''.s.ring m''.t m''.pos m''.rowsLeft

/-- `decode_masked_optional_dict`: nulls and boolean filter. -/
def decode_masked_optional_dict {B : Type} (z : B) (values : HybridRleDecoder)
    (dict : List B) (filter : List Bool) (validity : List Bool)
    (target : Vek B) : (Except DErr Unit) × Vek B :=
  let num_rows := countT filter
  let num_valid_values := countT validity
  if num_rows = filter.length then
    decode_optional_dict z values dict validity target
  else if num_valid_values = validity.length then
    decode_masked_required_dict values dict filter target
  else if dict.isEmpty ∧ 0 < num_valid_values then (.error .oob, target)
  else if ¬ num_valid_values ≤ values.len then (.error .panicked, target)
  else
    let start_length := target.len
    let t := target.reserve num_rows
    let values' := values.limit_to num_valid_values
    match goMOpt dict values'.chunks filter validity (List.replicate 128 0) t
        start_length num_rows with
    | (.error e, t', _, _) => (.error e, t')
    | (.ok (), t', pos, rowsLeft) =>
      (.ok (), (t'.fill pos rowsLeft z).setLen (start_length + num_rows))

/-- Row filter: a contiguous half-open row range or an arbitrary boolean
mask. -/
inductive RowFilter where
  | Range (lo hi : Nat)
  | Mask (m : List Bool)
deriving DecidableEq, Repr

/-- Number of output rows a filter selects (`Filter::num_rows`). -/
def RowFilter.num_rows : RowFilter → Nat
  | .Range lo hi => hi - lo
  | .Mask m => countT m

/-- Largest unfiltered row offset a filter touches (`Filter::max_offset`). -/
def RowFilter.max_offset : RowFilter → Nat
  | .Range _ hi => hi
  | .Mask m => m.length

/-- Modelled from the spec: `filter_from_range` (section 4.1), the
range-as-mask conversion: a mask of length `hi` set on `[lo, hi)`. -/
def filter_from_range (lo hi : Nat) : List Bool :=
  (List.range hi).map (fun i => decide (lo ≤ i))

/-- Modelled from the spec: `filter_boolean_kernel` (section 4.1), page
validity gated by the mask: keep validity bits where the mask is set. -/
def filter_boolean_kernel (pv mask : List Bool) : List Bool :=
  ((pv.zip mask).filter (fun bm => bm.2)).map (fun bm => bm.1)

/-- Grow the output validity bitmap before the kernel runs
(`append_validity`). -/
def append_validity (page_validity : Option (List Bool))
    (filter : Option RowFilter) (validity : List Bool) (values_len : Nat) :
    List Bool :=
  match page_validity, filter with
  | none, none => validity ++ List.replicate values_len true
  | none, some f => validity ++ List.replicate f.num_rows true
  | some pv, none => validity ++ pv
  | some pv, some (.Range lo hi) => validity ++ (pv.drop lo).take (hi - lo)
  | some pv, some (.Mask m) => validity ++ filter_boolean_kernel pv m

/-- Trim page validity to the row span the call touches
(`constrain_page_validity`). -/
def constrain_page_validity (values_len : Nat)
    (page_validity : Option (List Bool)) (filter : Option RowFilter) :
    Option (List Bool) :=
  let num_unfiltered_rows :=
    match filter, page_validity with
    | none, none => values_len
    | none, some pv => pv.length
    | some f, _ => f.max_offset
  page_validity.map (fun pv =>
    if num_unfiltered_rows < pv.length then pv.take num_unfiltered_rows else pv)

/-- Kernel dispatch (`decode_dict_dispatch`): optionally grow the output
validity, constrain page validity, and route to one of the four kernels. -/
def decode_dict_dispatch {B : Type} (z : B) (values : HybridRleDecoder)
    (dict : List B) (is_optional : Bool) (page_validity : Option (List Bool))
    (filter : Option RowFilter) (validity : List Bool) (target : Vek B) :
    (Except DErr Unit) × List Bool × Vek B :=
  let validity' :=
    if is_optional then append_validity page_validity filter validity values.len
    else validity
  let pv := constrain_page_validity values.len page_validity filter
  let rt :=
    match filter, pv with
    | none, none => decode_required_dict values dict target
    | some (.Range lo hi), none =>
      if lo = 0 then decode_required_dict (values.limit_to hi) dict target
      else decode_masked_required_dict values dict (filter_from_range lo hi) target
    | none, some pv => decode_optional_dict z values dict pv target
    | some (.Range lo hi), some pv =>
      if lo = 0 then decode_optional_dict z values dict pv target
      else decode_masked_optional_dict z values dict (filter_from_range lo hi) pv target
    | some (.Mask m), none => decode_masked_required_dict values dict m target
    | some (.Mask m), some pv => decode_masked_optional_dict z values dict m pv target
  (rt.1, validity', rt.2)

/-- Entry point `decode_dict`: the aligned-bytes cast is the identity in this
model, so it forwards to `decode_dict_dispatch`. -/
def decode_dict {B : Type} (z : B) (values : HybridRleDecoder) (dict : List B)
    (is_optional : Bool) (page_validity : Option (List Bool))
    (filter : Option RowFilter) (validity : List Bool) (target : Vek B) :
    (Except DErr Unit) × List Bool × Vek B :=
  decode_dict_dispatch z values dict is_optional page_validity filter validity target

end PQ

namespace PQ

/-! ### Shape preservation: raw writes never change the logical length or the
capacity, so only the final `set_len` of a kernel can change `len`. -/

@[simp] theorem wr_len {B : Type} (t : Vek B) (p : Nat) (x : B) :
    (t.wr p x).len = t.len := rfl

@[simp] theorem wr_buflen {B : Type} (t : Vek B) (p : Nat) (x : B) :
    (t.wr p x).buf.length = t.buf.length := by
  simp [Vek.wr]

@[simp] theorem fill_len {B : Type} (n : Nat) :
    ∀ (t : Vek B) (p : Nat) (x : B), (t.fill p n x).len = t.len := by
  induction n with
  | zero => intro t p x; rfl
  | succ n ih => intro t p x; simp [Vek.fill, ih]

@[simp] theorem fill_buflen {B : Type} (n : Nat) :
    ∀ (t : Vek B) (p : Nat) (x : B), (t.fill p n x).buf.length = t.buf.length := by
  induction n with
  | zero => intro t p x; rfl
  | succ n ih => intro t p x; simp [Vek.fill, ih]

@[simp] theorem setLen_len {B : Type} (t : Vek B) (n : Nat) :
    (t.setLen n).len = n := rfl

@[simp] theorem reserve_len {B : Type} (t : Vek B) (n : Nat) :
    (t.reserve n).len = t.len := rfl

theorem reserve_buflen {B : Type} (t : Vek B) (n : Nat) :
    (t.reserve n).buf.length = max (t.len + n) t.buf.length := by
  simp [Vek.reserve]; omega

theorem writeBatch_shape {B : Type} (dict : List B) (is : List Nat) :
    ∀ (pos : Nat) (t : Vek B),
      ((writeBatch dict is pos t).2.len = t.len ∧
       (writeBatch dict is pos t).2.buf.length = t.buf.length) := by
  induction is with
  | nil => intro pos t; simp [writeBatch]
  | cons i is ih =>
    intro pos t
    rw [writeBatch]
    cases dictUnchecked dict i with
    | error e => simp
    | ok x => simpa using ih (pos + 1) (t.wr pos x)

theorem goBitpackedReq_shape {B : Type} (dict : List B) (xs : List Nat)
    (pos : Nat) (t : Vek B) :
    ((goBitpackedReq dict xs pos t).2.1.len = t.len ∧
     (goBitpackedReq dict xs pos t).2.1.buf.length = t.buf.length) := by
  induction xs, pos, t using goBitpackedReq.induct dict with
  | case1 xs pos t h32 hv e t' hw =>
    have hb := writeBatch_shape dict (xs.take 32) pos t
    rw [hw] at hb
    rw [goBitpackedReq]
    simp only [dif_pos h32, if_pos hv, hw]
    exact hb
  | case2 xs pos t h32 hv t' hw ih =>
    have hb := writeBatch_shape dict (xs.take 32) pos t
    rw [hw] at hb
    rw [goBitpackedReq]
    simp only [dif_pos h32, if_pos hv, hw]
    exact ⟨ih.1.trans hb.1, ih.2.trans hb.2⟩
  | case3 xs pos t h32 hv =>
    rw [goBitpackedReq]
    simp [h32, hv]
  | case4 pos t h1 h2 =>
    rw [goBitpackedReq]
    simp [h1]
  | case5 pos t head tail h1 h2 hmax =>
    rw [goBitpackedReq]
    simp only [dif_neg h1, if_pos hmax]
    simp
  | case6 pos t head tail h1 e t' h2 hmax hw =>
    have hb := writeBatch_shape dict (head :: tail) pos t
    rw [hw] at hb
    rw [goBitpackedReq]
    simp only [dif_neg h1, if_neg hmax, hw]
    exact hb
  | case7 pos t head tail h1 t' h2 hmax hw =>
    have hb := writeBatch_shape dict (head :: tail) pos t
    rw [hw] at hb
    rw [goBitpackedReq]
    simp only [dif_neg h1, if_neg hmax, hw]
    exact hb

end PQ

namespace PQ

theorem goRequired_shape {B : Type} (dict : List B) (cs : List HChunk) :
    ∀ (pos : Nat) (t : Vek B),
      (goRequired dict cs pos t).2.len = t.len ∧
      (goRequired dict cs pos t).2.buf.length = t.buf.length := by
  induction cs with
  | nil => intro pos t; simp [goRequired]
  | cons c cs ih =>
    intro pos t
    cases c with
    | Rle value length =>
      rw [goRequired]
      split
      · exact ih pos t
      · split
        · simp
        · next x heq =>
          have := ih (pos + length) (t.fill pos length x)
          simpa using this
    | Bitpacked xs =>
      rw [goRequired]
      have hb := goBitpackedReq_shape dict xs pos t
      split
      · next e t' w heq =>
        rw [heq] at hb
        simpa using hb
      · next t' pos' heq =>
        rw [heq] at hb
        simp at hb
        exact ⟨(ih pos' t').1.trans hb.1, (ih pos' t').2.trans hb.2⟩

theorem writeWord_shape {B : Type} (dict : List B) (ring : List Nat)
    (count : Nat) :
    ∀ (bits : List Bool) (offset numRead pos : Nat) (t : Vek B),
      (writeWord dict ring bits count offset numRead pos t).2.1.len = t.len ∧
      (writeWord dict ring bits count offset numRead pos t).2.1.buf.length
        = t.buf.length := by
  induction count with
  | zero => intro bits offset numRead pos t; simp [writeWord]
  | succ n ih =>
    intro bits offset numRead pos t
    rw [writeWord]
    split
    · simp
    · next x heq =>
      have := ih bits.tail offset
        (numRead + if bits.headD false then 1 else 0) (pos + 1) (t.wr pos x)
      simpa using this

theorem goOptWords_shape {B : Type} (dict : List B) (ws : List (List Bool)) :
    ∀ (o : OState B),
      (goOptWords dict ws o).2.t.len = o.t.len ∧
      (goOptWords dict ws o).2.t.buf.length = o.t.buf.length := by
  induction ws with
  | nil => intro o; simp [goOptWords]
  | cons v ws ih =>
    intro o
    rw [goOptWords]
    split
    · simp
    · simp
    · next s' heq =>
      have hw := writeWord_shape dict s'.ring 56 v s'.offset 0 o.pos o.t
      split
      · next e t' r heqw =>
        rw [heqw] at hw
        simpa using hw
      · next t' numRead heqw =>
        rw [heqw] at hw
        simp at hw
        refine ⟨?_, ?_⟩
        · exact ((ih _).1).trans hw.1
        · exact ((ih _).2).trans hw.2

theorem writeWord_shapeE {B : Type} {dict : List B} {ring : List Nat}
    {bits : List Bool} {count offset numRead pos : Nat} {t : Vek B}
    {r : (Except DErr Unit) × Vek B × Nat}
    (h : writeWord dict ring bits count offset numRead pos t = r) :
    r.2.1.len = t.len ∧ r.2.1.buf.length = t.buf.length := by
  subst h
  exact writeWord_shape dict ring count bits offset numRead pos t

theorem goOptWords_shapeE {B : Type} {dict : List B} {ws : List (List Bool)}
    {o : OState B} {r : (Except DErr Unit) × OState B}
    (h : goOptWords dict ws o = r) :
    r.2.t.len = o.t.len ∧ r.2.t.buf.length = o.t.buf.length := by
  subst h
  exact goOptWords_shape dict ws o

theorem goOptBitpacked_shape {B : Type} (dict : List B) (xs ring : List Nat)
    (validity : List Bool) (t : Vek B) (pos : Nat) :
    (goOptBitpacked dict xs ring validity t pos).2.1.len = t.len ∧
    (goOptBitpacked dict xs ring validity t pos).2.1.buf.length = t.buf.length := by
  simp only [goOptBitpacked]
  split
  · next e o heq =>
    have hg := goOptWords_shapeE heq
    simpa using hg
  · next o heq =>
    have hg := goOptWords_shapeE heq
    simp at hg
    split
    · simpa using hg
    · next s' heqr =>
      split
      · next e t' r heqw =>
        have hw := writeWord_shapeE heqw
        simp at hw
        exact ⟨hw.1.trans hg.1, hw.2.trans hg.2⟩
      · next t' r heqw =>
        have hw := writeWord_shapeE heqw
        simp at hw
        exact ⟨hw.1.trans hg.1, hw.2.trans hg.2⟩

theorem goOpt_shape {B : Type} (dict : List B) (cs : List HChunk) :
    ∀ (validity : List Bool) (ring : List Nat) (t : Vek B) (pos : Nat),
      (goOpt dict cs validity ring t pos).2.1.len = t.len ∧
      (goOpt dict cs validity ring t pos).2.1.buf.length = t.buf.length := by
  induction cs with
  | nil => intro validity ring t pos; simp [goOpt]
  | cons c cs ih =>
    intro validity ring t pos
    cases c with
    | Rle value size =>
      simp only [goOpt]
      split
      · exact ih validity ring t pos
      · split
        · simp
        · next x heq =>
          refine ⟨(ih _ _ _ _).1.trans ?_, (ih _ _ _ _).2.trans ?_⟩ <;> simp
    | Bitpacked xs =>
      simp only [goOpt]
      have hb := goOptBitpacked_shape dict xs ring validity t pos
      split
      · next e t' r v p heq =>
        rw [heq] at hb
        simpa using hb
      · next t' ring' v' p' heq =>
        rw [heq] at hb
        simp at hb
        exact ⟨(ih _ _ _ _).1.trans hb.1, (ih _ _ _ _).2.trans hb.2⟩

end PQ

namespace PQ

theorem walkReq_shape {B : Type} (dict : List B) (ring : List Nat)
    (f : List Bool) (offset numRead numWritten pos : Nat) (t : Vek B) :
    (walkReq dict ring f offset numRead numWritten pos t).2.1.len = t.len ∧
    (walkReq dict ring f offset numRead numWritten pos t).2.1.buf.length
      = t.buf.length := by
  induction f, offset, numRead, numWritten, pos, t using walkReq.induct dict ring with
  | case1 f offset numRead numWritten pos t hf e heq =>
    rw [walkReq]
    simp only [dif_pos hf, heq]
    exact ⟨trivial, trivial⟩
  | case2 f offset numRead numWritten pos t hf x heq ih =>
    rw [walkReq]
    simp only [dif_pos hf, heq]
    simpa using ih
  | case3 f offset numRead numWritten pos t hf =>
    rw [walkReq]
    simp only [dif_neg hf]
    exact ⟨trivial, trivial⟩

theorem walkReq_shapeE {B : Type} {dict : List B} {ring : List Nat}
    {f : List Bool} {offset numRead numWritten pos : Nat} {t : Vek B}
    {r : (Except DErr Unit) × Vek B × Nat × Nat}
    (h : walkReq dict ring f offset numRead numWritten pos t = r) :
    r.2.1.len = t.len ∧ r.2.1.buf.length = t.buf.length := by
  subst h
  exact walkReq_shape dict ring f offset numRead numWritten pos t

theorem iterReq_shape {B : Type} (dict : List B) (f : List Bool) (len : Nat)
    (m : MState B) :
    (iterReq dict f len m).2.t.len = m.t.len ∧
    (iterReq dict f len m).2.t.buf.length = m.t.buf.length := by
  simp only [iterReq]
  split
  · simp
  · split
    · simp
    · next s3 skip3 heqr =>
      split
      · next e t' a b heqw =>
        have hw := walkReq_shapeE heqw
        simpa using hw
      · next t' numRead numWritten heqw =>
        have hw := walkReq_shapeE heqw
        simpa using hw

theorem iterReq_shapeE {B : Type} {dict : List B} {f : List Bool} {len : Nat}
    {m : MState B} {r : (Except DErr Unit) × MState B}
    (h : iterReq dict f len m = r) :
    r.2.t.len = m.t.len ∧ r.2.t.buf.length = m.t.buf.length := by
  subst h
  exact iterReq_shape dict f len m

theorem goReqWords_shape {B : Type} (dict : List B) (ws : List (List Bool)) :
    ∀ (m : MState B),
      (goReqWords dict ws m).2.t.len = m.t.len ∧
      (goReqWords dict ws m).2.t.buf.length = m.t.buf.length := by
  induction ws with
  | nil => intro m; simp [goReqWords]
  | cons f ws ih =>
    intro m
    rw [goReqWords]
    split
    · next e m' heq =>
      exact iterReq_shapeE heq
    · next m' heq =>
      have h1 := iterReq_shapeE heq
      exact ⟨(ih m').1.trans h1.1, (ih m').2.trans h1.2⟩

theorem goReqWords_shapeE {B : Type} {dict : List B} {ws : List (List Bool)}
    {m : MState B} {r : (Except DErr Unit) × MState B}
    (h : goReqWords dict ws m = r) :
    r.2.t.len = m.t.len ∧ r.2.t.buf.length = m.t.buf.length := by
  subst h
  exact goReqWords_shape dict ws m

theorem goMReq_shape {B : Type} (dict : List B) (cs : List HChunk) :
    ∀ (filter : List Bool) (ring : List Nat) (t : Vek B) (pos rowsLeft : Nat),
      (goMReq dict cs filter ring t pos rowsLeft).2.len = t.len ∧
      (goMReq dict cs filter ring t pos rowsLeft).2.buf.length = t.buf.length := by
  induction cs with
  | nil => intro filter ring t pos rowsLeft; simp [goMReq]
  | cons c cs ih =>
    intro filter ring t pos rowsLeft
    cases c with
    | Rle value size =>
      simp only [goMReq]
      split
      · simp
      · split
        · exact ih _ _ _ _ _
        · split
          · split
            · simp
            · next x heq =>
              refine ⟨(ih _ _ _ _ _).1.trans ?_, (ih _ _ _ _ _).2.trans ?_⟩ <;> simp
          · exact ih _ _ _ _ _
    | Bitpacked xs =>
      simp only [goMReq]
      split
      · simp
      · split
        · next e m' heq =>
          have h1 := goReqWords_shapeE heq
          simpa using h1
        · next m' heq =>
          have h1 := goReqWords_shapeE heq
          simp at h1
          split
          · next e m'' heq2 =>
            have h2 := iterReq_shapeE heq2
            exact ⟨h2.1.trans h1.1, h2.2.trans h1.2⟩
          · next m'' heq2 =>
            have h2 := iterReq_shapeE heq2
            exact ⟨(ih _ _ _ _ _).1.trans (h2.1.trans h1.1),
                   (ih _ _ _ _ _).2.trans (h2.2.trans h1.2)⟩

theorem walkOpt_shape {B : Type} (dict : List B) (ring : List Nat)
    (f v : List Bool) (offset numRead numWritten pos : Nat) (t : Vek B) :
    (walkOpt dict ring f v offset numRead numWritten pos t).2.1.len = t.len ∧
    (walkOpt dict ring f v offset numRead numWritten pos t).2.1.buf.length
      = t.buf.length := by
  induction f, v, offset, numRead, numWritten, pos, t using walkOpt.induct dict ring with
  | case1 f v offset numRead numWritten pos t hf e heq =>
    rw [walkOpt]
    simp only [dif_pos hf, heq]
    exact ⟨trivial, trivial⟩
  | case2 f v offset numRead numWritten pos t hf x heq ih =>
    rw [walkOpt]
    simp only [dif_pos hf, heq]
    simpa using ih
  | case3 f v offset numRead numWritten pos t hf =>
    rw [walkOpt]
    simp only [dif_neg hf]
    exact ⟨trivial, trivial⟩

theorem walkOpt_shapeE {B : Type} {dict : List B} {ring : List Nat}
    {f v : List Bool} {offset numRead numWritten pos : Nat} {t : Vek B}
    {r : (Except DErr Unit) × Vek B × Nat × Nat}
    (h : walkOpt dict ring f v offset numRead numWritten pos t = r) :
    r.2.1.len = t.len ∧ r.2.1.buf.length = t.buf.length := by
  subst h
  exact walkOpt_shape dict ring f v offset numRead numWritten pos t

theorem iterOpt_shape {B : Type} (dict : List B) (f v : List Bool)
    (m : MState B) :
    (iterOpt dict f v m).2.t.len = m.t.len ∧
    (iterOpt dict f v m).2.t.buf.length = m.t.buf.length := by
  simp only [iterOpt]
  split
  · simp
  · split
    · simp
    · next s3 skip3 heqr =>
      split
      · next e t' a b heqw =>
        have hw := walkOpt_shapeE heqw
        simpa using hw
      · next t' numRead numWritten heqw =>
        have hw := walkOpt_shapeE heqw
        simpa using hw

theorem iterOpt_shapeE {B : Type} {dict : List B} {f v : List Bool}
    {m : MState B} {r : (Except DErr Unit) × MState B}
    (h : iterOpt dict f v m = r) :
    r.2.t.len = m.t.len ∧ r.2.t.buf.length = m.t.buf.length := by
  subst h
  exact iterOpt_shape dict f v m

theorem goMOptWords_shape {B : Type} (dict : List B) (fws : List (List Bool)) :
    ∀ (vws : List (List Bool)) (m : MState B),
      (goMOptWords dict fws vws m).2.t.len = m.t.len ∧
      (goMOptWords dict fws vws m).2.t.buf.length = m.t.buf.length := by
  induction fws with
  | nil => intro vws m; cases vws <;> simp [goMOptWords]
  | cons f fws ih =>
    intro vws m
    cases vws with
    | nil => simp [goMOptWords]
    | cons v vws =>
      rw [goMOptWords]
      split
      · next e m' heq =>
        exact iterOpt_shapeE heq
      · next m' heq =>
        have h1 := iterOpt_shapeE heq
        exact ⟨(ih vws m').1.trans h1.1, (ih vws m').2.trans h1.2⟩

theorem goMOptWords_shapeE {B : Type} {dict : List B}
    {fws vws : List (List Bool)} {m : MState B}
    {r : (Except DErr Unit) × MState B}
    (h : goMOptWords dict fws vws m = r) :
    r.2.t.len = m.t.len ∧ r.2.t.buf.length = m.t.buf.length := by
  subst h
  exact goMOptWords_shape dict fws vws m

theorem goMOpt_shape {B : Type} (dict : List B) (cs : List HChunk) :
    ∀ (filter validity : List Bool) (ring : List Nat) (t : Vek B)
      (pos rowsLeft : Nat),
      (goMOpt dict cs filter validity ring t pos rowsLeft).2.1.len = t.len ∧
      (goMOpt dict cs filter validity ring t pos rowsLeft).2.1.buf.length
        = t.buf.length := by
  induction cs with
  | nil => intro filter validity ring t pos rowsLeft; simp [goMOpt]
  | cons c cs ih =>
    intro filter validity ring t pos rowsLeft
    cases c with
    | Rle value size =>
      simp only [goMOpt]
      split
      · simp
      · split
        · exact ih _ _ _ _ _ _
        · split
          · split
            · simp
            · next x heq =>
              refine ⟨(ih _ _ _ _ _ _).1.trans ?_, (ih _ _ _ _ _ _).2.trans ?_⟩ <;> simp
          · exact ih _ _ _ _ _ _
    | Bitpacked xs =>
      simp only [goMOpt]
      split
      · simp
      · split
        · next e m' heq =>
          have h1 := goMOptWords_shapeE heq
          simpa using h1
        · next m' heq =>
          have h1 := goMOptWords_shapeE heq
          simp at h1
          split
          · simpa using h1
          · split
            · next e m'' heq2 =>
              have h2 := iterOpt_shapeE heq2
              exact ⟨h2.1.trans h1.1, h2.2.trans h1.2⟩
            · next m'' heq2 =>
              have h2 := iterOpt_shapeE heq2
              exact ⟨(ih _ _ _ _ _ _).1.trans (h2.1.trans h1.1),
                     (ih _ _ _ _ _ _).2.trans (h2.2.trans h1.2)⟩

end PQ

namespace PQ

/-! ### Stream and bitmap arithmetic -/

theorem streamLen_truncate (cs : List HChunk) (n : Nat) :
    streamLen (truncateChunks cs n) = min (streamLen cs) n := by
  induction cs, n using truncateChunks.induct with
  | case1 cs => simp [truncateChunks, streamLen]
  | case2 n => simp [truncateChunks, streamLen]
  | case3 v l cs n hle ih =>
    rw [truncateChunks]
    simp only [if_pos hle]
    simp [streamLen, chunkSize, ih]
    try omega
  | case4 v l cs n hle =>
    rw [truncateChunks]
    simp only [if_neg hle]
    simp [streamLen, chunkSize] at hle ⊢
    try omega
  | case5 xs cs n hle ih =>
    rw [truncateChunks]
    simp only [if_pos hle]
    simp [streamLen, chunkSize, ih]
    try omega
  | case6 xs cs n hle =>
    rw [truncateChunks]
    simp only [if_neg hle]
    simp [streamLen, chunkSize] at hle ⊢
    try omega

theorem limit_to_len (d : HybridRleDecoder) (n : Nat) :
    (d.limit_to n).len = min d.len n := by
  simp [HybridRleDecoder.limit_to, HybridRleDecoder.len, streamLen_truncate]

theorem countT_le_length (bs : List Bool) : countT bs ≤ bs.length :=
  List.count_le_length true bs

theorem countT_take_le (bs : List Bool) (n : Nat) :
    countT (bs.take n) ≤ countT bs :=
  List.Sublist.count_le (List.take_sublist n bs) true

theorem countT_filter_from_range (lo hi : Nat) :
    countT (filter_from_range lo hi) = hi - lo := by
  induction hi with
  | zero => simp [filter_from_range, countT]
  | succ hi ih =>
    rw [filter_from_range, List.range_succ]
    simp only [List.map_append, List.map_cons, List.map_nil]
    rw [countT, List.count_append]
    rw [filter_from_range] at ih
    rw [countT] at ih
    rw [ih]
    by_cases h : lo ≤ hi
    · simp [List.count_cons, h]
      omega
    · simp [List.count_cons, h]
      omega

theorem filter_from_range_length (lo hi : Nat) :
    (filter_from_range lo hi).length = hi := by
  simp [filter_from_range]

theorem filter_boolean_kernel_cons (a b : Bool) (as bs : List Bool) :
    filter_boolean_kernel (a :: as) (b :: bs)
      = if b then a :: filter_boolean_kernel as bs
        else filter_boolean_kernel as bs := by
  cases b <;> simp [filter_boolean_kernel]

theorem filter_boolean_kernel_length (pv mask : List Bool)
    (h : mask.length ≤ pv.length) :
    (filter_boolean_kernel pv mask).length = countT mask := by
  induction mask generalizing pv with
  | nil => simp [filter_boolean_kernel, countT]
  | cons b bs ih =>
    cases pv with
    | nil => simp at h
    | cons a as =>
      simp only [List.length_cons, Nat.add_le_add_iff_right] at h
      cases b <;>
        simp [filter_boolean_kernel_cons, ih as h, countT, List.count_cons]

/-- Number of bits `append_validity` appends. -/
def appendedRows (page_validity : Option (List Bool))
    (filter : Option RowFilter) (values_len : Nat) : Nat :=
  match page_validity, filter with
  | none, none => values_len
  | none, some f => f.num_rows
  | some pv, none => pv.length
  | some pv, some (.Range lo hi) => min (hi - lo) (pv.length - lo)
  | some pv, some (.Mask m) => (filter_boolean_kernel pv m).length

theorem append_validity_length (page_validity : Option (List Bool))
    (filter : Option RowFilter) (validity : List Bool) (values_len : Nat) :
    (append_validity page_validity filter validity values_len).length
      = validity.length + appendedRows page_validity filter values_len := by
  cases page_validity with
  | none =>
    cases filter with
    | none => simp [append_validity, appendedRows]
    | some f => simp [append_validity, appendedRows]
  | some pv =>
    cases filter with
    | none => simp [append_validity, appendedRows]
    | some f =>
      cases f with
      | Range lo hi =>
        simp [append_validity, appendedRows]
        try omega
      | Mask m => simp [append_validity, appendedRows]

/-! ### Kernel-level length laws -/

theorem required_errE {B : Type} {values : HybridRleDecoder} {dict : List B}
    {target : Vek B} {r : (Except DErr Unit) × Vek B}
    (heq : decode_required_dict values dict target = r) :
    ∀ e, r.1 = .error e → r.2.len = target.len := by
  intro e h1
  rw [decode_required_dict] at heq
  split at heq
  · rw [← heq]
  · simp only [] at heq
    split at heq
    · next e' t' hgo =>
      have := goRequired_shape dict values.chunks target.len (target.reserve values.len)
      rw [hgo] at this
      rw [← heq]
      simpa using this.1
    · rw [← heq] at h1
      simp at h1

theorem required_okE {B : Type} {values : HybridRleDecoder} {dict : List B}
    {target : Vek B} {r : (Except DErr Unit) × Vek B}
    (heq : decode_required_dict values dict target = r)
    (h1 : r.1 = .ok ()) : r.2.len = target.len + values.len := by
  rw [decode_required_dict] at heq
  split at heq
  · rw [← heq] at h1
    simp at h1
  · simp only [] at heq
    split at heq
    · rw [← heq] at h1
      simp at h1
    · rw [← heq]
      simp

theorem optional_errE {B : Type} {z : B} {values : HybridRleDecoder}
    {dict : List B} {validity : List Bool} {target : Vek B}
    {r : (Except DErr Unit) × Vek B}
    (heq : decode_optional_dict z values dict validity target = r) :
    ∀ e, r.1 = .error e → r.2.len = target.len := by
  intro e h1
  rw [decode_optional_dict] at heq
  split at heq
  · exact required_errE heq e h1
  · split at heq
    · rw [← heq]
    · split at heq
      · rw [← heq]
      · simp only [] at heq
        split at heq
        · next e' t' v' p' hgo =>
          have := goOpt_shape dict (values.limit_to (countT validity)).chunks
            validity (List.replicate 128 0) (target.reserve validity.length) target.len
          rw [hgo] at this
          rw [← heq]
          simpa using this.1
        · rw [← heq] at h1
          simp at h1

theorem optional_okE {B : Type} {z : B} {values : HybridRleDecoder}
    {dict : List B} {validity : List Bool} {target : Vek B}
    {r : (Except DErr Unit) × Vek B}
    (hval : countT validity ≤ values.len)
    (heq : decode_optional_dict z values dict validity target = r)
    (h1 : r.1 = .ok ()) : r.2.len = target.len + validity.length := by
  rw [decode_optional_dict] at heq
  by_cases hc1 : countT validity = validity.length
  · rw [if_pos hc1] at heq
    have hlen := required_okE heq h1
    rw [limit_to_len] at hlen
    rw [hlen]
    have : validity.length ≤ values.len := by rw [← hc1]; exact hval
    omega
  · rw [if_neg hc1] at heq
    by_cases hc2 : dict.isEmpty = true ∧ 0 < countT validity
    · rw [if_pos hc2] at heq
      rw [← heq] at h1
      simp at h1
    · rw [if_neg hc2] at heq
      rw [if_neg (by simpa using hval)] at heq
      simp only [] at heq
      split at heq
      · rw [← heq] at h1
        simp at h1
      · rw [← heq]
        simp

end PQ

namespace PQ

theorem masked_required_errE {B : Type} {values : HybridRleDecoder}
    {dict : List B} {filter : List Bool} {target : Vek B}
    {r : (Except DErr Unit) × Vek B}
    (heq : decode_masked_required_dict values dict filter target = r) :
    ∀ e, r.1 = .error e → r.2.len = target.len := by
  intro e h1
  rw [decode_masked_required_dict] at heq
  by_cases hc1 : countT filter = filter.length
  · rw [if_pos hc1] at heq
    exact required_errE heq e h1
  · rw [if_neg hc1] at heq
    by_cases hc2 : dict.isEmpty = true ∧ ¬ filter.isEmpty = true
    · rw [if_pos hc2] at heq
      rw [← heq]
    · rw [if_neg hc2] at heq
      simp only [] at heq
      split at heq
      · next e' t' hgo =>
        have := goMReq_shape dict (values.limit_to filter.length).chunks filter
          (List.replicate 128 0) (target.reserve (countT filter)) target.len
          (countT filter)
        rw [hgo] at this
        rw [← heq]
        simpa using this.1
      · rw [← heq] at h1
        simp at h1

theorem masked_required_okE {B : Type} {values : HybridRleDecoder}
    {dict : List B} {filter : List Bool} {target : Vek B}
    {r : (Except DErr Unit) × Vek B}
    (hflt : filter.length ≤ values.len)
    (heq : decode_masked_required_dict values dict filter target = r)
    (h1 : r.1 = .ok ()) : r.2.len = target.len + countT filter := by
  rw [decode_masked_required_dict] at heq
  by_cases hc1 : countT filter = filter.length
  · rw [if_pos hc1] at heq
    have hlen := required_okE heq h1
    rw [limit_to_len] at hlen
    rw [hlen, hc1]
    omega
  · rw [if_neg hc1] at heq
    by_cases hc2 : dict.isEmpty = true ∧ ¬ filter.isEmpty = true
    · rw [if_pos hc2] at heq
      rw [← heq] at h1
      simp at h1
    · rw [if_neg hc2] at heq
      simp only [] at heq
      split at heq
      · rw [← heq] at h1
        simp at h1
      · rw [← heq]
        simp

theorem masked_optional_errE {B : Type} {z : B} {values : HybridRleDecoder}
    {dict : List B} {filter validity : List Bool} {target : Vek B}
    {r : (Except DErr Unit) × Vek B}
    (heq : decode_masked_optional_dict z values dict filter validity target = r) :
    ∀ e, r.1 = .error e → r.2.len = target.len := by
  intro e h1
  rw [decode_masked_optional_dict] at heq
  by_cases hc1 : countT filter = filter.length
  · rw [if_pos hc1] at heq
    exact optional_errE heq e h1
  · rw [if_neg hc1] at heq
    by_cases hc2 : countT validity = validity.length
    · rw [if_pos hc2] at heq
      exact masked_required_errE heq e h1
    · rw [if_neg hc2] at heq
      by_cases hc3 : dict.isEmpty = true ∧ 0 < countT validity
      · rw [if_pos hc3] at heq
        rw [← heq]
      · rw [if_neg hc3] at heq
        by_cases hc4 : ¬ countT validity ≤ values.len
        · rw [if_pos hc4] at heq
          rw [← heq]
        · rw [if_neg hc4] at heq
          simp only [] at heq
          split at heq
          · next e' t' p' rl hgo =>
            have := goMOpt_shape dict (values.limit_to (countT validity)).chunks
              filter validity (List.replicate 128 0)
              (target.reserve (countT filter)) target.len (countT filter)
            rw [hgo] at this
            rw [← heq]
            simpa using this.1
          · rw [← heq] at h1
            simp at h1

theorem masked_optional_okE {B : Type} {z : B} {values : HybridRleDecoder}
    {dict : List B} {filter validity : List Bool} {target : Vek B}
    {r : (Except DErr Unit) × Vek B}
    (hlen : filter.length = validity.length)
    (hval : countT validity ≤ values.len)
    (heq : decode_masked_optional_dict z values dict filter validity target = r)
    (h1 : r.1 = .ok ()) : r.2.len = target.len + countT filter := by
  rw [decode_masked_optional_dict] at heq
  by_cases hc1 : countT filter = filter.length
  · rw [if_pos hc1] at heq
    have := optional_okE hval heq h1
    rw [this, hc1, hlen]
  · rw [if_neg hc1] at heq
    by_cases hc2 : countT validity = validity.length
    · rw [if_pos hc2] at heq
      have hflt : filter.length ≤ values.len := by
        rw [hlen, ← hc2]
        exact hval
      exact masked_required_okE hflt heq h1
    · rw [if_neg hc2] at heq
      by_cases hc3 : dict.isEmpty = true ∧ 0 < countT validity
      · rw [if_pos hc3] at heq
        rw [← heq] at h1
        simp at h1
      · rw [if_neg hc3] at heq
        rw [if_neg (by simpa using hval)] at heq
        simp only [] at heq
        split at heq
        · rw [← heq] at h1
          simp at h1
        · rw [← heq]
          simp

end PQ

namespace PQ

/-- Announced output-row count of a dispatch call (rows the kernels append on
success): `values.len()` with neither filter nor validity, the constrained
page-validity length with validity only, and `filter.num_rows` with a
filter. -/
def dispatchOutputRows (values_len : Nat) (page_validity : Option (List Bool))
    (filter : Option RowFilter) : Nat :=
  match filter, page_validity with
  | none, none => values_len
  | none, some v => v.length
  | some f, _ => f.num_rows

theorem dispatch_validity_eq {B : Type} (z : B) (values : HybridRleDecoder)
    (dict : List B) (is_optional : Bool) (page_validity : Option (List Bool))
    (filter : Option RowFilter) (validity : List Bool) (target : Vek B) :
    (decode_dict_dispatch z values dict is_optional page_validity filter
      validity target).2.1
      = if is_optional then
          append_validity page_validity filter validity values.len
        else validity := by
  rw [decode_dict_dispatch.eq_def]

theorem dispatch_err_len {B : Type} {z : B} {values : HybridRleDecoder}
    {dict : List B} {is_optional : Bool} {page_validity : Option (List Bool)}
    {filter : Option RowFilter} {validity : List Bool} {target : Vek B}
    {r : (Except DErr Unit) × List Bool × Vek B}
    (heq : decode_dict_dispatch z values dict is_optional page_validity filter
      validity target = r) :
    ∀ e, r.1 = .error e → r.2.2.len = target.len := by
  intro e h1
  rw [decode_dict_dispatch.eq_def] at heq
  simp only [] at heq
  subst heq
  simp only [] at h1 ⊢
  cases filter with
  | none =>
    cases hpv : constrain_page_validity values.len page_validity none with
    | none =>
      rw [hpv] at h1
      exact required_errE rfl e h1
    | some v =>
      rw [hpv] at h1
      exact optional_errE rfl e h1
  | some f =>
    cases f with
    | Range lo hi =>
      cases hpv : constrain_page_validity values.len page_validity
          (some (.Range lo hi)) with
      | none =>
        rw [hpv] at h1
        simp only [] at h1 ⊢
        by_cases hlo : lo = 0
        · rw [if_pos hlo] at h1 ⊢
          exact required_errE rfl e h1
        · rw [if_neg hlo] at h1 ⊢
          exact masked_required_errE rfl e h1
      | some v =>
        rw [hpv] at h1
        simp only [] at h1 ⊢
        by_cases hlo : lo = 0
        · rw [if_pos hlo] at h1 ⊢
          exact optional_errE rfl e h1
        · rw [if_neg hlo] at h1 ⊢
          exact masked_optional_errE rfl e h1
    | Mask m =>
      cases hpv : constrain_page_validity values.len page_validity
          (some (.Mask m)) with
      | none =>
        rw [hpv] at h1
        exact masked_required_errE rfl e h1
      | some v =>
        rw [hpv] at h1
        exact masked_optional_errE rfl e h1

end PQ

namespace PQ

theorem constrain_none (n : Nat) (f : Option RowFilter) :
    constrain_page_validity n none f = none := rfl

theorem constrain_some_none (n : Nat) (v : List Bool) :
    constrain_page_validity n (some v) none = some v := by
  simp [constrain_page_validity]

theorem constrain_some_filter (n : Nat) (v : List Bool) (f : RowFilter) :
    constrain_page_validity n (some v) (some f)
      = some (if f.max_offset < v.length then v.take f.max_offset else v) := rfl

theorem constrained_length {v : List Bool} {k : Nat} (h : k ≤ v.length) :
    (if k < v.length then v.take k else v).length = k := by
  split
  · simp
    omega
  · omega

theorem constrained_countT (v : List Bool) (k : Nat) :
    countT (if k < v.length then v.take k else v) ≤ countT v := by
  split
  · exact countT_take_le v k
  · exact Nat.le_refl _

theorem dispatch_ok_len {B : Type} {z : B} {values : HybridRleDecoder}
    {dict : List B} {is_optional : Bool} {page_validity : Option (List Bool)}
    {filter : Option RowFilter} {validity : List Bool} {target : Vek B}
    (hfil : match filter, page_validity with
            | some f, none => f.max_offset ≤ values.len
            | some f, some v => f.max_offset ≤ v.length
            | none, _ => True)
    (hval : ∀ v, page_validity = some v → countT v ≤ values.len)
    (h1 : (decode_dict_dispatch z values dict is_optional page_validity filter
      validity target).1 = .ok ()) :
    (decode_dict_dispatch z values dict is_optional page_validity filter
      validity target).2.2.len
      = target.len + dispatchOutputRows values.len page_validity filter := by
  rw [decode_dict_dispatch.eq_def] at h1 ⊢
  simp only [] at h1 ⊢
  cases filter with
  | none =>
    cases page_validity with
    | none =>
      rw [constrain_none] at h1 ⊢
      simp only [dispatchOutputRows]
      exact required_okE rfl h1
    | some v =>
      rw [constrain_some_none] at h1 ⊢
      simp only [dispatchOutputRows]
      exact optional_okE (hval v rfl) rfl h1
  | some f =>
    cases f with
    | Range lo hi =>
      cases page_validity with
      | none =>
        rw [constrain_none] at h1 ⊢
        simp only [dispatchOutputRows, RowFilter.num_rows] at hfil ⊢
        simp only [RowFilter.max_offset] at hfil
        simp only [] at h1
        by_cases hlo : lo = 0
        · rw [if_pos hlo] at h1 ⊢
          have := required_okE rfl h1
          rw [limit_to_len] at this
          rw [this]
          subst hlo
          omega
        · rw [if_neg hlo] at h1 ⊢
          have hflt : (filter_from_range lo hi).length ≤ values.len := by
            rw [filter_from_range_length]
            exact hfil
          have := masked_required_okE hflt rfl h1
          rw [this, countT_filter_from_range]
      | some v =>
        rw [constrain_some_filter] at h1 ⊢
        simp only [dispatchOutputRows, RowFilter.num_rows] at hfil ⊢
        simp only [RowFilter.max_offset] at hfil ⊢
        simp only [] at h1
        have hv' : countT (if hi < v.length then v.take hi else v) ≤ values.len :=
          Nat.le_trans (constrained_countT v hi) (hval v rfl)
        by_cases hlo : lo = 0
        · rw [if_pos hlo] at h1 ⊢
          have := optional_okE hv' rfl h1
          rw [this, constrained_length hfil]
          subst hlo
          omega
        · rw [if_neg hlo] at h1 ⊢
          have hlen : (filter_from_range lo hi).length
              = (if hi < v.length then v.take hi else v).length := by
            rw [filter_from_range_length, constrained_length hfil]
          have := masked_optional_okE hlen hv' rfl h1
          rw [this, countT_filter_from_range]
    | Mask m =>
      cases page_validity with
      | none =>
        rw [constrain_none] at h1 ⊢
        simp only [dispatchOutputRows, RowFilter.num_rows] at hfil ⊢
        simp only [RowFilter.max_offset] at hfil
        exact masked_required_okE hfil rfl h1
      | some v =>
        rw [constrain_some_filter] at h1 ⊢
        simp only [dispatchOutputRows, RowFilter.num_rows] at hfil ⊢
        simp only [RowFilter.max_offset] at hfil ⊢
        have hv' : countT (if m.length < v.length then v.take m.length else v)
            ≤ values.len :=
          Nat.le_trans (constrained_countT v m.length) (hval v rfl)
        have hlen : m.length
            = (if m.length < v.length then v.take m.length else v).length := by
          rw [constrained_length hfil]
        exact masked_optional_okE hlen hv' rfl h1

end PQ

namespace PQ

instance {ε α : Type} [DecidableEq ε] [DecidableEq α] :
    DecidableEq (Except ε α) := fun a b =>
  match a, b with
  | .ok x, .ok y => decidable_of_iff (x = y) (by simp)
  | .error x, .error y => decidable_of_iff (x = y) (by simp)
  | .ok _, .error _ => isFalse (by simp)
  | .error _, .ok _ => isFalse (by simp)

theorem appendedRows_eq_outputRows {page_validity : Option (List Bool)}
    {filter : Option RowFilter} {values_len : Nat}
    (hfil : match filter, page_validity with
            | some f, none => f.max_offset ≤ values_len
            | some f, some v => f.max_offset ≤ v.length
            | none, _ => True) :
    appendedRows page_validity filter values_len
      = dispatchOutputRows values_len page_validity filter := by
  cases filter with
  | none =>
    cases page_validity with
    | none => rfl
    | some v => rfl
  | some f =>
    cases page_validity with
    | none =>
      cases f with
      | Range lo hi => rfl
      | Mask m => rfl
    | some v =>
      cases f with
      | Range lo hi =>
        simp only [RowFilter.max_offset] at hfil
        simp only [appendedRows, dispatchOutputRows, RowFilter.num_rows]
        omega
      | Mask m =>
        simp only [RowFilter.max_offset] at hfil
        simp only [appendedRows, dispatchOutputRows, RowFilter.num_rows]
        rw [filter_boolean_kernel_length v m hfil]

/-- C6: on every input where a kernel (or the dispatcher) returns an error,
the target length on exit equals the target length on entry: the error return
happens before the final `set_len`, so no partially written output is exposed
through the target's length. -/
theorem C6_no_partial_output_on_error (B : Type) (z : B) :
    (∀ (values : HybridRleDecoder) (dict : List B) (target : Vek B) (e : DErr),
      (decode_required_dict values dict target).1 = .error e →
      (decode_required_dict values dict target).2.len = target.len) ∧
    (∀ (values : HybridRleDecoder) (dict : List B) (validity : List Bool)
      (target : Vek B) (e : DErr),
      (decode_optional_dict z values dict validity target).1 = .error e →
      (decode_optional_dict z values dict validity target).2.len = target.len) ∧
    (∀ (values : HybridRleDecoder) (dict : List B) (filter : List Bool)
      (target : Vek B) (e : DErr),
      (decode_masked_required_dict values dict filter target).1 = .error e →
      (decode_masked_required_dict values dict filter target).2.len
        = target.len) ∧
    (∀ (values : HybridRleDecoder) (dict : List B) (filter validity : List Bool)
      (target : Vek B) (e : DErr),
      (decode_masked_optional_dict z values dict filter validity target).1
          = .error e →
      (decode_masked_optional_dict z values dict filter validity target).2.len
        = target.len) ∧
    (∀ (values : HybridRleDecoder) (dict : List B) (is_optional : Bool)
      (page_validity : Option (List Bool)) (filter : Option RowFilter)
      (validity : List Bool) (target : Vek B) (e : DErr),
      (decode_dict_dispatch z values dict is_optional page_validity filter
        validity target).1 = .error e →
      (decode_dict_dispatch z values dict is_optional page_validity filter
        validity target).2.2.len = target.len) := by
  refine ⟨?_, ?_, ?_, ?_, ?_⟩
  · intro values dict target e h1
    exact required_errE rfl e h1
  · intro values dict validity target e h1
    exact optional_errE rfl e h1
  · intro values dict filter target e h1
    exact masked_required_errE rfl e h1
  · intro values dict filter validity target e h1
    exact masked_optional_errE rfl e h1
  · intro values dict is_optional page_validity filter validity target e h1
    exact dispatch_err_len rfl e h1

/-- Witness for C6: a concrete erroring call (empty dictionary, one-value
stream) whose target length is unchanged. -/
theorem C6_no_partial_output_on_error_witness :
    (decode_required_dict ⟨[.Rle 0 1]⟩ ([] : List Nat) ⟨0, []⟩).1
        = .error .oob ∧
    (decode_required_dict ⟨[.Rle 0 1]⟩ ([] : List Nat) ⟨0, []⟩).2.len = 0 :=
  ⟨by decide,
   (C6_no_partial_output_on_error Nat 0).1 ⟨[.Rle 0 1]⟩ [] ⟨0, []⟩ .oob
     (by decide)⟩

/-- C1 counterexample: a successful dispatch call with page validity
`10` (two rows, one null) and a one-index stream appends two rows, not
`values.len() = 1` rows, refuting the claim's `output_rows = values.len()`
for the no-filter case. -/
theorem C1_counterexample :
    (decode_dict_dispatch (0 : Nat) ⟨[.Rle 0 1]⟩ [9] false
        (some [true, false]) none [] ⟨0, []⟩).1 = .ok () ∧
    HybridRleDecoder.len ⟨[.Rle 0 1]⟩ = 1 ∧
    (decode_dict_dispatch (0 : Nat) ⟨[.Rle 0 1]⟩ [9] false
        (some [true, false]) none [] ⟨0, []⟩).2.2.len = 2 := by
  decide

/-- C1 (amended): for every successful, well-formed dispatch call the length
law holds with `output_rows` equal to `values.len()` only when neither filter
nor page validity is given; with page validity and no filter it is the
constrained page-validity length; with a filter it is the range length or
mask popcount.  When `is_optional` is set, `validity.len() == target.len()`
on exit. -/
theorem C1_length_law {B : Type} (z : B) (values : HybridRleDecoder)
    (dict : List B) (is_optional : Bool) (page_validity : Option (List Bool))
    (filter : Option RowFilter) (validity : List Bool) (target : Vek B)
    (hfil : match filter, page_validity with
            | some f, none => f.max_offset ≤ values.len
            | some f, some v => f.max_offset ≤ v.length
            | none, _ => True)
    (hval : ∀ v, page_validity = some v → countT v ≤ values.len)
    (hopt : is_optional = true → validity.length = target.len)
    (h1 : (decode_dict_dispatch z values dict is_optional page_validity filter
      validity target).1 = .ok ()) :
    (decode_dict_dispatch z values dict is_optional page_validity filter
      validity target).2.2.len
      = target.len + dispatchOutputRows values.len page_validity filter ∧
    (is_optional = true →
      (decode_dict_dispatch z values dict is_optional page_validity filter
        validity target).2.1.length
      = (decode_dict_dispatch z values dict is_optional page_validity filter
        validity target).2.2.len) := by
  refine ⟨dispatch_ok_len hfil hval h1, ?_⟩
  intro hio
  rw [dispatch_validity_eq, if_pos hio, append_validity_length,
    dispatch_ok_len hfil hval h1, appendedRows_eq_outputRows hfil, hopt hio]

/-- Witness for C1 (amended): a successful optional call with page validity
`10` appends two target rows and two validity bits. -/
theorem C1_length_law_witness :
    (match (none : Option RowFilter), (some [true, false] : Option (List Bool)) with
      | some f, none => f.max_offset ≤ HybridRleDecoder.len ⟨[.Rle 0 2]⟩
      | some f, some v => f.max_offset ≤ v.length
      | none, _ => True) ∧
    (decode_dict_dispatch (5 : Nat) ⟨[.Rle 0 2]⟩ [7] true (some [true, false])
        none [] ⟨0, []⟩).2.2.len
      = 0 + dispatchOutputRows (HybridRleDecoder.len ⟨[.Rle 0 2]⟩)
          (some [true, false]) none ∧
    (decode_dict_dispatch (5 : Nat) ⟨[.Rle 0 2]⟩ [7] true (some [true, false])
        none [] ⟨0, []⟩).2.1.length
      = (decode_dict_dispatch (5 : Nat) ⟨[.Rle 0 2]⟩ [7] true
          (some [true, false]) none [] ⟨0, []⟩).2.2.len := by
  have h := C1_length_law (5 : Nat) ⟨[.Rle 0 2]⟩ [7] true (some [true, false])
    none [] ⟨0, []⟩ trivial
    (by intro v hv; cases hv; decide)
    (by intro hio; decide)
    (by decide)
  exact ⟨trivial, h.1, h.2 rfl⟩

/-- C10 counterexample: an erroring optional dispatch call (empty dictionary,
all-false mask) on which the appended validity is empty, so on error
`validity.len()` equals `target.len()` instead of exceeding it. -/
theorem C10_counterexample :
    (decode_dict_dispatch (0 : Nat) ⟨[.Rle 0 1]⟩ ([] : List Nat) true none
        (some (.Mask [false])) [] ⟨0, []⟩).1 = .error .oob ∧
    (decode_dict_dispatch (0 : Nat) ⟨[.Rle 0 1]⟩ ([] : List Nat) true none
        (some (.Mask [false])) [] ⟨0, []⟩).2.1.length
      = (decode_dict_dispatch (0 : Nat) ⟨[.Rle 0 1]⟩ ([] : List Nat) true none
        (some (.Mask [false])) [] ⟨0, []⟩).2.2.len := by
  decide

/-- C10 (amended): when `is_optional` is true and a kernel fails,
`decode_dict_dispatch` returns the error with the output validity already
extended by the announced append length (`append_validity` runs before the
kernel and is not rolled back) while the target length is unchanged; so
`validity.len()` exceeds `target.len()` exactly when that announced length is
positive (given they were equal on entry), not unconditionally. -/
theorem C10_validity_on_error {B : Type} (z : B) (values : HybridRleDecoder)
    (dict : List B) (page_validity : Option (List Bool))
    (filter : Option RowFilter) (validity : List Bool) (target : Vek B)
    (e : DErr)
    (h1 : (decode_dict_dispatch z values dict true page_validity filter
      validity target).1 = .error e) :
    (decode_dict_dispatch z values dict true page_validity filter
      validity target).2.1.length
      = validity.length + appendedRows page_validity filter values.len ∧
    (decode_dict_dispatch z values dict true page_validity filter
      validity target).2.2.len = target.len := by
  constructor
  · rw [dispatch_validity_eq, if_pos rfl, append_validity_length]
  · exact dispatch_err_len rfl e h1

/-- Witness for C10 (amended): with no filter and no validity the appended
length is `values.len() = 1`, so on error the validity bitmap is one bit
longer than the unchanged target. -/
theorem C10_validity_on_error_witness :
    (decode_dict_dispatch (0 : Nat) ⟨[.Rle 0 1]⟩ ([] : List Nat) true none
        none [] ⟨0, []⟩).2.1.length
      = 0 + appendedRows none none (HybridRleDecoder.len ⟨[.Rle 0 1]⟩) ∧
    (decode_dict_dispatch (0 : Nat) ⟨[.Rle 0 1]⟩ ([] : List Nat) true none
        none [] ⟨0, []⟩).2.2.len = 0 :=
  C10_validity_on_error (0 : Nat) ⟨[.Rle 0 1]⟩ [] none none [] ⟨0, []⟩ .oob
    (by decide)

end PQ

namespace PQ

/-- C7: the fast-path delegations.  With all-ones page validity the optional
kernels produce exactly the output of the corresponding required kernels, and
with an all-ones filter the masked kernels produce exactly the output of the
corresponding unmasked kernels, as the first checks of each kernel. -/
theorem C7_fast_path_equivalence {B : Type} (z : B) (values : HybridRleDecoder)
    (dict : List B) (filter validity : List Bool) (target : Vek B) :
    (countT validity = validity.length →
      decode_optional_dict z values dict validity target
        = decode_required_dict (values.limit_to validity.length) dict target) ∧
    (countT filter ≠ filter.length → countT validity = validity.length →
      decode_masked_optional_dict z values dict filter validity target
        = decode_masked_required_dict values dict filter target) ∧
    (countT filter = filter.length →
      decode_masked_optional_dict z values dict filter validity target
        = decode_optional_dict z values dict validity target) ∧
    (countT filter = filter.length →
      decode_masked_required_dict values dict filter target
        = decode_required_dict (values.limit_to filter.length) dict target) := by
  refine ⟨?_, ?_, ?_, ?_⟩
  · intro h
    rw [decode_optional_dict, if_pos h]
  · intro hf hv
    rw [decode_masked_optional_dict, if_neg hf, if_pos hv]
  · intro hf
    rw [decode_masked_optional_dict, if_pos hf]
  · intro hf
    rw [decode_masked_required_dict, if_pos hf]

/-- Witness for C7: the four delegations at concrete inputs. -/
theorem C7_fast_path_equivalence_witness :
    (decode_optional_dict (0 : Nat) ⟨[.Rle 0 1]⟩ [3] [true] ⟨0, []⟩
      = decode_required_dict (HybridRleDecoder.limit_to ⟨[.Rle 0 1]⟩ 1) [3]
          ⟨0, []⟩) ∧
    (decode_masked_optional_dict (0 : Nat) ⟨[.Rle 0 1]⟩ [3] [false] [true]
        ⟨0, []⟩
      = decode_masked_required_dict ⟨[.Rle 0 1]⟩ [3] [false] ⟨0, []⟩) ∧
    (decode_masked_optional_dict (0 : Nat) ⟨[.Rle 0 1]⟩ [3] [true] [false]
        ⟨0, []⟩
      = decode_optional_dict (0 : Nat) ⟨[.Rle 0 1]⟩ [3] [false] ⟨0, []⟩) ∧
    (decode_masked_required_dict ⟨[.Rle 0 1]⟩ [3] [true] ⟨0, []⟩
      = decode_required_dict (HybridRleDecoder.limit_to ⟨[.Rle 0 1]⟩ 1) [3]
          ⟨0, []⟩) :=
  ⟨(C7_fast_path_equivalence (0 : Nat) ⟨[.Rle 0 1]⟩ [3] [false] [true]
      ⟨0, []⟩).1 (by decide),
   (C7_fast_path_equivalence (0 : Nat) ⟨[.Rle 0 1]⟩ [3] [false] [true]
      ⟨0, []⟩).2.1 (by decide) (by decide),
   (C7_fast_path_equivalence (0 : Nat) ⟨[.Rle 0 1]⟩ [3] [true] [false]
      ⟨0, []⟩).2.2.1 (by decide),
   (C7_fast_path_equivalence (0 : Nat) ⟨[.Rle 0 1]⟩ [3] [true] [false]
      ⟨0, []⟩).2.2.2 (by decide)⟩

/-- C8: dispatch with filter `Range(0, e)` and no page validity is exactly
limiting the stream to `e` indices and running `decode_required_dict`; the
concrete conjunct instantiates `dict = [5,6,7]`, a stream of length 10 and
`Range(0, 4)`. -/
theorem C8_range_fast_path :
    (∀ (B : Type) (z : B) (values : HybridRleDecoder) (dict : List B)
       (hi : Nat) (validity : List Bool) (target : Vek B),
      decode_dict_dispatch z values dict false none (some (.Range 0 hi))
          validity target
        = ((decode_required_dict (values.limit_to hi) dict target).1, validity,
           (decode_required_dict (values.limit_to hi) dict target).2)) ∧
    (decode_dict_dispatch (0 : Nat) ⟨[.Rle 1 4, .Rle 0 6]⟩ [5, 6, 7] false none
        (some (.Range 0 4)) [] ⟨0, []⟩
      = ((decode_required_dict
            (HybridRleDecoder.limit_to ⟨[.Rle 1 4, .Rle 0 6]⟩ 4) [5, 6, 7]
            ⟨0, []⟩).1, [],
         (decode_required_dict
            (HybridRleDecoder.limit_to ⟨[.Rle 1 4, .Rle 0 6]⟩ 4) [5, 6, 7]
            ⟨0, []⟩).2)) := by
  constructor
  · intro B z values dict hi validity target
    rfl
  · rfl

/-- C4 counterexample: with `D = 0`, a non-empty all-false mask (no non-null,
non-filtered-out output row) still fails with `OutOfBoundsDictIndex`, although
the claim says such a call succeeds. -/
theorem C4_counterexample :
    countT [false] = 0 ∧
    (decode_dict_dispatch (0 : Nat) ⟨[.Rle 0 1]⟩ ([] : List Nat) false none
        (some (.Mask [false])) [] ⟨0, []⟩).1 = .error .oob := by
  decide

theorem truncateChunks_zero (cs : List HChunk) : truncateChunks cs 0 = [] := by
  cases cs with
  | nil => rfl
  | cons c cs => cases c <;> rfl

/-- A zero-length stream decodes no indices, so the chunk loop of the
required kernel finishes without touching the dictionary. -/
theorem goRequired_zeroStream {B : Type} (dict : List B) :
    ∀ (cs : List HChunk), streamLen cs = 0 →
      ∀ (pos : Nat) (t : Vek B), goRequired dict cs pos t = (.ok (), t) := by
  intro cs
  induction cs with
  | nil => intro h pos t; rfl
  | cons c cs ih =>
    intro h pos t
    cases c with
    | Rle value length =>
      rw [streamLen, chunkSize] at h
      have hl : length = 0 := by omega
      rw [goRequired, if_pos hl]
      exact ih (by omega) pos t
    | Bitpacked xs =>
      rw [streamLen, chunkSize] at h
      have hx : xs = [] := List.eq_nil_of_length_eq_zero (by omega)
      subst hx
      rw [goRequired]
      rw [show goBitpackedReq dict [] pos t = (.ok (), t, pos) from by
        rw [goBitpackedReq]
        simp]
      exact ih (by omega) pos t

/-- With no indices left to decode, `decode_required_dict` succeeds even on
an empty dictionary: the guard tests `values.len() > 0`. -/
theorem decode_required_emptyStream_ok {B : Type} (dict : List B)
    (values : HybridRleDecoder) (target : Vek B) (h : values.len = 0) :
    (decode_required_dict values dict target).1 = .ok () := by
  rw [decode_required_dict, if_neg (by rintro ⟨-, hp⟩; omega)]
  simp only []
  rw [goRequired_zeroStream dict values.chunks h target.len
    (target.reserve values.len)]

/-- C4 (amended): the exact shape of the empty-dictionary guards.  With
`D = 0`, `decode_masked_required_dict` succeeds exactly when the filter is
all-ones and the limited stream is empty (`min values.len filter.len = 0`),
and otherwise fails with `OutOfBoundsDictIndex` — in particular it fails for
every not-all-ones filter, even an all-false mask selecting no rows.
`decode_masked_optional_dict` with an all-ones page validity behaves the same
with `validity.len` in place of `filter.len` when the filter is all-ones and
fails outright when it is not; with a not-all-ones validity it fails exactly
when the validity has any set bit, even if every valid row is deselected.
Both guards are thus coarser than "some selected non-null output row needs a
dictionary value". -/
theorem C4_empty_dict_guard (B : Type) (z : B) (values : HybridRleDecoder)
    (filter validity : List Bool) (target : Vek B) :
    ((decode_masked_required_dict values ([] : List B) filter target).1
      = if countT filter = filter.length ∧ min values.len filter.length = 0
        then .ok () else .error .oob) ∧
    ((decode_masked_optional_dict z values ([] : List B) filter validity
        target).1
      = if countT validity = validity.length then
          (if countT filter = filter.length then
            (if min values.len validity.length = 0 then .ok ()
             else .error .oob)
           else .error .oob)
        else (if countT validity = 0 then .ok () else .error .oob)) := by
  have hmreq : (decode_masked_required_dict values ([] : List B) filter
      target).1
      = if countT filter = filter.length ∧ min values.len filter.length = 0
        then .ok () else .error .oob := by
    by_cases h1 : countT filter = filter.length
    · rw [decode_masked_required_dict]
      simp only []
      rw [if_pos h1]
      by_cases hm : min values.len filter.length = 0
      · rw [if_pos ⟨h1, hm⟩]
        exact decode_required_emptyStream_ok ([] : List B) _ target
          (by rw [limit_to_len]; exact hm)
      · rw [if_neg (fun hc => hm hc.2)]
        rw [decode_required_dict, if_pos ⟨rfl, by rw [limit_to_len]; omega⟩]
    · have hfne : filter ≠ [] := fun hnil => h1 (by rw [hnil]; rfl)
      rw [if_neg (fun hc => h1 hc.1)]
      rw [decode_masked_required_dict]
      simp only []
      rw [if_neg h1, if_pos ⟨rfl, by simpa using hfne⟩]
  refine ⟨hmreq, ?_⟩
  by_cases h2 : countT validity = validity.length
  · by_cases h1 : countT filter = filter.length
    · by_cases hm : min values.len validity.length = 0
      · rw [if_pos h2, if_pos h1, if_pos hm]
        rw [decode_masked_optional_dict]
        simp only []
        rw [if_pos h1]
        rw [decode_optional_dict]
        simp only []
        rw [if_pos h2]
        exact decode_required_emptyStream_ok ([] : List B) _ target
          (by rw [limit_to_len]; exact hm)
      · rw [if_pos h2, if_pos h1, if_neg hm]
        rw [decode_masked_optional_dict]
        simp only []
        rw [if_pos h1]
        rw [decode_optional_dict]
        simp only []
        rw [if_pos h2]
        rw [decode_required_dict, if_pos ⟨rfl, by rw [limit_to_len]; omega⟩]
    · rw [if_pos h2, if_neg h1]
      rw [decode_masked_optional_dict]
      simp only []
      rw [if_neg h1, if_pos h2]
      rw [hmreq, if_neg (fun hc => h1 hc.1)]
  · by_cases h0 : countT validity = 0
    · rw [if_neg h2, if_pos h0]
      by_cases h1 : countT filter = filter.length
      · rw [decode_masked_optional_dict]
        simp only []
        rw [if_pos h1]
        rw [decode_optional_dict]
        simp only []
        rw [if_neg h2, if_neg (by rintro ⟨-, hp⟩; omega),
          if_neg (by omega)]
        rw [h0, show (values.limit_to 0).chunks = []
          from truncateChunks_zero _]
        rw [goOpt]
      · rw [decode_masked_optional_dict]
        simp only []
        rw [if_neg h1, if_neg h2, if_neg (by rintro ⟨-, hp⟩; omega),
          if_neg (by omega)]
        rw [h0, show (values.limit_to 0).chunks = []
          from truncateChunks_zero _]
        rw [goMOpt]
    · rw [if_neg h2, if_neg h0]
      by_cases h1 : countT filter = filter.length
      · rw [decode_masked_optional_dict]
        simp only []
        rw [if_pos h1]
        rw [decode_optional_dict]
        simp only []
        rw [if_neg h2, if_pos ⟨rfl, by omega⟩]
      · rw [decode_masked_optional_dict]
        simp only []
        rw [if_neg h1, if_neg h2, if_pos ⟨rfl, by omega⟩]

end PQ

namespace PQ

theorem verify_iff (indices : List Nat) (d : Nat) :
    verify_dict_indices indices d = true ↔ ∀ i ∈ indices, i < d := by
  simp [verify_dict_indices, List.all_eq_true]

theorem le_foldl_max (xs : List Nat) :
    ∀ (a : Nat), a ≤ xs.foldl max a ∧ ∀ x ∈ xs, x ≤ xs.foldl max a := by
  induction xs with
  | nil => intro a; simp
  | cons y ys ih =>
    intro a
    refine ⟨?_, ?_⟩
    · have h1 := (ih (max a y)).1
      calc a ≤ max a y := Nat.le_max_left a y
        _ ≤ _ := h1
    · intro x hx
      rcases List.mem_cons.mp hx with h | h
      · subst h
        calc x ≤ max a x := Nat.le_max_right a x
          _ ≤ _ := (ih (max a x)).1
      · exact (ih (max a y)).2 x h

theorem foldl_max_lt {xs : List Nat} {d : Nat} :
    ∀ {a : Nat}, a < d → (∀ x ∈ xs, x < d) → xs.foldl max a < d := by
  induction xs with
  | nil => intro a ha _; simpa using ha
  | cons y ys ih =>
    intro a ha hx
    simp only [List.foldl_cons]
    exact ih (by
      have := hx y (List.mem_cons_self y ys)
      exact Nat.max_lt.mpr ⟨ha, this⟩)
      (fun x hmem => hx x (List.mem_cons_of_mem y hmem))

theorem writeBatch_ok {B : Type} (dict : List B) (is : List Nat) :
    ∀ (pos : Nat) (t : Vek B), (∀ i ∈ is, i < dict.length) →
      (writeBatch dict is pos t).1 = .ok () := by
  induction is with
  | nil => intro pos t _; rfl
  | cons i is ih =>
    intro pos t h
    rw [writeBatch]
    have hi : i < dict.length := h i (List.mem_cons_self i is)
    cases hg : dict.get? i with
    | none =>
      rw [List.get?_eq_none] at hg
      omega
    | some x =>
      simp only [dictUnchecked, hg]
      exact ih (pos + 1) (t.wr pos x) (fun j hj => h j (List.mem_cons_of_mem i hj))

theorem goBitpackedReq_ok {B : Type} (dict : List B) (xs : List Nat)
    (pos : Nat) (t : Vek B) (h : ∀ i ∈ xs, i < dict.length) :
    (goBitpackedReq dict xs pos t).1 = .ok () := by
  induction xs, pos, t using goBitpackedReq.induct dict with
  | case1 xs pos t h32 hv e t' hw =>
    have := writeBatch_ok dict (xs.take 32) pos t
      (fun i hi => h i (List.mem_of_mem_take hi))
    rw [hw] at this
    simp at this
  | case2 xs pos t h32 hv t' hw ih =>
    rw [goBitpackedReq]
    simp only [dif_pos h32, if_pos hv, hw]
    exact ih (fun i hi => h i (List.mem_of_mem_drop hi))
  | case3 xs pos t h32 hv =>
    rw [verify_iff] at hv
    exact absurd (fun i hi => h i (List.mem_of_mem_take hi)) hv
  | case4 pos t h1 h2 =>
    rw [goBitpackedReq]
    simp [h1]
  | case5 pos t head tail h1 h2 hmax =>
    have hd : 0 < dict.length :=
      Nat.lt_of_le_of_lt (Nat.zero_le _) (h head (List.mem_cons_self head tail))
    have := @foldl_max_lt (head :: tail) dict.length 0 hd h
    omega
  | case6 pos t head tail h1 e t' h2 hmax hw =>
    have := writeBatch_ok dict (head :: tail) pos t h
    rw [hw] at this
    simp at this
  | case7 pos t head tail h1 t' h2 hmax hw =>
    rw [goBitpackedReq]
    simp only [dif_neg h1, if_neg hmax, hw]

theorem goBitpackedReq_oob {B : Type} (dict : List B) (xs : List Nat)
    (pos : Nat) (t : Vek B) (h : ∃ i ∈ xs, dict.length ≤ i) :
    (goBitpackedReq dict xs pos t).1 = .error .oob := by
  induction xs, pos, t using goBitpackedReq.induct dict with
  | case1 xs pos t h32 hv e t' hw =>
    have := writeBatch_ok dict (xs.take 32) pos t
      (fun i hi => (verify_iff _ _).mp hv i hi)
    rw [hw] at this
    simp at this
  | case2 xs pos t h32 hv t' hw ih =>
    rw [goBitpackedReq]
    simp only [dif_pos h32, if_pos hv, hw]
    refine ih ?_
    obtain ⟨i, hmem, hge⟩ := h
    have hm2 : i ∈ xs.take 32 ++ xs.drop 32 := by
      rw [List.take_append_drop]
      exact hmem
    rcases List.mem_append.mp hm2 with hin | hin
    · exact absurd ((verify_iff _ _).mp hv i hin) (by omega)
    · exact ⟨i, hin, hge⟩
  | case3 xs pos t h32 hv =>
    rw [goBitpackedReq]
    simp [h32, hv]
  | case4 pos t h1 h2 =>
    simp at h
  | case5 pos t head tail h1 h2 hmax =>
    rw [goBitpackedReq]
    simp only [dif_neg h1, if_pos hmax]
  | case6 pos t head tail h1 e t' h2 hmax hw =>
    obtain ⟨i, hmem, hge⟩ := h
    have hle := (le_foldl_max (head :: tail) 0).2 i hmem
    omega
  | case7 pos t head tail h1 t' h2 hmax hw =>
    obtain ⟨i, hmem, hge⟩ := h
    have hle := (le_foldl_max (head :: tail) 0).2 i hmem
    omega

theorem streamIndices_length (cs : List HChunk) :
    (streamIndices cs).length = streamLen cs := by
  induction cs with
  | nil => rfl
  | cons c cs ih =>
    rw [streamIndices, streamLen]
    rw [List.length_append, ih]
    cases c <;> simp [chunkIndices, chunkSize]

theorem goBitpackedReq_err {B : Type} (dict : List B) (xs : List Nat)
    (pos : Nat) (t : Vek B) :
    ∀ e, (goBitpackedReq dict xs pos t).1 = .error e → e = .oob := by
  induction xs, pos, t using goBitpackedReq.induct dict with
  | case1 xs pos t h32 hv e t' hw =>
    have := writeBatch_ok dict (xs.take 32) pos t
      (fun i hi => (verify_iff _ _).mp hv i hi)
    rw [hw] at this
    simp at this
  | case2 xs pos t h32 hv t' hw ih =>
    rw [goBitpackedReq]
    simp only [dif_pos h32, if_pos hv, hw]
    exact ih
  | case3 xs pos t h32 hv =>
    rw [goBitpackedReq]
    simp only [dif_pos h32, if_neg hv]
    intro e he
    simp at he
    exact he.symm
  | case4 pos t h1 h2 =>
    rw [goBitpackedReq]
    simp [h1]
  | case5 pos t head tail h1 h2 hmax =>
    rw [goBitpackedReq]
    simp only [dif_neg h1, if_pos hmax]
    intro e he
    simp at he
    exact he.symm
  | case6 pos t head tail h1 e t' h2 hmax hw =>
    rw [goBitpackedReq]
    simp only [dif_neg h1, if_neg hmax, hw]
    intro e' he
    simp at he
    -- writeBatch only fails with an unchecked read, which the max bound rules
    -- out
    exfalso
    have hd : ∀ i ∈ head :: tail, i < dict.length := by
      intro i hi
      have hle := (le_foldl_max (head :: tail) 0).2 i hi
      omega
    have := writeBatch_ok dict (head :: tail) pos t hd
    rw [hw] at this
    simp at this
  | case7 pos t head tail h1 t' h2 hmax hw =>
    rw [goBitpackedReq]
    simp only [dif_neg h1, if_neg hmax, hw]
    intro e he
    simp at he

theorem goRequired_oob {B : Type} (dict : List B) (cs : List HChunk) :
    ∀ (pos : Nat) (t : Vek B), (∃ i ∈ streamIndices cs, dict.length ≤ i) →
      (goRequired dict cs pos t).1 = .error .oob := by
  induction cs with
  | nil => intro pos t h; simp [streamIndices] at h
  | cons c cs ih =>
    intro pos t h
    cases c with
    | Rle value length =>
      rw [goRequired]
      by_cases hl : length = 0
      · rw [if_pos hl]
        refine ih pos t ?_
        obtain ⟨i, hmem, hge⟩ := h
        rw [streamIndices, chunkIndices, hl] at hmem
        simp at hmem
        exact ⟨i, hmem, hge⟩
      · rw [if_neg hl]
        cases hg : dict.get? value with
        | none => simp
        | some x =>
          simp only []
          refine ih (pos + length) (t.fill pos length x) ?_
          obtain ⟨i, hmem, hge⟩ := h
          rw [streamIndices, chunkIndices] at hmem
          rcases List.mem_append.mp hmem with hin | hin
          · exfalso
            have hvi : i = value := List.eq_of_mem_replicate hin
            subst hvi
            obtain ⟨hlt, -⟩ := List.get?_eq_some.mp hg
            omega
          · exact ⟨i, hin, hge⟩
    | Bitpacked xs =>
      rw [goRequired]
      obtain ⟨i, hmem, hge⟩ := h
      rw [streamIndices, chunkIndices] at hmem
      rcases List.mem_append.mp hmem with hin | hin
      · have := goBitpackedReq_oob dict xs pos t ⟨i, hin, hge⟩
        split
        · next e t' w heq =>
          rw [heq] at this
          simp at this
          rw [this]
        · next t' pos' heq =>
          rw [heq] at this
          simp at this
      · split
        · next e t' w heq =>
          have he : e = .oob := goBitpackedReq_err dict xs pos t e (by rw [heq])
          rw [he]
        · next t' pos' heq =>
          exact ih pos' t' ⟨i, hin, hge⟩

end PQ

namespace PQ

/-- C3 counterexample: a stream whose second index (7) is out of bounds for
`dict = [5]` within the announced `values.len() = 2`, yet the dispatched call
succeeds because the mask `10` deselects that row and all selected rows are
already written (early exit). -/
theorem C3_counterexample :
    (7 ∈ streamIndices [.Rle 0 1, .Rle 7 1]) ∧
    List.length [5] ≤ 7 ∧
    streamLen [.Rle 0 1, .Rle 7 1] = 2 ∧
    (decode_dict_dispatch (0 : Nat) ⟨[.Rle 0 1, .Rle 7 1]⟩ [5] false none
        (some (.Mask [true, false])) [] ⟨0, []⟩).1 = .ok () := by
  decide

/-- C3 (amended): index validation is guaranteed for the indices a kernel
actually decodes.  For the unfiltered required kernel every stream index
within `values.len()` is validated: if any is `≥ D` the call fails with
exactly `OutOfBoundsDictIndex` (in particular no unchecked out-of-bounds
read occurs, since the result is the oob error and not the unchecked-read
error of the embedding).  With a filter, indices in skipped regions may go
unvalidated and the call can succeed (see the counterexample). -/
theorem C3_index_validation {B : Type} (values : HybridRleDecoder)
    (dict : List B) (target : Vek B)
    (h : ∃ i ∈ streamIndices values.chunks, dict.length ≤ i) :
    (decode_required_dict values dict target).1 = .error .oob := by
  rw [decode_required_dict]
  by_cases hguard : dict.isEmpty = true ∧ 0 < values.len
  · rw [if_pos hguard]
  · rw [if_neg hguard]
    simp only []
    have hgo := goRequired_oob dict values.chunks target.len
      (target.reserve values.len) h
    split
    · next e t' heq =>
      rw [heq] at hgo
      exact hgo
    · next t' heq =>
      rw [heq] at hgo
      simp at hgo

/-- Witness for C3 (amended): a one-chunk stream with index 9 against a
one-entry dictionary fails with `OutOfBoundsDictIndex`. -/
theorem C3_index_validation_witness :
    (∃ i ∈ streamIndices (⟨[.Rle 9 1]⟩ : HybridRleDecoder).chunks,
      List.length [5] ≤ i) ∧
    (decode_required_dict ⟨[.Rle 9 1]⟩ [5] ⟨0, []⟩).1 = .error .oob :=
  ⟨by decide, C3_index_validation ⟨[.Rle 9 1]⟩ [5] ⟨0, []⟩ (by decide)⟩

end PQ

namespace PQ

/-- Sequential raw writes of a list of values starting at `pos`. -/
def writeList {B : Type} (buf : List (Option B)) (pos : Nat) :
    List B → List (Option B)
  | [] => buf
  | x :: xs => writeList (buf.set pos (some x)) (pos + 1) xs

theorem writeList_length {B : Type} (xs : List B) :
    ∀ (buf : List (Option B)) (pos : Nat),
      (writeList buf pos xs).length = buf.length := by
  induction xs with
  | nil => intro buf pos; rfl
  | cons x xs ih =>
    intro buf pos
    rw [writeList, ih]
    simp

theorem writeList_append {B : Type} (xs : List B) :
    ∀ (ys : List B) (buf : List (Option B)) (pos : Nat),
      writeList buf pos (xs ++ ys)
        = writeList (writeList buf pos xs) (pos + xs.length) ys := by
  induction xs with
  | nil => intro ys buf pos; simp [writeList]
  | cons x xs ih =>
    intro ys buf pos
    rw [List.cons_append, writeList, writeList, ih]
    simp only [List.length_cons]
    rw [Nat.add_comm xs.length 1, ← Nat.add_assoc]

theorem fill_buf {B : Type} (n : Nat) :
    ∀ (t : Vek B) (p : Nat) (x : B),
      (t.fill p n x).buf = writeList t.buf p (List.replicate n x) := by
  induction n with
  | zero => intro t p x; rfl
  | succ n ih =>
    intro t p x
    rw [Vek.fill, List.replicate_succ, writeList, ih]
    rfl

theorem writeBatch_content {B : Type} (dict : List B) (z : B) (is : List Nat) :
    ∀ (pos : Nat) (t : Vek B), (∀ i ∈ is, i < dict.length) →
      writeBatch dict is pos t
        = (.ok (), { t with buf := (writeList t.buf pos
            (is.map (fun i => (dict.get? i).getD z))) }) := by
  induction is with
  | nil =>
    intro pos t _
    rw [writeBatch]
    rfl
  | cons i is ih =>
    intro pos t h
    rw [writeBatch]
    have hi : i < dict.length := h i (List.mem_cons_self i is)
    cases hg : dict.get? i with
    | none =>
      rw [List.get?_eq_none] at hg
      omega
    | some x =>
      simp only [dictUnchecked, hg]
      rw [ih (pos + 1) (t.wr pos x)
        (fun j hj => h j (List.mem_cons_of_mem i hj))]
      simp only [List.map_cons, writeList, hg]
      rfl

theorem goBitpackedReq_content {B : Type} (dict : List B) (z : B)
    (xs : List Nat) (pos : Nat) (t : Vek B)
    (h : ∀ i ∈ xs, i < dict.length) :
    goBitpackedReq dict xs pos t
      = (.ok (), { t with buf := (writeList t.buf pos
          (xs.map (fun i => (dict.get? i).getD z))) }, pos + xs.length) := by
  induction xs, pos, t using goBitpackedReq.induct dict with
  | case1 xs pos t h32 hv e t' hw =>
    have := writeBatch_ok dict (xs.take 32) pos t
      (fun i hi => h i (List.mem_of_mem_take hi))
    rw [hw] at this
    simp at this
  | case2 xs pos t h32 hv t' hw ih =>
    rw [goBitpackedReq]
    simp only [dif_pos h32, if_pos hv, hw]
    have hc := writeBatch_content dict z (xs.take 32) pos t
      (fun i hi => h i (List.mem_of_mem_take hi))
    rw [hw] at hc
    have ht' : t' = { t with buf := (writeList t.buf pos
        ((xs.take 32).map (fun i => (dict.get? i).getD z))) } := by
      have := congrArg Prod.snd hc
      simpa using this
    rw [ih (fun i hi => h i (List.mem_of_mem_drop hi)), ht']
    have hsplit : xs.map (fun i => (dict.get? i).getD z)
        = (xs.take 32).map (fun i => (dict.get? i).getD z)
          ++ (xs.drop 32).map (fun i => (dict.get? i).getD z) := by
      rw [← List.map_append, List.take_append_drop]
    rw [hsplit, writeList_append]
    simp only [List.length_map, List.length_take]
    have h32' : min 32 xs.length = 32 := by omega
    rw [h32']
    have hlen : 32 + (xs.drop 32).length = xs.length := by
      simp [List.length_drop]
      omega
    rw [Nat.add_assoc, hlen]
  | case3 xs pos t h32 hv =>
    rw [verify_iff] at hv
    exact absurd (fun i hi => h i (List.mem_of_mem_take hi)) hv
  | case4 pos t h1 h2 =>
    rw [goBitpackedReq]
    simp only [dif_neg h1]
    rfl
  | case5 pos t head tail h1 h2 hmax =>
    have hd : 0 < dict.length :=
      Nat.lt_of_le_of_lt (Nat.zero_le _) (h head (List.mem_cons_self head tail))
    have := @foldl_max_lt (head :: tail) dict.length 0 hd h
    omega
  | case6 pos t head tail h1 e t' h2 hmax hw =>
    have := writeBatch_ok dict (head :: tail) pos t h
    rw [hw] at this
    simp at this
  | case7 pos t head tail h1 t' h2 hmax hw =>
    rw [goBitpackedReq]
    simp only [dif_neg h1, if_neg hmax, hw]
    have hc := writeBatch_content dict z (head :: tail) pos t h
    rw [hw] at hc
    have ht' : t' = { t with buf := (writeList t.buf pos
        ((head :: tail).map (fun i => (dict.get? i).getD z))) } := by
      have := congrArg Prod.snd hc
      simpa using this
    rw [ht']

theorem goRequired_content {B : Type} (dict : List B) (z : B)
    (cs : List HChunk) :
    ∀ (pos : Nat) (t : Vek B), (∀ i ∈ streamIndices cs, i < dict.length) →
      goRequired dict cs pos t
        = (.ok (), { t with buf := (writeList t.buf pos
            ((streamIndices cs).map (fun i => (dict.get? i).getD z))) }) := by
  induction cs with
  | nil =>
    intro pos t _
    rw [goRequired, streamIndices]
    rfl
  | cons c cs ih =>
    intro pos t h
    cases c with
    | Rle value length =>
      rw [goRequired]
      by_cases hl : length = 0
      · rw [if_pos hl]
        subst hl
        rw [ih pos t (by
          intro i hi
          exact h i (by rw [streamIndices, chunkIndices]; simpa using hi))]
        rw [streamIndices, chunkIndices]
        simp
      · rw [if_neg hl]
        have hmem : value ∈ streamIndices (.Rle value length :: cs) := by
          rw [streamIndices, chunkIndices]
          refine List.mem_append.mpr (Or.inl ?_)
          exact List.mem_replicate.mpr ⟨hl, rfl⟩
        have hv : value < dict.length := h value hmem
        cases hg : dict.get? value with
        | none =>
          rw [List.get?_eq_none] at hg
          omega
        | some x =>
          simp only []
          rw [ih (pos + length) (t.fill pos length x) (by
            intro i hi
            exact h i (by
              rw [streamIndices, chunkIndices]
              exact List.mem_append.mpr (Or.inr hi)))]
          rw [streamIndices, chunkIndices, List.map_append, writeList_append]
          rw [List.map_replicate, hg]
          simp [fill_buf]
    | Bitpacked xs =>
      rw [goRequired]
      have hxs : ∀ i ∈ xs, i < dict.length := by
        intro i hi
        exact h i (by
          rw [streamIndices, chunkIndices]
          exact List.mem_append.mpr (Or.inl hi))
      rw [goBitpackedReq_content dict z xs pos t hxs]
      simp only []
      rw [ih (pos + xs.length) _ (by
        intro i hi
        exact h i (by
          rw [streamIndices, chunkIndices]
          exact List.mem_append.mpr (Or.inr hi)))]
      rw [streamIndices, chunkIndices, List.map_append, writeList_append]
      simp

end PQ

namespace PQ

theorem set_take_succ {α : Type} (buf : List α) :
    ∀ (pos : Nat) (v : α), pos < buf.length →
      (buf.set pos v).take (pos + 1) = buf.take pos ++ [v] := by
  induction buf with
  | nil => intro pos v h; simp at h
  | cons a as ih =>
    intro pos v h
    cases pos with
    | zero => simp
    | succ p =>
      simp only [List.set_cons_succ, List.take_succ_cons, List.cons_append]
      rw [ih p v (by simpa using h)]

theorem writeList_take {B : Type} (xs : List B) :
    ∀ (buf : List (Option B)) (pos : Nat), pos + xs.length ≤ buf.length →
      (writeList buf pos xs).take (pos + xs.length)
        = buf.take pos ++ xs.map some := by
  induction xs with
  | nil => intro buf pos h; simp [writeList]
  | cons x xs ih =>
    intro buf pos h
    rw [writeList]
    have hlt : pos < buf.length := by
      simp only [List.length_cons] at h
      omega
    have hcap : (pos + 1) + xs.length ≤ (buf.set pos (some x)).length := by
      simp only [List.length_set]
      simp only [List.length_cons] at h
      omega
    have harith : pos + (x :: xs).length = (pos + 1) + xs.length := by
      simp
      omega
    rw [harith, ih (buf.set pos (some x)) (pos + 1) hcap,
      set_take_succ buf pos (some x) hlt]
    simp

theorem take_append_le {α : Type} (as bs : List α) :
    ∀ (n : Nat), n ≤ as.length → (as ++ bs).take n = as.take n := by
  induction as with
  | nil => intro n h; simp at h; simp [h]
  | cons a as ih =>
    intro n h
    cases n with
    | zero => simp
    | succ m =>
      simp only [List.cons_append, List.take_succ_cons]
      rw [ih m (by simpa using h)]

/-- C5: `decode_required_dict` appends exactly `values.len()` dictionary
values, each `dict[index]` for the corresponding stream index in stream
order; the second conjunct is scenario S1: `dict = [10,20,30]`, stream
`RLE(1,3)` then `Bitpacked([0,2,1])`, appended tail
`[20,20,20,10,30,20]`. -/
theorem C5_required_contract :
    (∀ (B : Type) (z : B) (values : HybridRleDecoder) (dict : List B)
       (target : Vek B),
      target.len ≤ target.buf.length →
      (∀ i ∈ streamIndices values.chunks, i < dict.length) →
      (decode_required_dict values dict target).1 = .ok () ∧
      (decode_required_dict values dict target).2.len
        = target.len + values.len ∧
      (decode_required_dict values dict target).2.obs
        = target.obs ++ (streamIndices values.chunks).map
            (fun i => some ((dict.get? i).getD z))) ∧
    (decode_required_dict ⟨[.Rle 1 3, .Bitpacked [0, 2, 1]]⟩ [10, 20, 30]
        (⟨0, []⟩ : Vek Nat)).2.obs
      = [some 20, some 20, some 20, some 10, some 30, some 20] := by
  have hG : ∀ (B : Type) (z : B) (values : HybridRleDecoder) (dict : List B)
      (target : Vek B),
      target.len ≤ target.buf.length →
      (∀ i ∈ streamIndices values.chunks, i < dict.length) →
      (decode_required_dict values dict target).1 = .ok () ∧
      (decode_required_dict values dict target).2.len
        = target.len + values.len ∧
      (decode_required_dict values dict target).2.obs
        = target.obs ++ (streamIndices values.chunks).map
            (fun i => some ((dict.get? i).getD z)) := by
    intro B z values dict target hwf hidx
    by_cases hguard : dict.isEmpty = true ∧ 0 < values.len
    · exfalso
      obtain ⟨he, hpos⟩ := hguard
      rw [List.isEmpty_iff] at he
      have hsl : (streamIndices values.chunks).length = values.len :=
        streamIndices_length _
      obtain ⟨i, hi⟩ :=
        List.exists_mem_of_length_pos
          (show 0 < (streamIndices values.chunks).length from by omega)
      have := hidx i hi
      rw [he] at this
      simp at this
    · rw [decode_required_dict, if_neg hguard]
      simp only []
      rw [goRequired_content dict z values.chunks target.len
        (target.reserve values.len) hidx]
      simp only []
      refine ⟨by trivial, by trivial, ?_⟩
      rw [Vek.obs, Vek.setLen]
      simp only []
      have hmlen : ((streamIndices values.chunks).map
          (fun i => (dict.get? i).getD z)).length = values.len := by
        rw [List.length_map, streamIndices_length]
        rfl
      have hcap : target.len + ((streamIndices values.chunks).map
          (fun i => (dict.get? i).getD z)).length
            ≤ (target.reserve values.len).buf.length := by
        rw [hmlen, reserve_buflen]
        omega
      have := writeList_take ((streamIndices values.chunks).map
        (fun i => (dict.get? i).getD z)) (target.reserve values.len).buf
        target.len hcap
      rw [hmlen] at this
      rw [this]
      rw [Vek.reserve]
      simp only []
      rw [take_append_le target.buf _ target.len hwf]
      rw [Vek.obs, List.map_map]
      rfl
  refine ⟨hG, ?_⟩
  have h := hG Nat 0 ⟨[.Rle 1 3, .Bitpacked [0, 2, 1]]⟩ [10, 20, 30] ⟨0, []⟩
    (by decide) (by decide)
  rw [h.2.2]
  decide

/-- Witness for C5: the S1 inputs satisfy the hypotheses and the call
succeeds. -/
theorem C5_required_contract_witness :
    ((⟨0, []⟩ : Vek Nat).len ≤ (⟨0, []⟩ : Vek Nat).buf.length) ∧
    (∀ i ∈ streamIndices [.Rle 1 3, .Bitpacked [0, 2, 1]],
      i < List.length [10, 20, 30]) ∧
    (decode_required_dict ⟨[.Rle 1 3, .Bitpacked [0, 2, 1]]⟩ [10, 20, 30]
      (⟨0, []⟩ : Vek Nat)).1 = .ok () :=
  ⟨by decide, by decide,
   (C5_required_contract.1 Nat 0 ⟨[.Rle 1 3, .Bitpacked [0, 2, 1]]⟩
     [10, 20, 30] ⟨0, []⟩ (by decide) (by decide)).1⟩

end PQ

namespace PQ

/-! ### Ring-buffer invariant: every slot of the 128-entry ring always holds a
validated (or initial zero) dictionary index. -/

theorem get?_set_ne {α : Type} (l : List α) :
    ∀ (n m : Nat) (a : α), n ≠ m → (l.set n a).get? m = l.get? m := by
  induction l with
  | nil => intro n m a _; simp
  | cons x xs ih =>
    intro n m a hne
    cases n with
    | zero =>
      cases m with
      | zero => exact absurd rfl hne
      | succ m' => simp
    | succ n' =>
      cases m with
      | zero => simp
      | succ m' =>
        simp only [List.set_cons_succ, List.get?_cons_succ]
        exact ih n' m' a (by omega)

theorem get?_drop {α : Type} (l : List α) :
    ∀ (n m : Nat), (l.drop n).get? m = l.get? (n + m) := by
  induction l with
  | nil => intro n m; simp
  | cons x xs ih =>
    intro n m
    cases n with
    | zero => simp
    | succ n' =>
      simp only [List.drop_succ_cons]
      rw [ih n' m]
      simp [Nat.succ_add]

theorem get?_take_lt {α : Type} (l : List α) :
    ∀ (n m : Nat), m < n → (l.take n).get? m = l.get? m := by
  induction l with
  | nil => intro n m _; simp
  | cons x xs ih =>
    intro n m h
    cases n with
    | zero => omega
    | succ n' =>
      cases m with
      | zero => simp
      | succ m' =>
        simp only [List.take_succ_cons, List.get?_cons_succ]
        exact ih n' m' (by omega)

theorem setFrom_length (xs : List Nat) :
    ∀ (ring : List Nat) (base : Nat), (setFrom ring base xs).length = ring.length := by
  induction xs with
  | nil => intro ring base; rfl
  | cons x xs ih =>
    intro ring base
    rw [setFrom, ih]
    simp

theorem setFrom_get?_outside (xs : List Nat) :
    ∀ (ring : List Nat) (base j : Nat), j < base ∨ base + xs.length ≤ j →
      (setFrom ring base xs).get? j = ring.get? j := by
  induction xs with
  | nil => intro ring base j _; rfl
  | cons x xs ih =>
    intro ring base j h
    rw [setFrom, ih (ring.set base x) (base + 1) j (by
      simp only [List.length_cons] at h
      omega)]
    exact get?_set_ne ring base j x (by
      simp only [List.length_cons] at h
      omega)

/-- Invariant: the ring has all 128 slots and every read-out value is a valid
dictionary index. -/
def RingOK (d : Nat) (ring : List Nat) : Prop :=
  ring.length = 128 ∧ ∀ j, (ring.get? j).getD 0 < d

theorem RingOK_init {d : Nat} (hd : 0 < d) : RingOK d (List.replicate 128 0) := by
  refine ⟨by simp, ?_⟩
  intro j
  cases hg : (List.replicate 128 (0 : Nat)).get? j with
  | none => simpa using hd
  | some x =>
    have := List.get?_mem hg
    have := List.eq_of_mem_replicate this
    subst this
    simpa using hd

theorem ringGet_lt {d : Nat} {ring : List Nat} (hR : RingOK d ring) (k : Nat) :
    ringGet ring k < d := hR.2 (k % 128)

theorem verify_get?_lt {part : List Nat} {d : Nat} (hd : 0 < d)
    (hv : verify_dict_indices part d = true) (k : Nat) :
    (part.get? k).getD 0 < d := by
  cases hg : part.get? k with
  | none => simpa using hd
  | some x =>
    have hmem := List.get?_mem hg
    have := (verify_iff part d).mp hv x hmem
    simpa using this

theorem writePart_RingOK {d : Nat} {ring : List Nat} {p : Nat}
    {xs : List Nat} (hd : 0 < d) (hp : p < 4) (hR : RingOK d ring)
    (hv : verify_dict_indices (ringPart (writePart ring p xs) p) d = true) :
    RingOK d (writePart ring p xs) := by
  have hlen : (writePart ring p xs).length = 128 := by
    rw [writePart, setFrom_length, hR.1]
  refine ⟨hlen, ?_⟩
  intro j
  by_cases hwin : p * 32 ≤ j ∧ j < p * 32 + (xs.take 32).length
  · have hk : j - p * 32 < 32 := by
      have : (xs.take 32).length ≤ 32 := by simp
      omega
    have hgp : (ringPart (writePart ring p xs) p).get? (j - p * 32)
        = (writePart ring p xs).get? j := by
      rw [ringPart, get?_take_lt _ 32 (j - p * 32) hk, get?_drop]
      congr 1
      omega
    have := verify_get?_lt hd hv (j - p * 32)
    rw [hgp] at this
    exact this
  · rw [writePart, setFrom_get?_outside _ ring (p * 32) j (by
      rcases not_and_or.mp hwin with h | h
      · exact Or.inl (by omega)
      · exact Or.inr (by omega))]
    exact hR.2 j

end PQ

namespace PQ

theorem refillOpt_inv (d need : Nat) (hd : 0 < d) (s : RState) :
    s.partIdx < 4 → RingOK d s.ring →
      (∀ e, refillOpt d need s = .error e → e = .oob) ∧
      (∀ s' b, refillOpt d need s = .ok (s', b) →
        RingOK d s'.ring ∧ s'.partIdx < 4) := by
  induction s using refillOpt.induct d need with
  | case1 s h =>
    intro hp hR
    rw [refillOpt, if_pos h]
    exact ⟨fun e he => by simp at he, fun s' b hsb => by
      simp at hsb
      rw [← hsb.1]
      exact ⟨hR, hp⟩⟩
  | case2 s h hxs =>
    intro hp hR
    rw [refillOpt, if_neg h]
    split
    · exact ⟨fun e he => by simp at he, fun s' b hsb => by
        simp at hsb
        rw [← hsb.1]
        exact ⟨hR, hp⟩⟩
    · next head tail hxs2 =>
      rw [hxs] at hxs2
      simp at hxs2
  | case3 s h head tail hxs part ring' hv ih =>
    intro hp hR
    rw [refillOpt, if_neg h]
    split
    · next hxs2 =>
      rw [hxs2] at hxs
      simp at hxs
    · next head2 tail2 hxs2 =>
      rw [if_pos hv]
      exact ih (Nat.mod_lt _ (by omega)) (writePart_RingOK hd hp hR hv)
  | case4 s h head tail hxs part ring' hv =>
    intro hp hR
    rw [refillOpt, if_neg h]
    split
    · next hxs2 =>
      rw [hxs2] at hxs
      simp at hxs
    · next head2 tail2 hxs2 =>
      rw [if_neg hv]
      exact ⟨fun e he => by simp at he; exact he.symm, fun s' b hsb => by simp at hsb⟩

end PQ

namespace PQ

theorem refillPanic_inv (d need : Nat) (hd : 0 < d) (s : RState) :
    s.partIdx < 4 → RingOK d s.ring →
      (∀ e, refillPanic d need s = .error e → e ≠ .uncheckedOOB) ∧
      (∀ s', refillPanic d need s = .ok s' →
        RingOK d s'.ring ∧ s'.partIdx < 4) := by
  induction s using refillPanic.induct d need with
  | case1 s h =>
    intro hp hR
    rw [refillPanic, if_pos h]
    exact ⟨fun e he => by simp at he, fun s' hs => by
      simp at hs
      rw [← hs]
      exact ⟨hR, hp⟩⟩
  | case2 s h hxs =>
    intro hp hR
    rw [refillPanic, if_neg h]
    split
    · exact ⟨fun e he => by simp at he; rw [he.symm]; simp, fun s' hs => by simp at hs⟩
    · next head tail hxs2 =>
      rw [hxs] at hxs2
      simp at hxs2
  | case3 s h head tail hxs part ring' hv ih =>
    intro hp hR
    rw [refillPanic, if_neg h]
    split
    · next hxs2 =>
      rw [hxs2] at hxs
      simp at hxs
    · next head2 tail2 hxs2 =>
      rw [if_pos hv]
      exact ih (Nat.mod_lt _ (by omega)) (writePart_RingOK hd hp hR hv)
  | case4 s h head tail hxs part ring' hv =>
    intro hp hR
    rw [refillPanic, if_neg h]
    split
    · next hxs2 =>
      rw [hxs2] at hxs
      simp at hxs
    · next head2 tail2 hxs2 =>
      rw [if_neg hv]
      exact ⟨fun e he => by simp at he; rw [he.symm]; simp, fun s' hs => by simp at hs⟩

theorem refillSkip_inv (d need : Nat) (hd : 0 < d) (s : RState) (skip : Nat) :
    s.partIdx < 4 → RingOK d s.ring →
      (∀ e, refillSkip d need s skip = .error e → e ≠ .uncheckedOOB) ∧
      (∀ s' skip', refillSkip d need s skip = .ok (s', skip') →
        RingOK d s'.ring ∧ s'.partIdx < 4) := by
  induction s, skip using refillSkip.induct d need with
  | case1 s skip h =>
    intro hp hR
    rw [refillSkip, if_pos h]
    exact ⟨fun e he => by simp at he, fun s' skip' hs => by
      simp at hs
      rw [← hs.1]
      exact ⟨hR, hp⟩⟩
  | case2 s skip h hxs =>
    intro hp hR
    rw [refillSkip, if_neg h]
    split
    · exact ⟨fun e he => by simp at he; rw [he.symm]; simp, fun s' skip' hs => by simp at hs⟩
    · next head tail hxs2 =>
      rw [hxs] at hxs2
      simp at hxs2
  | case3 s skip h head tail hxs part ring' hv scv ih =>
    intro hp hR
    rw [refillSkip, if_neg h]
    split
    · next hxs2 =>
      rw [hxs2] at hxs
      simp at hxs
    · next head2 tail2 hxs2 =>
      rw [if_pos hv]
      exact ih (Nat.mod_lt _ (by omega)) (writePart_RingOK hd hp hR hv)
  | case4 s skip h head tail hxs part ring' hv =>
    intro hp hR
    rw [refillSkip, if_neg h]
    split
    · next hxs2 =>
      rw [hxs2] at hxs
      simp at hxs
    · next head2 tail2 hxs2 =>
      rw [if_neg hv]
      exact ⟨fun e he => by simp at he; rw [he.symm]; simp, fun s' skip' hs => by simp at hs⟩

theorem writeWord_ok2 {B : Type} (dict : List B) (ring : List Nat)
    (hR : RingOK dict.length ring) (count : Nat) :
    ∀ (bits : List Bool) (offset numRead pos : Nat) (t : Vek B),
      (writeWord dict ring bits count offset numRead pos t).1 = .ok () := by
  induction count with
  | zero => intro bits offset numRead pos t; rfl
  | succ n ih =>
    intro bits offset numRead pos t
    rw [writeWord]
    have hlt := ringGet_lt hR (offset + numRead)
    cases hg : dict.get? (ringGet ring (offset + numRead)) with
    | none =>
      rw [List.get?_eq_none] at hg
      omega
    | some x =>
      simp only [dictUnchecked, hg]
      exact ih _ _ _ _ _

theorem walkReq_ok {B : Type} (dict : List B) (ring : List Nat)
    (hR : RingOK dict.length ring) (f : List Bool)
    (offset numRead numWritten pos : Nat) (t : Vek B) :
    (walkReq dict ring f offset numRead numWritten pos t).1 = .ok () := by
  induction f, offset, numRead, numWritten, pos, t using walkReq.induct dict ring with
  | case1 f offset numRead numWritten pos t hf e heq =>
    have hlt := ringGet_lt hR (offset + (numRead + firstTrueIdx f))
    rw [dictUnchecked] at heq
    cases hg : dict.get? (ringGet ring (offset + (numRead + firstTrueIdx f))) with
    | none =>
      rw [List.get?_eq_none] at hg
      omega
    | some x =>
      rw [hg] at heq
      simp at heq
  | case2 f offset numRead numWritten pos t hf x heq ih =>
    rw [walkReq]
    simp only [dif_pos hf, heq]
    exact ih
  | case3 f offset numRead numWritten pos t hf =>
    rw [walkReq]
    simp only [dif_neg hf]

theorem walkOpt_ok {B : Type} (dict : List B) (ring : List Nat)
    (hR : RingOK dict.length ring) (f v : List Bool)
    (offset numRead numWritten pos : Nat) (t : Vek B) :
    (walkOpt dict ring f v offset numRead numWritten pos t).1 = .ok () := by
  induction f, v, offset, numRead, numWritten, pos, t using walkOpt.induct dict ring with
  | case1 f v offset numRead numWritten pos t hf e heq =>
    have hlt := ringGet_lt hR
      (offset + (numRead + countT (v.take (firstTrueIdx f))))
    rw [dictUnchecked] at heq
    cases hg : dict.get? (ringGet ring
        (offset + (numRead + countT (v.take (firstTrueIdx f))))) with
    | none =>
      rw [List.get?_eq_none] at hg
      omega
    | some x =>
      rw [hg] at heq
      simp at heq
  | case2 f v offset numRead numWritten pos t hf x heq ih =>
    rw [walkOpt]
    simp only [dif_pos hf, heq]
    exact ih
  | case3 f v offset numRead numWritten pos t hf =>
    rw [walkOpt]
    simp only [dif_neg hf]

end PQ

namespace PQ

theorem goRequired_err {B : Type} (dict : List B) (cs : List HChunk) :
    ∀ (pos : Nat) (t : Vek B) (e : DErr),
      (goRequired dict cs pos t).1 = .error e → e = .oob := by
  induction cs with
  | nil => intro pos t e h; simp [goRequired] at h
  | cons c cs ih =>
    intro pos t e h
    cases c with
    | Rle value length =>
      rw [goRequired] at h
      by_cases hl : length = 0
      · rw [if_pos hl] at h
        exact ih _ _ _ h
      · rw [if_neg hl] at h
        cases hg : dict.get? value with
        | none =>
          rw [hg] at h
          simp at h
          exact h.symm
        | some x =>
          rw [hg] at h
          simp only [] at h
          exact ih _ _ _ h
    | Bitpacked xs =>
      rw [goRequired] at h
      cases hgo : goBitpackedReq dict xs pos t with
      | mk r rest =>
        obtain ⟨t', pos'⟩ := rest
        rw [hgo] at h
        cases r with
        | error e' =>
          simp at h
          rw [← h]
          exact goBitpackedReq_err dict xs pos t e' (by rw [hgo])
        | ok u =>
          obtain ⟨⟩ := u
          simp only [] at h
          exact ih _ _ _ h

theorem decode_required_err {B : Type} (values : HybridRleDecoder)
    (dict : List B) (target : Vek B) (e : DErr) :
    (decode_required_dict values dict target).1 = .error e → e = .oob := by
  rw [decode_required_dict]
  by_cases hg : dict.isEmpty ∧ 0 < values.len
  · rw [if_pos hg]
    intro h
    simp at h
    exact h.symm
  · rw [if_neg hg]
    simp only []
    cases hgo : goRequired dict values.chunks target.len
        (target.reserve values.len) with
    | mk r t' =>
      cases r with
      | error e' =>
        intro h
        simp at h
        rw [← h]
        exact goRequired_err dict values.chunks _ _ e' (by rw [hgo])
      | ok u =>
        obtain ⟨⟩ := u
        intro h
        simp at h

theorem goOptWords_inv {B : Type} {dict : List B} (hd : 0 < dict.length) :
    ∀ (ws : List (List Bool)) (o : OState B), o.s.partIdx < 4 →
      RingOK dict.length o.s.ring →
      ∀ r o', goOptWords dict ws o = (r, o') →
        (∀ e, r = .error e → e ≠ .uncheckedOOB) ∧
        (r = .ok () → RingOK dict.length o'.s.ring ∧ o'.s.partIdx < 4) := by
  intro ws
  induction ws with
  | nil =>
    intro o hp hR r o' h
    rw [goOptWords] at h
    injection h with h1 h2
    subst h1; subst h2
    exact ⟨fun e he => by simp at he, fun _ => ⟨hR, hp⟩⟩
  | cons v ws ih =>
    intro o hp hR r o' h
    have hri := refillOpt_inv dict.length (countT v) hd o.s hp hR
    rw [goOptWords] at h
    cases hrf : refillOpt dict.length (countT v) o.s with
    | error e' =>
      rw [hrf] at h
      simp only [] at h
      injection h with h1 h2
      subst h1; subst h2
      refine ⟨fun e he => ?_, fun hok => by simp at hok⟩
      injection he with he2
      rw [← he2, hri.1 e' hrf]
      simp
    | ok sb =>
      obtain ⟨s', b⟩ := sb
      have hs' := hri.2 s' b hrf
      cases b with
      | false =>
        rw [hrf] at h
        simp only [] at h
        injection h with h1 h2
        subst h1; subst h2
        exact ⟨fun e he => by simp at he, fun _ => hs'⟩
      | true =>
        rw [hrf] at h
        simp only [] at h
        cases hww : writeWord dict s'.ring v 56 s'.offset 0 o.pos o.t with
        | mk wres rest =>
          obtain ⟨t', numRead⟩ := rest
          have hwo := writeWord_ok2 dict s'.ring hs'.1 56 v s'.offset 0 o.pos o.t
          rw [hww] at hwo
          simp at hwo
          rw [hww, hwo] at h
          simp only [] at h
          exact ih _ hs'.2 hs'.1 r o' h

end PQ

namespace PQ

theorem goOptBitpacked_inv {B : Type} {dict : List B} (hd : 0 < dict.length)
    (xs ring : List Nat) (validity : List Bool) (t : Vek B) (pos : Nat)
    (hR : RingOK dict.length ring) :
    ∀ r t' r' v' p',
      goOptBitpacked dict xs ring validity t pos = (r, t', r', v', p') →
      (∀ e, r = .error e → e ≠ .uncheckedOOB) ∧
      (r = .ok () → RingOK dict.length r') := by
  intro r t' r' v' p' h
  rw [goOptBitpacked] at h
  cases hgw : goOptWords dict (fullWords56 validity) ⟨t, ⟨xs, ring, 0, 0, 0⟩, pos, 0⟩ with
  | mk r0 o =>
    have hwi := goOptWords_inv hd (fullWords56 validity)
      ⟨t, ⟨xs, ring, 0, 0, 0⟩, pos, 0⟩ (Nat.succ_pos 3) hR r0 o hgw
    rw [hgw] at h
    cases r0 with
    | error e0 =>
      simp only [] at h
      injection h with h1 h2
      subst h1
      exact ⟨fun e he => by
        injection he with he2
        rw [← he2]
        exact hwi.1 e0 rfl, fun hok => by simp at hok⟩
    | ok u =>
      obtain ⟨⟩ := u
      have hoR := (hwi.2 rfl).1
      have hop := (hwi.2 rfl).2
      simp only [] at h
      have hrpi := refillPanic_inv dict.length
        (countT (rem56 ((validity.drop o.numDone).take
          ((nthSetBitIdx (validity.drop o.numDone)
            (o.s.buffered + o.s.xs.length)).getD (validity.drop o.numDone).length))))
        hd o.s hop hoR
      cases hrp : refillPanic dict.length
        (countT (rem56 ((validity.drop o.numDone).take
          ((nthSetBitIdx (validity.drop o.numDone)
            (o.s.buffered + o.s.xs.length)).getD (validity.drop o.numDone).length))))
        o.s with
      | error e1 =>
        rw [hrp] at h
        simp only [] at h
        injection h with h1 h2
        subst h1
        exact ⟨fun e he => by
          injection he with he2
          rw [← he2]
          exact hrpi.1 e1 hrp, fun hok => by simp at hok⟩
      | ok s' =>
        have hs' := hrpi.2 s' hrp
        rw [hrp] at h
        simp only [] at h
        cases hww : writeWord dict s'.ring
            (rem56 ((validity.drop o.numDone).take
              ((nthSetBitIdx (validity.drop o.numDone)
                (o.s.buffered + o.s.xs.length)).getD (validity.drop o.numDone).length)))
            ((nthSetBitIdx (validity.drop o.numDone)
              (o.s.buffered + o.s.xs.length)).getD (validity.drop o.numDone).length)
            s'.offset 0 o.pos o.t with
        | mk wres rest =>
          obtain ⟨t2, numRead⟩ := rest
          have hwo := writeWord_ok2 dict s'.ring hs'.1
            ((nthSetBitIdx (validity.drop o.numDone)
              (o.s.buffered + o.s.xs.length)).getD (validity.drop o.numDone).length)
            (rem56 ((validity.drop o.numDone).take
              ((nthSetBitIdx (validity.drop o.numDone)
                (o.s.buffered + o.s.xs.length)).getD (validity.drop o.numDone).length)))
            s'.offset 0 o.pos o.t
          rw [hww] at hwo
          simp at hwo
          rw [hww, hwo] at h
          simp only [] at h
          injection h with h1 h2
          subst h1
          injection h2 with h2a h2b
          injection h2b with h2c h2d
          subst h2c
          exact ⟨fun e he => by simp at he, fun _ => hs'.1⟩

end PQ

namespace PQ

theorem goOpt_inv {B : Type} {dict : List B} (hd : 0 < dict.length)
    (cs : List HChunk) :
    ∀ (validity : List Bool) (ring : List Nat) (t : Vek B) (pos : Nat),
      RingOK dict.length ring →
      ∀ e, (goOpt dict cs validity ring t pos).1 = .error e →
        e ≠ .uncheckedOOB := by
  induction cs with
  | nil => intro validity ring t pos hR e h; simp [goOpt] at h
  | cons c cs ih =>
    intro validity ring t pos hR e h
    cases c with
    | Rle value size =>
      rw [goOpt] at h
      by_cases hs : size = 0
      · rw [if_pos hs] at h
        exact ih _ _ _ _ hR e h
      · rw [if_neg hs] at h
        simp only [] at h
        cases hg : dict.get? value with
        | none =>
          rw [hg] at h
          simp at h
          rw [← h]
          simp
        | some x =>
          rw [hg] at h
          simp only [] at h
          exact ih _ _ _ _ hR e h
    | Bitpacked xs =>
      rw [goOpt] at h
      cases hgb : goOptBitpacked dict xs ring validity t pos with
      | mk r0 rest =>
        obtain ⟨t', ring', validity', pos'⟩ := rest
        have hbi := goOptBitpacked_inv hd xs ring validity t pos hR r0 t'
          ring' validity' pos' hgb
        rw [hgb] at h
        cases r0 with
        | error e0 =>
          simp at h
          rw [← h]
          exact hbi.1 e0 rfl
        | ok u =>
          obtain ⟨⟩ := u
          simp only [] at h
          exact ih _ _ _ _ (hbi.2 rfl) e h

theorem optional_notU {B : Type} (z : B) (values : HybridRleDecoder)
    (dict : List B) (validity : List Bool) (target : Vek B) :
    ∀ e, (decode_optional_dict z values dict validity target).1 = .error e →
      e ≠ .uncheckedOOB := by
  intro e h
  rw [decode_optional_dict] at h
  simp only [] at h
  by_cases h1 : countT validity = validity.length
  · rw [if_pos h1] at h
    rw [decode_required_err _ _ _ e h]
    simp
  · rw [if_neg h1] at h
    by_cases h2 : dict.isEmpty ∧ 0 < countT validity
    · rw [if_pos h2] at h
      simp at h
      rw [← h]
      simp
    · rw [if_neg h2] at h
      by_cases h3 : ¬ countT validity ≤ values.len
      · rw [if_pos h3] at h
        simp at h
        rw [← h]
        simp
      · rw [if_neg h3] at h
        try simp only [] at h
        by_cases hde : dict.isEmpty
        · have hnv : countT validity = 0 := by
            by_contra hc
            exact h2 ⟨hde, Nat.pos_of_ne_zero hc⟩
          rw [hnv] at h
          rw [show (values.limit_to 0).chunks = [] from truncateChunks_zero _] at h
          rw [goOpt] at h
          simp at h
        · have hne : dict ≠ [] := fun hnil => hde (by rw [hnil]; rfl)
          have hd : 0 < dict.length := List.length_pos.mpr hne
          cases hgo : goOpt dict (values.limit_to (countT validity)).chunks
              validity (List.replicate 128 0)
              (target.reserve validity.length) target.len with
          | mk r0 rest =>
            obtain ⟨t', v', p'⟩ := rest
            rw [hgo] at h
            cases r0 with
            | error e0 =>
              simp at h
              rw [← h]
              exact goOpt_inv hd _ _ _ _ _ (RingOK_init hd) e0 (by rw [hgo])
            | ok u =>
              obtain ⟨⟩ := u
              simp at h

end PQ

namespace PQ

theorem iterReq_inv {B : Type} {dict : List B} (hd : 0 < dict.length)
    (f : List Bool) (len : Nat) (m : MState B)
    (hp : m.s.partIdx < 4) (hR : RingOK dict.length m.s.ring) :
    ∀ r m', iterReq dict f len m = (r, m') →
      (∀ e, r = .error e → e ≠ .uncheckedOOB) ∧
      (r = .ok () → RingOK dict.length m'.s.ring ∧ m'.s.partIdx < 4) := by
  intro r m' h
  rw [iterReq] at h
  by_cases hf : ¬ hasTrue f
  · rw [if_pos hf] at h
    injection h with h1 h2
    subst h1; subst h2
    exact ⟨fun e he => by simp at he, fun _ => ⟨hR, hp⟩⟩
  · rw [if_neg hf] at h
    simp only [] at h
    split at h
    · next e1 heq =>
      injection h with h1 h2
      subst h1; subst h2
      refine ⟨fun e he => ?_, fun hok => by simp at hok⟩
      injection he with he2
      subst he2
      exact (refillSkip_inv dict.length len hd _ _ (by exact hp)
        (by exact hR)).1 e1 heq
    · next s3 skip3 heq =>
      have hs3 := (refillSkip_inv dict.length len hd _ _ (by exact hp)
        (by exact hR)).2 s3 skip3 heq
      split at h
      · next e1 t1 nr1 nw1 heq2 =>
        have hwr := walkReq_ok dict s3.ring hs3.1 f s3.offset 0 0 m.pos m.t
        rw [heq2] at hwr
        simp at hwr
      · next t1 nr1 nw1 heq2 =>
        injection h with h1 h2
        subst h1; subst h2
        exact ⟨fun e he => by simp at he, fun _ => ⟨hs3.1, hs3.2⟩⟩

theorem goReqWords_inv {B : Type} {dict : List B} (hd : 0 < dict.length) :
    ∀ (ws : List (List Bool)) (m : MState B), m.s.partIdx < 4 →
      RingOK dict.length m.s.ring →
      ∀ r m', goReqWords dict ws m = (r, m') →
        (∀ e, r = .error e → e ≠ .uncheckedOOB) ∧
        (r = .ok () → RingOK dict.length m'.s.ring ∧ m'.s.partIdx < 4) := by
  intro ws
  induction ws with
  | nil =>
    intro m hp hR r m' h
    rw [goReqWords] at h
    injection h with h1 h2
    subst h1; subst h2
    exact ⟨fun e he => by simp at he, fun _ => ⟨hR, hp⟩⟩
  | cons f ws ih =>
    intro m hp hR r m' h
    rw [goReqWords] at h
    cases hit : iterReq dict f 56 m with
    | mk r0 m0 =>
      have hii := iterReq_inv hd f 56 m hp hR r0 m0 hit
      rw [hit] at h
      cases r0 with
      | error e0 =>
        simp only [] at h
        injection h with h1 h2
        subst h1; subst h2
        refine ⟨fun e he => ?_, fun hok => by simp at hok⟩
        injection he with he2
        subst he2
        exact hii.1 e0 rfl
      | ok u =>
        obtain ⟨⟩ := u
        simp only [] at h
        exact ih m0 (hii.2 rfl).2 (hii.2 rfl).1 r m' h

theorem goMReq_inv {B : Type} {dict : List B} (hd : 0 < dict.length)
    (cs : List HChunk) :
    ∀ (filter : List Bool) (ring : List Nat) (t : Vek B) (pos rowsLeft : Nat),
      RingOK dict.length ring →
      ∀ e, (goMReq dict cs filter ring t pos rowsLeft).1 = .error e →
        e ≠ .uncheckedOOB := by
  induction cs with
  | nil => intro filter ring t pos rowsLeft hR e h; simp [goMReq] at h
  | cons c cs ih =>
    intro filter ring t pos rowsLeft hR e h
    cases c with
    | Rle value size =>
      rw [goMReq] at h
      by_cases hrl : rowsLeft = 0
      · rw [if_pos hrl] at h
        simp at h
      · rw [if_neg hrl] at h
        by_cases hs : size = 0
        · rw [if_pos hs] at h
          exact ih _ _ _ _ _ hR e h
        · rw [if_neg hs] at h
          simp only [] at h
          by_cases hncr : 0 < countT (filter.take (min size filter.length))
          · rw [if_pos hncr] at h
            cases hg : dict.get? value with
            | none =>
              rw [hg] at h
              simp at h
              rw [← h]
              simp
            | some x =>
              rw [hg] at h
              simp only [] at h
              exact ih _ _ _ _ _ hR e h
          · rw [if_neg hncr] at h
            exact ih _ _ _ _ _ hR e h
    | Bitpacked xs =>
      rw [goMReq] at h
      by_cases hrl : rowsLeft = 0
      · rw [if_pos hrl] at h
        simp at h
      · rw [if_neg hrl] at h
        simp only [] at h
        split at h
        · next e1 m1 heq =>
          simp at h
          rw [← h]
          exact (goReqWords_inv hd _ _ (by exact Nat.succ_pos 3)
            (by exact hR) _ m1 heq).1 e1 rfl
        · next m1 heq =>
          have hm1 := (goReqWords_inv hd _ _ (by exact Nat.succ_pos 3)
            (by exact hR) _ m1 heq).2 rfl
          split at h
          · next e2 m2 heq2 =>
            simp at h
            rw [← h]
            exact (iterReq_inv hd _ _ m1 hm1.2 hm1.1 _ m2 heq2).1 e2 rfl
          · next m2 heq2 =>
            have hm2 := (iterReq_inv hd _ _ m1 hm1.2 hm1.1 _ m2 heq2).2 rfl
            exact ih _ _ _ _ _ hm2.1 e h

end PQ

namespace PQ

theorem masked_required_notU {B : Type} (values : HybridRleDecoder)
    (dict : List B) (filter : List Bool) (target : Vek B) :
    ∀ e, (decode_masked_required_dict values dict filter target).1 = .error e →
      e ≠ .uncheckedOOB := by
  intro e h
  rw [decode_masked_required_dict] at h
  simp only [] at h
  by_cases h1 : countT filter = filter.length
  · rw [if_pos h1] at h
    rw [decode_required_err _ _ _ e h]
    simp
  · rw [if_neg h1] at h
    by_cases h2 : dict.isEmpty ∧ ¬ filter.isEmpty
    · rw [if_pos h2] at h
      simp at h
      rw [← h]
      simp
    · rw [if_neg h2] at h
      try simp only [] at h
      have hfne : filter ≠ [] := by
        intro hnil
        subst hnil
        exact h1 rfl
      have hfe : filter.isEmpty = false := by
        cases filter with
        | nil => exact absurd rfl hfne
        | cons b bs => rfl
      have hdne : dict ≠ [] := by
        intro hnil
        exact h2 ⟨by rw [hnil]; rfl, by rw [hfe]; simp⟩
      have hd : 0 < dict.length := List.length_pos.mpr hdne
      cases hgo : goMReq dict (values.limit_to filter.length).chunks filter
          (List.replicate 128 0) (target.reserve (countT filter)) target.len
          (countT filter) with
      | mk r0 t' =>
        rw [hgo] at h
        cases r0 with
        | error e0 =>
          simp at h
          rw [← h]
          exact goMReq_inv hd _ _ _ _ _ _ (RingOK_init hd) e0 (by rw [hgo])
        | ok u =>
          obtain ⟨⟩ := u
          simp at h

theorem iterOpt_inv {B : Type} {dict : List B} (hd : 0 < dict.length)
    (f v : List Bool) (m : MState B)
    (hp : m.s.partIdx < 4) (hR : RingOK dict.length m.s.ring) :
    ∀ r m', iterOpt dict f v m = (r, m') →
      (∀ e, r = .error e → e ≠ .uncheckedOOB) ∧
      (r = .ok () → RingOK dict.length m'.s.ring ∧ m'.s.partIdx < 4) := by
  intro r m' h
  rw [iterOpt] at h
  by_cases hf : ¬ hasTrue f
  · rw [if_pos hf] at h
    injection h with h1 h2
    subst h1; subst h2
    exact ⟨fun e he => by simp at he, fun _ => ⟨hR, hp⟩⟩
  · rw [if_neg hf] at h
    simp only [] at h
    split at h
    · next e1 heq =>
      injection h with h1 h2
      subst h1; subst h2
      refine ⟨fun e he => ?_, fun hok => by simp at hok⟩
      injection he with he2
      subst he2
      exact (refillSkip_inv dict.length (countT v) hd _ _ (by exact hp)
        (by exact hR)).1 e1 heq
    · next s3 skip3 heq =>
      have hs3 := (refillSkip_inv dict.length (countT v) hd _ _ (by exact hp)
        (by exact hR)).2 s3 skip3 heq
      split at h
      · next e1 t1 nr1 nw1 heq2 =>
        have hwr := walkOpt_ok dict s3.ring hs3.1 f v s3.offset 0 0 m.pos m.t
        rw [heq2] at hwr
        simp at hwr
      · next t1 nr1 nw1 heq2 =>
        injection h with h1 h2
        subst h1; subst h2
        exact ⟨fun e he => by simp at he, fun _ => ⟨hs3.1, hs3.2⟩⟩

theorem goMOptWords_inv {B : Type} {dict : List B} (hd : 0 < dict.length) :
    ∀ (fws vws : List (List Bool)) (m : MState B), m.s.partIdx < 4 →
      RingOK dict.length m.s.ring →
      ∀ r m', goMOptWords dict fws vws m = (r, m') →
        (∀ e, r = .error e → e ≠ .uncheckedOOB) ∧
        (r = .ok () → RingOK dict.length m'.s.ring ∧ m'.s.partIdx < 4) := by
  intro fws
  induction fws with
  | nil =>
    intro vws m hp hR r m' h
    rw [show goMOptWords dict [] vws m = (.ok (), m) from rfl] at h
    injection h with h1 h2
    subst h1; subst h2
    exact ⟨fun e he => by simp at he, fun _ => ⟨hR, hp⟩⟩
  | cons f fws ih =>
    intro vws m hp hR r m' h
    cases vws with
    | nil =>
      rw [show goMOptWords dict (f :: fws) [] m = (.ok (), m) from rfl] at h
      injection h with h1 h2
      subst h1; subst h2
      exact ⟨fun e he => by simp at he, fun _ => ⟨hR, hp⟩⟩
    | cons v vws =>
      rw [goMOptWords] at h
      cases hit : iterOpt dict f v m with
      | mk r0 m0 =>
        have hii := iterOpt_inv hd f v m hp hR r0 m0 hit
        rw [hit] at h
        cases r0 with
        | error e0 =>
          simp only [] at h
          injection h with h1 h2
          subst h1; subst h2
          refine ⟨fun e he => ?_, fun hok => by simp at hok⟩
          injection he with he2
          subst he2
          exact hii.1 e0 rfl
        | ok u =>
          obtain ⟨⟩ := u
          simp only [] at h
          exact ih vws m0 (hii.2 rfl).2 (hii.2 rfl).1 r m' h

end PQ

namespace PQ

theorem goMOpt_inv {B : Type} {dict : List B} (hd : 0 < dict.length)
    (cs : List HChunk) :
    ∀ (filter validity : List Bool) (ring : List Nat) (t : Vek B)
      (pos rowsLeft : Nat),
      RingOK dict.length ring →
      ∀ e, (goMOpt dict cs filter validity ring t pos rowsLeft).1 = .error e →
        e ≠ .uncheckedOOB := by
  induction cs with
  | nil =>
    intro filter validity ring t pos rowsLeft hR e h
    simp [goMOpt] at h
  | cons c cs ih =>
    intro filter validity ring t pos rowsLeft hR e h
    cases c with
    | Rle value size =>
      rw [goMOpt] at h
      by_cases hrl : rowsLeft = 0
      · rw [if_pos hrl] at h
        simp at h
      · rw [if_neg hrl] at h
        by_cases hs : size = 0
        · rw [if_pos hs] at h
          exact ih _ _ _ _ _ _ hR e h
        · rw [if_neg hs] at h
          simp only [] at h
          by_cases hncr : 0 < countT (filter.take
            ((nthSetBitIdx validity size).getD validity.length))
          · rw [if_pos hncr] at h
            cases hg : dict.get? value with
            | none =>
              rw [hg] at h
              simp at h
              rw [← h]
              simp
            | some x =>
              rw [hg] at h
              simp only [] at h
              exact ih _ _ _ _ _ _ hR e h
          · rw [if_neg hncr] at h
            exact ih _ _ _ _ _ _ hR e h
    | Bitpacked xs =>
      rw [goMOpt] at h
      by_cases hrl : rowsLeft = 0
      · rw [if_pos hrl] at h
        simp at h
      · rw [if_neg hrl] at h
        simp only [] at h
        split at h
        · next e1 m1 heq =>
          simp at h
          rw [← h]
          exact (goMOptWords_inv hd _ _ _ (by exact Nat.succ_pos 3)
            (by exact hR) _ m1 heq).1 e1 rfl
        · next m1 heq =>
          have hm1 := (goMOptWords_inv hd _ _ _ (by exact Nat.succ_pos 3)
            (by exact hR) _ m1 heq).2 rfl
          by_cases hlen : (rem56 (filter.take
              ((nthSetBitIdx validity xs.length).getD validity.length))).length ≠
            (rem56 (validity.take
              ((nthSetBitIdx validity xs.length).getD validity.length))).length
          · rw [if_pos hlen] at h
            simp at h
            rw [← h]
            simp
          · rw [if_neg hlen] at h
            split at h
            · next e2 m2 heq2 =>
              simp at h
              rw [← h]
              exact (iterOpt_inv hd _ _ m1 hm1.2 hm1.1 _ m2 heq2).1 e2 rfl
            · next m2 heq2 =>
              have hm2 := (iterOpt_inv hd _ _ m1 hm1.2 hm1.1 _ m2 heq2).2 rfl
              exact ih _ _ _ _ _ _ hm2.1 e h

theorem masked_optional_notU {B : Type} (z : B) (values : HybridRleDecoder)
    (dict : List B) (filter validity : List Bool) (target : Vek B) :
    ∀ e, (decode_masked_optional_dict z values dict filter validity target).1 =
        .error e → e ≠ .uncheckedOOB := by
  intro e h
  rw [decode_masked_optional_dict] at h
  simp only [] at h
  by_cases h1 : countT filter = filter.length
  · rw [if_pos h1] at h
    exact optional_notU z values dict validity target e h
  · rw [if_neg h1] at h
    by_cases h2 : countT validity = validity.length
    · rw [if_pos h2] at h
      exact masked_required_notU values dict filter target e h
    · rw [if_neg h2] at h
      by_cases h3 : dict.isEmpty ∧ 0 < countT validity
      · rw [if_pos h3] at h
        simp at h
        rw [← h]
        simp
      · rw [if_neg h3] at h
        by_cases h4 : ¬ countT validity ≤ values.len
        · rw [if_pos h4] at h
          simp at h
          rw [← h]
          simp
        · rw [if_neg h4] at h
          try simp only [] at h
          by_cases hde : dict.isEmpty
          · have hnv : countT validity = 0 := by
              by_contra hc
              exact h3 ⟨hde, Nat.pos_of_ne_zero hc⟩
            rw [hnv] at h
            rw [show (values.limit_to 0).chunks = [] from truncateChunks_zero _] at h
            rw [show goMOpt dict [] filter validity (List.replicate 128 0)
              (target.reserve (countT filter)) target.len (countT filter) =
              (.ok (), target.reserve (countT filter), target.len, countT filter)
              from rfl] at h
            simp at h
          · have hdne : dict ≠ [] := fun hnil => hde (by rw [hnil]; rfl)
            have hd : 0 < dict.length := List.length_pos.mpr hdne
            cases hgo : goMOpt dict (values.limit_to (countT validity)).chunks
                filter validity (List.replicate 128 0)
                (target.reserve (countT filter)) target.len (countT filter) with
            | mk r0 rest =>
              obtain ⟨t', p', rl'⟩ := rest
              rw [hgo] at h
              cases r0 with
              | error e0 =>
                simp at h
                rw [← h]
                exact goMOpt_inv hd _ _ _ _ _ _ _ (RingOK_init hd) e0
                  (by rw [hgo])
              | ok u =>
                obtain ⟨⟩ := u
                simp at h

end PQ

namespace PQ

theorem dispatch_notU {B : Type} (z : B) (values : HybridRleDecoder)
    (dict : List B) (is_optional : Bool) (page_validity : Option (List Bool))
    (filter : Option RowFilter) (validity : List Bool) (target : Vek B) :
    ∀ e, (decode_dict_dispatch z values dict is_optional page_validity filter
        validity target).1 = .error e → e ≠ .uncheckedOOB := by
  intro e h1
  rw [decode_dict_dispatch.eq_def] at h1
  simp only [] at h1
  cases filter with
  | none =>
    cases hpv : constrain_page_validity values.len page_validity none with
    | none =>
      rw [hpv] at h1
      rw [decode_required_err _ _ _ e h1]
      simp
    | some v =>
      rw [hpv] at h1
      exact optional_notU z values dict v target e h1
  | some f =>
    cases f with
    | Range lo hi =>
      cases hpv : constrain_page_validity values.len page_validity
          (some (.Range lo hi)) with
      | none =>
        rw [hpv] at h1
        simp only [] at h1
        by_cases hlo : lo = 0
        · rw [if_pos hlo] at h1
          rw [decode_required_err _ _ _ e h1]
          simp
        · rw [if_neg hlo] at h1
          exact masked_required_notU values dict (filter_from_range lo hi)
            target e h1
      | some v =>
        rw [hpv] at h1
        simp only [] at h1
        by_cases hlo : lo = 0
        · rw [if_pos hlo] at h1
          exact optional_notU z values dict v target e h1
        · rw [if_neg hlo] at h1
          exact masked_optional_notU z values dict (filter_from_range lo hi)
            v target e h1
    | Mask m =>
      cases hpv : constrain_page_validity values.len page_validity
          (some (.Mask m)) with
      | none =>
        rw [hpv] at h1
        exact masked_required_notU values dict m target e h1
      | some v =>
        rw [hpv] at h1
        exact masked_optional_notU z values dict m v target e h1

/-- C9: every `get_unchecked` dictionary lookup only runs on indices already
validated against the dictionary length (each freshly filled 32-entry ring
part is checked by `verify_dict_indices`, and unfilled ring slots hold the
valid index 0 because the kernels' empty-dictionary guards have passed), so
the error branch of the checked embedding of those lookups — the
`uncheckedOOB` outcome — is unreachable in all four kernels and in the
dispatcher. -/
theorem C9_unchecked_lookup_safety {B : Type} (z : B)
    (values : HybridRleDecoder) (dict : List B) (filter validity : List Bool)
    (target : Vek B) (is_optional : Bool) (page_validity : Option (List Bool))
    (rowFilter : Option RowFilter) :
    (decode_required_dict values dict target).1 ≠ .error .uncheckedOOB ∧
    (decode_optional_dict z values dict validity target).1 ≠
      .error .uncheckedOOB ∧
    (decode_masked_required_dict values dict filter target).1 ≠
      .error .uncheckedOOB ∧
    (decode_masked_optional_dict z values dict filter validity target).1 ≠
      .error .uncheckedOOB ∧
    (decode_dict z values dict is_optional page_validity rowFilter validity
      target).1 ≠ .error .uncheckedOOB := by
  refine ⟨fun hc => ?_, fun hc => ?_, fun hc => ?_, fun hc => ?_, fun hc => ?_⟩
  · exact absurd (decode_required_err values dict target _ hc) (by simp)
  · exact optional_notU z values dict validity target _ hc rfl
  · exact masked_required_notU values dict filter target _ hc rfl
  · exact masked_optional_notU z values dict filter validity target _ hc rfl
  · exact dispatch_notU z values dict is_optional page_validity rowFilter
      validity target _ hc rfl

end PQ

namespace PQ

theorem wr_get?_ne {B : Type} (t : Vek B) (p : Nat) (x : B) (i : Nat)
    (h : i ≠ p) : (t.wr p x).buf.get? i = t.buf.get? i :=
  get?_set_ne t.buf p i (some x) (fun he => h he.symm)

theorem get?_set_self {α : Type} (l : List α) :
    ∀ (n : Nat) (a : α), n < l.length → (l.set n a).get? n = some a := by
  induction l with
  | nil => intro n a h; simp at h
  | cons x xs ih =>
    intro n a h
    cases n with
    | zero => simp
    | succ n' =>
      simp only [List.set_cons_succ, List.get?_cons_succ]
      exact ih n' a (by simpa using h)

theorem wr_get?_eq {B : Type} (t : Vek B) (p : Nat) (x : B)
    (h : p < t.buf.length) : (t.wr p x).buf.get? p = some (some x) :=
  get?_set_self t.buf p (some x) h

theorem fill_get?_out {B : Type} (n : Nat) :
    ∀ (t : Vek B) (p : Nat) (x : B) (i : Nat), i < p ∨ p + n ≤ i →
      (t.fill p n x).buf.get? i = t.buf.get? i := by
  induction n with
  | zero => intro t p x i _; rfl
  | succ n ih =>
    intro t p x i h
    rw [Vek.fill, ih (t.wr p x) (p + 1) x i (by omega)]
    exact wr_get?_ne t p x i (by omega)

theorem fill_get?_in {B : Type} (n : Nat) :
    ∀ (t : Vek B) (p : Nat) (x : B) (i : Nat), p ≤ i → i < p + n →
      i < t.buf.length → (t.fill p n x).buf.get? i = some (some x) := by
  induction n with
  | zero => intro t p x i h1 h2 _; omega
  | succ n ih =>
    intro t p x i h1 h2 hlen
    rw [Vek.fill]
    by_cases hi : i = p
    · subst hi
      rw [fill_get?_out n (t.wr i x) (i + 1) x i (by omega)]
      exact wr_get?_eq t i x hlen
    · exact ih (t.wr p x) (p + 1) x i (by omega) (by omega) (by simpa using hlen)

theorem dictUnchecked_mem {B : Type} {dict : List B} {idx : Nat} {x : B}
    (h : dictUnchecked dict idx = .ok x) : x ∈ dict := by
  rw [dictUnchecked] at h
  cases hg : dict.get? idx with
  | none => rw [hg] at h; simp at h
  | some y =>
    rw [hg] at h
    simp at h
    subst h
    exact List.get?_mem hg

theorem hasTrue_false_countT {f : List Bool} (h : ¬ hasTrue f) :
    countT f = 0 := by
  induction f with
  | nil => rfl
  | cons b bs ih =>
    cases b with
    | false =>
      have he : hasTrue (false :: bs) = hasTrue bs := by simp [hasTrue]
      rw [show countT (false :: bs) = countT bs from by simp [countT]]
      exact ih (fun hb => h (by rw [he]; exact hb))
    | true => exact absurd (by simp [hasTrue]) h

theorem countT_drop_firstTrue {f : List Bool} (h : hasTrue f) :
    countT f = countT (f.drop (firstTrueIdx f + 1)) + 1 := by
  induction f with
  | nil => simp [hasTrue] at h
  | cons b bs ih =>
    cases b with
    | true =>
      simp [firstTrueIdx, countT, List.count_cons]
    | false =>
      have hb : hasTrue bs := by simpa [hasTrue] using h
      have hf : firstTrueIdx (false :: bs) = firstTrueIdx bs + 1 := by
        simp [firstTrueIdx]
      rw [hf]
      rw [show ((false :: bs).drop (firstTrueIdx bs + 1 + 1))
          = bs.drop (firstTrueIdx bs + 1) from by simp [List.drop_succ_cons]]
      rw [show countT (false :: bs) = countT bs from by simp [countT]]
      exact ih hb

theorem countT_take_drop (bs : List Bool) (n : Nat) :
    countT (bs.take n) + countT (bs.drop n) = countT bs := by
  rw [countT, countT, countT, ← List.count_append, List.take_append_drop]

theorem nthSetBitIdx_lt {bs : List Bool} :
    ∀ {k i : Nat}, nthSetBitIdx bs k = some i → i < bs.length := by
  induction bs with
  | nil => intro k i h; simp [nthSetBitIdx] at h
  | cons b tl ih =>
    intro k i h
    rw [nthSetBitIdx] at h
    by_cases hb : b
    · rw [if_pos hb] at h
      by_cases hk : k = 0
      · rw [if_pos hk] at h
        simp at h
        simp [← h]
      · rw [if_neg hk] at h
        cases hn : nthSetBitIdx tl (k - 1) with
        | none => rw [hn] at h; simp at h
        | some j =>
          rw [hn] at h
          simp at h
          have := ih hn
          simp [← h]
          omega
    · rw [if_neg hb] at h
      cases hn : nthSetBitIdx tl k with
      | none => rw [hn] at h; simp at h
      | some j =>
        rw [hn] at h
        simp at h
        have := ih hn
        simp [← h]
        omega

/-- C2 counterexample core: a successful optional decode where the slot whose
validity bit is cleared holds the RLE dictionary value `7`, not the zeroed
placeholder `99`. -/
theorem C2_counterexample :
    (decode_optional_dict 99 ⟨[.Rle 0 1]⟩ [7] [true, false] ⟨0, []⟩).1
        = .ok () ∧
    (decode_optional_dict 99 ⟨[.Rle 0 1]⟩ [7] [true, false] ⟨0, []⟩).2.obs
        = [some 7, some 7] := by
  constructor
  · rfl
  · rfl

end PQ

namespace PQ

theorem fullWords56_len_le (bs : List Bool) :
    56 * (fullWords56 bs).length ≤ bs.length := by
  induction bs using fullWords56.induct with
  | case1 bs h ih =>
    rw [fullWords56, dif_pos h]
    simp only [List.length_cons]
    have hdl : (bs.drop 56).length = bs.length - 56 := by simp
    omega
  | case2 bs h =>
    rw [fullWords56, dif_neg h]
    simp

theorem writeWord_content {B : Type} (dict : List B) (ring : List Nat)
    (hR : RingOK dict.length ring) (count : Nat) :
    ∀ (bits : List Bool) (offset numRead pos : Nat) (t : Vek B),
      pos + count ≤ t.buf.length →
      ∀ r t' nr, writeWord dict ring bits count offset numRead pos t = (r, t', nr) →
        r = .ok () ∧ t'.len = t.len ∧ t'.buf.length = t.buf.length ∧
        (∀ i, i < pos → t'.buf.get? i = t.buf.get? i) ∧
        (∀ i, pos ≤ i → i < pos + count →
          ∃ x, t'.buf.get? i = some (some x) ∧ x ∈ dict) := by
  induction count with
  | zero =>
    intro bits offset numRead pos t hcap r t' nr h
    rw [writeWord] at h
    injection h with h1 h2
    injection h2 with h2a h2b
    subst h1; subst h2a
    exact ⟨rfl, rfl, rfl, fun i _ => rfl, fun i hi1 hi2 => by omega⟩
  | succ n ih =>
    intro bits offset numRead pos t hcap r t' nr h
    rw [writeWord] at h
    have hlt := ringGet_lt hR (offset + numRead)
    cases hg : dict.get? (ringGet ring (offset + numRead)) with
    | none =>
      rw [List.get?_eq_none] at hg
      omega
    | some x =>
      rw [show dictUnchecked dict (ringGet ring (offset + numRead)) = .ok x from by
        rw [dictUnchecked, hg]] at h
      simp only [] at h
      have hx : x ∈ dict := List.get?_mem hg
      obtain ⟨ho, hl, hbl, hbelow, hin⟩ := ih bits.tail offset
        (numRead + (if bits.headD false then 1 else 0)) (pos + 1) (t.wr pos x)
        (by simp; omega) r t' nr h
      refine ⟨ho, by rw [hl]; rfl, by rw [hbl]; simp, ?_, ?_⟩
      · intro i hi
        rw [hbelow i (by omega)]
        exact wr_get?_ne t pos x i (by omega)
      · intro i hi1 hi2
        by_cases hip : i = pos
        · subst hip
          rw [hbelow i (by omega)]
          exact ⟨x, wr_get?_eq t i x (by omega), hx⟩
        · exact hin i (by omega) (by omega)

theorem goOptWords_content {B : Type} {dict : List B} (hd : 0 < dict.length) :
    ∀ (ws : List (List Bool)) (o : OState B),
      o.s.partIdx < 4 → RingOK dict.length o.s.ring →
      o.pos + 56 * ws.length ≤ o.t.buf.length →
      ∀ o', goOptWords dict ws o = (.ok (), o') →
        o.numDone ≤ o'.numDone ∧
        o'.numDone ≤ o.numDone + 56 * ws.length ∧
        o'.pos = o.pos + (o'.numDone - o.numDone) ∧
        o'.t.len = o.t.len ∧ o'.t.buf.length = o.t.buf.length ∧
        (∀ i, i < o.pos → o'.t.buf.get? i = o.t.buf.get? i) ∧
        (∀ i, o.pos ≤ i → i < o'.pos →
          ∃ x, o'.t.buf.get? i = some (some x) ∧ x ∈ dict) ∧
        RingOK dict.length o'.s.ring ∧ o'.s.partIdx < 4 := by
  intro ws
  induction ws with
  | nil =>
    intro o hp hR hcap o' h
    rw [goOptWords] at h
    injection h with h1 h2
    subst h2
    exact ⟨Nat.le_refl _, by simp, by
        show o.pos = o.pos + (o.numDone - o.numDone)
        omega,
      rfl, rfl, fun i _ => rfl, fun i hi1 hi2 => by omega, hR, hp⟩
  | cons v ws ih =>
    intro o hp hR hcap o' h
    have hri := refillOpt_inv dict.length (countT v) hd o.s hp hR
    rw [goOptWords] at h
    cases hrf : refillOpt dict.length (countT v) o.s with
    | error e' =>
      rw [hrf] at h
      simp at h
    | ok sb =>
      obtain ⟨s', b⟩ := sb
      have hs' := hri.2 s' b hrf
      cases b with
      | false =>
        rw [hrf] at h
        simp only [] at h
        injection h with h1 h2
        subst h2
        exact ⟨Nat.le_refl _, by simp, by
            show o.pos = o.pos + (o.numDone - o.numDone)
            omega,
          rfl, rfl, fun i _ => rfl,
          fun i hi1 hi2 => absurd (show i < o.pos from hi2) (by omega),
          hs'.1, hs'.2⟩
      | true =>
        rw [hrf] at h
        simp only [] at h
        cases hww : writeWord dict s'.ring v 56 s'.offset 0 o.pos o.t with
        | mk wres rest =>
          obtain ⟨t', numRead⟩ := rest
          have hlen1 : o.pos + 56 ≤ o.t.buf.length := by
            simp only [List.length_cons] at hcap
            omega
          obtain ⟨hwo, hwl, hwbl, hwbelow, hwin⟩ :=
            writeWord_content dict s'.ring hs'.1 56 v s'.offset 0 o.pos o.t
              hlen1 wres t' numRead hww
          rw [hww, hwo] at h
          simp only [] at h
          obtain ⟨ha, hb, hc, hdl, hbl, hbel, hin, hrg, hpi⟩ :=
            ih ⟨t', { s' with offset := (s'.offset + numRead) % 128,
                              buffered := s'.buffered - numRead },
                o.pos + 56, o.numDone + 56⟩
              hs'.2 hs'.1 (by
                show o.pos + 56 + 56 * ws.length ≤ t'.buf.length
                rw [hwbl]
                simp only [List.length_cons] at hcap
                omega) o' h
          simp only [] at ha hb hc hdl hbl hbel hin
          refine ⟨by omega, by simp only [List.length_cons]; omega, by omega,
            by rw [hdl, hwl], by rw [hbl, hwbl], ?_, ?_, hrg, hpi⟩
          · intro i hi
            rw [hbel i (by omega), hwbelow i (by omega)]
          · intro i hi1 hi2
            by_cases hi56 : i < o.pos + 56
            · obtain ⟨x, hx1, hx2⟩ := hwin i hi1 hi56
              exact ⟨x, by rw [hbel i (by omega)]; exact hx1, hx2⟩
            · exact hin i (by omega) hi2

end PQ

namespace PQ

theorem goOptBitpacked_content {B : Type} {dict : List B} (hd : 0 < dict.length)
    (xs ring : List Nat) (validity : List Bool) (t : Vek B) (pos : Nat)
    (hR : RingOK dict.length ring)
    (hcap : pos + validity.length ≤ t.buf.length) :
    ∀ t' ring' validity' pos',
      goOptBitpacked dict xs ring validity t pos
        = (.ok (), t', ring', validity', pos') →
      ∃ k, k ≤ validity.length ∧ pos' = pos + k ∧
        validity'.length = validity.length - k ∧
        t'.len = t.len ∧ t'.buf.length = t.buf.length ∧
        (∀ i, i < pos → t'.buf.get? i = t.buf.get? i) ∧
        (∀ i, pos ≤ i → i < pos' →
          ∃ x, t'.buf.get? i = some (some x) ∧ x ∈ dict) ∧
        RingOK dict.length ring' := by
  intro t' ring' validity' pos' h
  rw [goOptBitpacked] at h
  cases hgw : goOptWords dict (fullWords56 validity)
      ⟨t, ⟨xs, ring, 0, 0, 0⟩, pos, 0⟩ with
  | mk r0 o =>
    rw [hgw] at h
    cases r0 with
    | error e0 => simp at h
    | ok u =>
      obtain ⟨⟩ := u
      obtain ⟨ha, hb, hc, hdl, hbl, hbel, hin, hrg, hpi⟩ :=
        goOptWords_content hd (fullWords56 validity)
          ⟨t, ⟨xs, ring, 0, 0, 0⟩, pos, 0⟩ (Nat.succ_pos 3) hR
          (by
            show pos + 56 * (fullWords56 validity).length ≤ t.buf.length
            have := fullWords56_len_le validity
            omega) o hgw
      simp only [] at ha hb hc hdl hbl hbel hin
      have hnd : o.numDone ≤ validity.length := by
        have := fullWords56_len_le validity
        omega
      have hdle : ((nthSetBitIdx (validity.drop o.numDone)
          (o.s.buffered + o.s.xs.length)).getD (validity.drop o.numDone).length)
          ≤ (validity.drop o.numDone).length := by
        cases hn : nthSetBitIdx (validity.drop o.numDone)
            (o.s.buffered + o.s.xs.length) with
        | none =>
          simp only [hn, Option.getD_none]
          exact Nat.le_refl _
        | some j =>
          simp only [hn, Option.getD_some]
          exact Nat.le_of_lt (nthSetBitIdx_lt hn)
      rw [Nat.sub_zero] at hc
      have hdrop : (validity.drop o.numDone).length
          = validity.length - o.numDone := by simp
      simp only [] at h
      cases hrp : refillPanic dict.length
          (countT (rem56 ((validity.drop o.numDone).take
            ((nthSetBitIdx (validity.drop o.numDone)
              (o.s.buffered + o.s.xs.length)).getD (validity.drop o.numDone).length))))
          o.s with
      | error e1 =>
        rw [hrp] at h
        simp at h
      | ok s' =>
        have hs' := (refillPanic_inv dict.length
          (countT (rem56 ((validity.drop o.numDone).take
            ((nthSetBitIdx (validity.drop o.numDone)
              (o.s.buffered + o.s.xs.length)).getD (validity.drop o.numDone).length))))
          hd o.s hpi hrg).2 s' hrp
        rw [hrp] at h
        simp only [] at h
        cases hww : writeWord dict s'.ring
            (rem56 ((validity.drop o.numDone).take
              ((nthSetBitIdx (validity.drop o.numDone)
                (o.s.buffered + o.s.xs.length)).getD (validity.drop o.numDone).length)))
            ((nthSetBitIdx (validity.drop o.numDone)
              (o.s.buffered + o.s.xs.length)).getD (validity.drop o.numDone).length)
            s'.offset 0 o.pos o.t with
        | mk wres rest =>
          obtain ⟨t2, numRead⟩ := rest
          obtain ⟨hwo, hwl, hwbl, hwbelow, hwin⟩ :=
            writeWord_content dict s'.ring hs'.1 _ _ s'.offset 0 o.pos o.t
              (by
                rw [hbl]
                omega) wres t2 numRead hww
          rw [hww, hwo] at h
          simp only [] at h
          injection h with h1 h2
          injection h2 with h2a h2b
          injection h2b with h2c h2d
          injection h2d with h2e h2f
          subst h2a; subst h2c; subst h2e; subst h2f
          refine ⟨o.numDone + ((nthSetBitIdx (validity.drop o.numDone)
            (o.s.buffered + o.s.xs.length)).getD (validity.drop o.numDone).length),
            ?_, ?_, ?_, ?_, ?_, ?_, ?_, hs'.1⟩
          · omega
          · omega
          · rw [List.drop_drop, List.length_drop]
            try congr 1
            try omega
          · rw [hwl, hdl]
          · rw [hwbl, hbl]
          · intro i hi
            rw [hwbelow i (by omega), hbel i (by omega)]
          · intro i hi1 hi2
            by_cases hio : i < o.pos
            · obtain ⟨x, hx1, hx2⟩ := hin i hi1 hio
              exact ⟨x, by rw [hwbelow i (by omega)]; exact hx1, hx2⟩
            · exact hwin i (by omega) (by omega)

end PQ

namespace PQ

theorem goOpt_content {B : Type} {dict : List B} (hd : 0 < dict.length) :
    ∀ (cs : List HChunk) (validity : List Bool) (ring : List Nat) (t : Vek B)
      (pos : Nat), RingOK dict.length ring →
      pos + validity.length ≤ t.buf.length →
      ∀ t' validity' pos',
        goOpt dict cs validity ring t pos = (.ok (), t', validity', pos') →
        ∃ k, k ≤ validity.length ∧ pos' = pos + k ∧
          validity'.length = validity.length - k ∧
          t'.len = t.len ∧ t'.buf.length = t.buf.length ∧
          (∀ i, i < pos → t'.buf.get? i = t.buf.get? i) ∧
          (∀ i, pos ≤ i → i < pos' →
            ∃ x, t'.buf.get? i = some (some x) ∧ x ∈ dict) := by
  intro cs
  induction cs with
  | nil =>
    intro validity ring t pos hR hcap t' validity' pos' h
    rw [goOpt] at h
    injection h with h1 h2
    injection h2 with h2a h2b
    injection h2b with h2c h2d
    subst h2a; subst h2c; subst h2d
    exact ⟨0, by omega, by omega, by omega, rfl, rfl, fun i _ => rfl,
      fun i hi1 hi2 => by omega⟩
  | cons c cs ih =>
    intro validity ring t pos hR hcap t' validity' pos' h
    cases c with
    | Rle value size =>
      rw [goOpt] at h
      by_cases hs : size = 0
      · rw [if_pos hs] at h
        exact ih validity ring t pos hR hcap t' validity' pos' h
      · rw [if_neg hs] at h
        simp only [] at h
        cases hg : dict.get? value with
        | none =>
          rw [hg] at h
          simp at h
        | some x =>
          rw [hg] at h
          simp only [] at h
          have hncr : ((nthSetBitIdx validity size).getD validity.length)
              ≤ validity.length := by
            cases hn : nthSetBitIdx validity size with
            | none =>
              simp only [hn, Option.getD_none]
              exact Nat.le_refl _
            | some j =>
              simp only [hn, Option.getD_some]
              exact Nat.le_of_lt (nthSetBitIdx_lt hn)
          obtain ⟨k, hk1, hk2, hk3, hk4, hk5, hk6, hk7⟩ :=
            ih (validity.drop ((nthSetBitIdx validity size).getD validity.length))
              ring
              (t.fill pos ((nthSetBitIdx validity size).getD validity.length) x)
              (pos + ((nthSetBitIdx validity size).getD validity.length))
              hR (by simp; omega) t' validity' pos' h
          simp only [List.length_drop] at hk1 hk3
          refine ⟨((nthSetBitIdx validity size).getD validity.length) + k,
            by omega, by omega, by omega, by rw [hk4]; simp, by rw [hk5]; simp,
            ?_, ?_⟩
          · intro i hi
            rw [hk6 i (by omega)]
            exact fill_get?_out _ t pos x i (by omega)
          · intro i hi1 hi2
            by_cases hifill :
                i < pos + ((nthSetBitIdx validity size).getD validity.length)
            · refine ⟨x, ?_, List.get?_mem hg⟩
              rw [hk6 i (by omega)]
              exact fill_get?_in _ t pos x i hi1 hifill (by omega)
            · exact hk7 i (by omega) hi2
    | Bitpacked xs =>
      rw [goOpt] at h
      cases hgb : goOptBitpacked dict xs ring validity t pos with
      | mk r0 rest =>
        obtain ⟨t1, ring1, validity1, pos1⟩ := rest
        rw [hgb] at h
        cases r0 with
        | error e0 => simp at h
        | ok u =>
          obtain ⟨⟩ := u
          simp only [] at h
          obtain ⟨k1, hk1a, hk1b, hk1c, hk1d, hk1e, hk1f, hk1g, hk1R⟩ :=
            goOptBitpacked_content hd xs ring validity t pos hR hcap
              t1 ring1 validity1 pos1 hgb
          obtain ⟨k2, hk2a, hk2b, hk2c, hk2d, hk2e, hk2f, hk2g⟩ :=
            ih validity1 ring1 t1 pos1 hk1R
              (by rw [hk1e, hk1b, hk1c] at *; omega) t' validity' pos' h
          refine ⟨k1 + k2, by omega, by omega, by omega,
            by rw [hk2d, hk1d], by rw [hk2e, hk1e], ?_, ?_⟩
          · intro i hi
            rw [hk2f i (by omega), hk1f i hi]
          · intro i hi1 hi2
            by_cases hi1' : i < pos1
            · obtain ⟨x, hx1, hx2⟩ := hk1g i hi1 hi1'
              exact ⟨x, by rw [hk2f i hi1']; exact hx1, hx2⟩
            · exact hk2g i (by omega) hi2

end PQ

namespace PQ

theorem writeList_get?_lt {B : Type} (xs : List B) :
    ∀ (buf : List (Option B)) (pos i : Nat), i < pos →
      (writeList buf pos xs).get? i = buf.get? i := by
  induction xs with
  | nil => intro buf pos i _; rfl
  | cons x xs ih =>
    intro buf pos i h
    rw [writeList, ih (buf.set pos (some x)) (pos + 1) i (by omega)]
    exact get?_set_ne buf pos i (some x) (by omega)

theorem writeList_get?_in {B : Type} (xs : List B) :
    ∀ (buf : List (Option B)) (pos i : Nat), pos ≤ i → i < pos + xs.length →
      i < buf.length →
      (writeList buf pos xs).get? i = (xs.get? (i - pos)).map some := by
  induction xs with
  | nil =>
    intro buf pos i h1 h2 _
    simp at h2
    omega
  | cons x xs ih =>
    intro buf pos i h1 h2 hlen
    rw [writeList]
    by_cases hip : i = pos
    · subst hip
      rw [writeList_get?_lt xs (buf.set i (some x)) (i + 1) i (by omega)]
      rw [get?_set_self buf i (some x) hlen]
      simp
    · rw [ih (buf.set pos (some x)) (pos + 1) i (by omega)
        (by simp only [List.length_cons] at h2; omega) (by simpa using hlen)]
      have hsub : i - pos = (i - (pos + 1)) + 1 := by omega
      rw [hsub, List.get?_cons_succ]

theorem decode_required_slots {B : Type} (z : B) {values : HybridRleDecoder}
    {dict : List B} {target : Vek B} {t' : Vek B}
    (h : decode_required_dict values dict target = (.ok (), t')) :
    t'.len = target.len + values.len ∧
    ∀ i, target.len ≤ i → i < t'.len →
      ∃ x, t'.buf.get? i = some (some x) ∧ x ∈ dict := by
  rw [decode_required_dict] at h
  by_cases hg : dict.isEmpty ∧ 0 < values.len
  · rw [if_pos hg] at h
    simp at h
  · rw [if_neg hg] at h
    simp only [] at h
    cases hgo : goRequired dict values.chunks target.len
        (target.reserve values.len) with
    | mk r0 t1 =>
      rw [hgo] at h
      cases r0 with
      | error e0 => simp at h
      | ok u =>
        obtain ⟨⟩ := u
        simp only [] at h
        injection h with h1 h2
        subst h2
        have hib : ∀ j ∈ streamIndices values.chunks, j < dict.length := by
          by_contra hc
          push_neg at hc
          obtain ⟨j, hj1, hj2⟩ := hc
          have hoob := goRequired_oob dict values.chunks target.len
            (target.reserve values.len) ⟨j, hj1, hj2⟩
          rw [hgo] at hoob
          simp at hoob
        have hcont := goRequired_content dict z values.chunks target.len
          (target.reserve values.len) hib
        rw [hgo] at hcont
        have ht1 : t1 = { target.reserve values.len with
            buf := writeList (target.reserve values.len).buf target.len
              ((streamIndices values.chunks).map
                (fun j => (dict.get? j).getD z)) } := by
          have := congrArg Prod.snd hcont
          simpa using this
        subst ht1
        refine ⟨rfl, ?_⟩
        intro i hi1 hi2
        have hml : ((streamIndices values.chunks).map
            (fun j => (dict.get? j).getD z)).length = values.len := by
          rw [List.length_map, streamIndices_length]
          rfl
        have hbl : target.len + values.len
            ≤ (target.reserve values.len).buf.length := by
          rw [reserve_buflen]
          omega
        have hi2' : i < target.len + values.len := hi2
        have hget := writeList_get?_in
          ((streamIndices values.chunks).map (fun j => (dict.get? j).getD z))
          (target.reserve values.len).buf target.len i hi1
          (by rw [hml]; omega) (by omega)
        cases hv : ((streamIndices values.chunks).map
            (fun j => (dict.get? j).getD z)).get? (i - target.len) with
        | none =>
          rw [List.get?_eq_none] at hv
          omega
        | some v =>
          rw [hv] at hget
          obtain ⟨j, hj1, hj2⟩ := List.mem_map.mp (List.get?_mem hv)
          have hjd : j < dict.length := hib j hj1
          cases hgj : dict.get? j with
          | none =>
            rw [List.get?_eq_none] at hgj
            omega
          | some x =>
            refine ⟨x, ?_, List.get?_mem hgj⟩
            show (writeList (target.reserve values.len).buf target.len
              ((streamIndices values.chunks).map
                (fun j => (dict.get? j).getD z))).get? i = some (some x)
            rw [hget]
            have hvx : v = x := by
              rw [← show (dict.get? j).getD z = v from hj2, hgj]
              rfl
            rw [hvx]
            rfl

end PQ

namespace PQ

theorem decode_optional_slots {B : Type} {z : B} {values : HybridRleDecoder}
    {dict : List B} {validity : List Bool} {target : Vek B} {t' : Vek B}
    (h : decode_optional_dict z values dict validity target = (.ok (), t')) :
    ∀ i, target.len ≤ i → i < t'.len →
      ∃ x, t'.buf.get? i = some (some x) ∧ (x = z ∨ x ∈ dict) := by
  rw [decode_optional_dict] at h
  simp only [] at h
  by_cases h1 : countT validity = validity.length
  · rw [if_pos h1] at h
    intro i hi1 hi2
    obtain ⟨x, hx1, hx2⟩ := (decode_required_slots z h).2 i hi1 hi2
    exact ⟨x, hx1, Or.inr hx2⟩
  · rw [if_neg h1] at h
    by_cases h2 : dict.isEmpty ∧ 0 < countT validity
    · rw [if_pos h2] at h
      simp at h
    · rw [if_neg h2] at h
      by_cases h3 : ¬ countT validity ≤ values.len
      · rw [if_pos h3] at h
        simp at h
      · rw [if_neg h3] at h
        try simp only [] at h
        have hcap0 : target.len + validity.length
            ≤ (target.reserve validity.length).buf.length := by
          simp [Vek.reserve]
          try omega
        by_cases hde : dict.isEmpty
        · have hnv : countT validity = 0 := by
            by_contra hc
            exact h2 ⟨hde, Nat.pos_of_ne_zero hc⟩
          rw [hnv, show (values.limit_to 0).chunks = []
            from truncateChunks_zero _] at h
          rw [goOpt] at h
          simp only [] at h
          injection h with h1' h2'
          subst h2'
          intro i hi1 hi2
          have hi2' : i < target.len + validity.length := hi2
          refine ⟨z, ?_, Or.inl rfl⟩
          show ((target.reserve validity.length).fill target.len
            validity.length z).buf.get? i = some (some z)
          apply fill_get?_in
          · exact hi1
          · exact hi2'
          · omega
        · have hdne : dict ≠ [] := fun hnil => hde (by rw [hnil]; rfl)
          have hd : 0 < dict.length := List.length_pos.mpr hdne
          cases hgo : goOpt dict (values.limit_to (countT validity)).chunks
              validity (List.replicate 128 0)
              (target.reserve validity.length) target.len with
          | mk r0 rest =>
            obtain ⟨t1, validity1, pos1⟩ := rest
            rw [hgo] at h
            cases r0 with
            | error e0 => simp at h
            | ok u =>
              obtain ⟨⟩ := u
              simp only [] at h
              injection h with h1' h2'
              subst h2'
              obtain ⟨k, hk1, hk2, hk3, hk4, hk5, hk6, hk7⟩ :=
                goOpt_content hd _ validity (List.replicate 128 0)
                  (target.reserve validity.length) target.len
                  (RingOK_init hd) hcap0 t1 validity1 pos1 hgo
              intro i hi1 hi2
              have hi2' : i < target.len + validity.length := hi2
              by_cases hiw : i < pos1
              · obtain ⟨x, hx1, hx2⟩ := hk7 i hi1 hiw
                refine ⟨x, ?_, Or.inr hx2⟩
                show (t1.fill pos1 validity1.length z).buf.get? i
                  = some (some x)
                rw [fill_get?_out _ t1 pos1 z i (Or.inl hiw)]
                exact hx1
              · refine ⟨z, ?_, Or.inl rfl⟩
                show (t1.fill pos1 validity1.length z).buf.get? i
                  = some (some z)
                apply fill_get?_in
                · omega
                · omega
                · rw [hk5]
                  omega

end PQ

namespace PQ

theorem walkReq_content {B : Type} (dict : List B) (ring : List Nat)
    (hR : RingOK dict.length ring) (f : List Bool)
    (offset numRead numWritten pos : Nat) (t : Vek B) :
    pos + numWritten + countT f ≤ t.buf.length →
    ∀ r t' nr nw,
      walkReq dict ring f offset numRead numWritten pos t = (r, t', nr, nw) →
      r = .ok () ∧ nw = numWritten + countT f ∧
      t'.len = t.len ∧ t'.buf.length = t.buf.length ∧
      (∀ i, i < pos + numWritten → t'.buf.get? i = t.buf.get? i) ∧
      (∀ i, pos + numWritten ≤ i → i < pos + nw →
        ∃ x, t'.buf.get? i = some (some x) ∧ x ∈ dict) := by
  induction f, offset, numRead, numWritten, pos, t
      using walkReq.induct dict ring with
  | case1 f offset numRead numWritten pos t hf e heq =>
    intro hcap r t' nr nw h
    exfalso
    have hlt := ringGet_lt hR (offset + (numRead + firstTrueIdx f))
    rw [dictUnchecked] at heq
    cases hg : dict.get? (ringGet ring (offset + (numRead + firstTrueIdx f))) with
    | none =>
      rw [List.get?_eq_none] at hg
      omega
    | some x =>
      rw [hg] at heq
      simp at heq
  | case2 f offset numRead numWritten pos t hf x heq ih =>
    intro hcap r t' nr nw h
    rw [walkReq] at h
    simp only [dif_pos hf, heq] at h
    have hx : x ∈ dict := dictUnchecked_mem heq
    have hcnt := countT_drop_firstTrue hf
    obtain ⟨ho, hnw, hl, hbl, hbelow, hin⟩ := ih (by simp; omega) r t' nr nw h
    refine ⟨ho, by omega, by rw [hl]; rfl, by rw [hbl]; simp, ?_, ?_⟩
    · intro i hi
      rw [hbelow i (by omega)]
      exact wr_get?_ne t (pos + numWritten) x i (by omega)
    · intro i hi1 hi2
      by_cases hip : i = pos + numWritten
      · subst hip
        rw [hbelow _ (by omega)]
        exact ⟨x, wr_get?_eq t _ x (by omega), hx⟩
      · exact hin i (by omega) (by omega)
  | case3 f offset numRead numWritten pos t hf =>
    intro hcap r t' nr nw h
    rw [walkReq] at h
    simp only [dif_neg hf] at h
    injection h with h1 h2
    injection h2 with h2a h2b
    injection h2b with h2c h2d
    subst h1; subst h2a; subst h2c; subst h2d
    refine ⟨rfl, by rw [hasTrue_false_countT hf]; omega, rfl, rfl,
      fun i _ => rfl, ?_⟩
    intro i hi1 hi2
    omega

theorem iterReq_content {B : Type} {dict : List B} (hd : 0 < dict.length)
    (f : List Bool) (len : Nat) (m : MState B)
    (hp : m.s.partIdx < 4) (hR : RingOK dict.length m.s.ring)
    (hcap : m.pos + countT f ≤ m.t.buf.length) :
    ∀ m', iterReq dict f len m = (.ok (), m') →
      m'.pos = m.pos + countT f ∧ m'.rowsLeft = m.rowsLeft - countT f ∧
      m'.t.len = m.t.len ∧ m'.t.buf.length = m.t.buf.length ∧
      (∀ i, i < m.pos → m'.t.buf.get? i = m.t.buf.get? i) ∧
      (∀ i, m.pos ≤ i → i < m'.pos →
        ∃ x, m'.t.buf.get? i = some (some x) ∧ x ∈ dict) ∧
      RingOK dict.length m'.s.ring ∧ m'.s.partIdx < 4 := by
  intro m' h
  rw [iterReq] at h
  by_cases hf : ¬ hasTrue f
  · rw [if_pos hf] at h
    injection h with h1 h2
    subst h2
    rw [hasTrue_false_countT hf]
    refine ⟨by show m.pos = m.pos + 0; omega,
      by show m.rowsLeft = m.rowsLeft - 0; omega, rfl, rfl, fun i _ => rfl,
      fun i hi1 hi2 => absurd (show i < m.pos from hi2) (by omega), hR, hp⟩
  · rw [if_neg hf] at h
    simp only [] at h
    split at h
    · next e1 heq => simp at h
    · next s3 skip3 heq =>
      have hs3 := (refillSkip_inv dict.length len hd _ _ (by exact hp)
        (by exact hR)).2 s3 skip3 heq
      cases hwr : walkReq dict s3.ring f s3.offset 0 0 m.pos m.t with
      | mk r0 rest =>
        obtain ⟨t1, nr1, nw1⟩ := rest
        obtain ⟨ho, hnw, hl, hbl, hbelow, hin⟩ :=
          walkReq_content dict s3.ring hs3.1 f s3.offset 0 0 m.pos m.t
            (by omega) r0 t1 nr1 nw1 hwr
        rw [hwr, ho] at h
        simp only [] at h
        injection h with h1 h2
        subst h2
        refine ⟨by show m.pos + nw1 = m.pos + countT f; omega,
          by show m.rowsLeft - nw1 = m.rowsLeft - countT f; omega,
          hl, hbl, ?_, ?_, hs3.1, hs3.2⟩
        · intro i hi
          exact hbelow i (by omega)
        · intro i hi1 hi2
          exact hin i (by omega) (show i < m.pos + nw1 from hi2)

theorem countT_words (bs : List Bool) :
    ((fullWords56 bs).map countT).sum + countT (rem56 bs) = countT bs := by
  induction bs using fullWords56.induct with
  | case1 bs h ih =>
    rw [fullWords56, dif_pos h]
    simp only [List.map_cons, List.sum_cons]
    have hlen : (bs.drop 56).length = bs.length - 56 := by simp
    have hrem : rem56 bs = rem56 (bs.drop 56) := by
      rw [rem56, rem56, hlen, List.drop_drop]
      congr 1
      have hdiv : bs.length / 56 = (bs.length - 56) / 56 + 1 := by
        conv_lhs => rw [show bs.length = (bs.length - 56) + 56 from by omega]
        rw [Nat.add_div_right _ (by norm_num)]
      rw [hdiv, Nat.mul_succ]
      omega
    rw [hrem]
    have h2 := countT_take_drop bs 56
    omega
  | case2 bs h =>
    rw [fullWords56, dif_neg h]
    simp only [List.map_nil, List.sum_nil, Nat.zero_add]
    rw [rem56]
    have hz : bs.length / 56 = 0 := Nat.div_eq_of_lt (by omega)
    rw [hz]
    simp

theorem goReqWords_content {B : Type} {dict : List B} (hd : 0 < dict.length) :
    ∀ (ws : List (List Bool)) (m : MState B), m.s.partIdx < 4 →
      RingOK dict.length m.s.ring →
      m.pos + (ws.map countT).sum ≤ m.t.buf.length →
      ∀ m', goReqWords dict ws m = (.ok (), m') →
        m'.pos = m.pos + (ws.map countT).sum ∧
        m'.rowsLeft = m.rowsLeft - (ws.map countT).sum ∧
        m'.t.len = m.t.len ∧ m'.t.buf.length = m.t.buf.length ∧
        (∀ i, i < m.pos → m'.t.buf.get? i = m.t.buf.get? i) ∧
        (∀ i, m.pos ≤ i → i < m'.pos →
          ∃ x, m'.t.buf.get? i = some (some x) ∧ x ∈ dict) ∧
        RingOK dict.length m'.s.ring ∧ m'.s.partIdx < 4 := by
  intro ws
  induction ws with
  | nil =>
    intro m hp hR hcap m' h
    rw [goReqWords] at h
    injection h with h1 h2
    subst h2
    refine ⟨by show m.pos = m.pos + ([].map countT).sum; simp,
      by show m.rowsLeft = m.rowsLeft - ([].map countT).sum; simp, rfl, rfl,
      fun i _ => rfl,
      fun i hi1 hi2 => absurd (show i < m.pos from hi2) (by omega), hR, hp⟩
  | cons f ws ih =>
    intro m hp hR hcap m' h
    rw [goReqWords] at h
    cases hit : iterReq dict f 56 m with
    | mk r0 m0 =>
      rw [hit] at h
      cases r0 with
      | error e0 => simp only [] at h; simp at h
      | ok u =>
        obtain ⟨⟩ := u
        simp only [] at h
        simp only [List.map_cons, List.sum_cons] at hcap
        obtain ⟨hpos, hrl, hl, hbl, hbelow, hin, hrg, hpi⟩ :=
          iterReq_content hd f 56 m hp hR (by omega) m0 hit
        obtain ⟨hpos2, hrl2, hl2, hbl2, hbelow2, hin2, hrg2, hpi2⟩ :=
          ih m0 hpi hrg (by rw [hbl, hpos]; omega) m' h
        simp only [List.map_cons, List.sum_cons]
        refine ⟨by omega, by omega, by rw [hl2, hl], by rw [hbl2, hbl],
          ?_, ?_, hrg2, hpi2⟩
        · intro i hi
          rw [hbelow2 i (by omega), hbelow i hi]
        · intro i hi1 hi2
          by_cases hi0 : i < m0.pos
          · obtain ⟨x, hx1, hx2⟩ := hin i hi1 hi0
            exact ⟨x, by rw [hbelow2 i hi0]; exact hx1, hx2⟩
          · exact hin2 i (by omega) hi2

end PQ

namespace PQ

theorem goMReq_content {B : Type} {dict : List B} (hd : 0 < dict.length) :
    ∀ (cs : List HChunk) (filter : List Bool) (ring : List Nat) (t : Vek B)
      (pos rowsLeft : Nat),
      RingOK dict.length ring →
      rowsLeft = countT filter →
      filter.length ≤ streamLen cs →
      pos + rowsLeft ≤ t.buf.length →
      ∀ t', goMReq dict cs filter ring t pos rowsLeft = (.ok (), t') →
        t'.len = t.len ∧ t'.buf.length = t.buf.length ∧
        (∀ i, i < pos → t'.buf.get? i = t.buf.get? i) ∧
        (∀ i, pos ≤ i → i < pos + rowsLeft →
          ∃ x, t'.buf.get? i = some (some x) ∧ x ∈ dict) := by
  intro cs
  induction cs with
  | nil =>
    intro filter ring t pos rowsLeft hR hrl hsl hcap t' h
    rw [goMReq] at h
    injection h with h1 h2
    subst h2
    have hf0 : filter.length = 0 := by
      simp only [streamLen] at hsl
      omega
    have hc0 : countT filter = 0 := by
      have := countT_le_length filter
      omega
    refine ⟨rfl, rfl, fun i _ => rfl, ?_⟩
    intro i hi1 hi2
    omega
  | cons c cs ih =>
    intro filter ring t pos rowsLeft hR hrl hsl hcap t' h
    by_cases hrl0 : rowsLeft = 0
    · cases c <;>
      · rw [goMReq, if_pos hrl0] at h
        injection h with h1 h2
        subst h2
        exact ⟨rfl, rfl, fun i _ => rfl, fun i hi1 hi2 => by omega⟩
    · cases c with
      | Rle value size =>
        rw [goMReq, if_neg hrl0] at h
        by_cases hs : size = 0
        · rw [if_pos hs] at h
          refine ih filter ring t pos rowsLeft hR hrl ?_ hcap t' h
          rw [streamLen, chunkSize, hs] at hsl
          omega
        · rw [if_neg hs] at h
          simp only [] at h
          rw [streamLen, chunkSize] at hsl
          have htd := countT_take_drop filter (min size filter.length)
          have hcle := countT_le_length filter
          have hcle2 := countT_take_le filter (min size filter.length)
          by_cases hncr : 0 < countT (filter.take (min size filter.length))
          · rw [if_pos hncr] at h
            cases hg : dict.get? value with
            | none =>
              rw [hg] at h
              simp at h
            | some x =>
              rw [hg] at h
              simp only [] at h
              obtain ⟨hl2, hbl2, hbelow2, hin2⟩ :=
                ih (filter.drop (min size filter.length)) ring
                  (t.fill pos (countT (filter.take (min size filter.length))) x)
                  (pos + countT (filter.take (min size filter.length)))
                  (rowsLeft - countT (filter.take (min size filter.length)))
                  hR (by omega)
                  (by simp only [List.length_drop]; omega)
                  (by simp only [fill_buflen]; omega) t' h
              refine ⟨by rw [hl2]; simp, by rw [hbl2]; simp, ?_, ?_⟩
              · intro i hi
                rw [hbelow2 i (by omega)]
                exact fill_get?_out _ t pos x i (by omega)
              · intro i hi1 hi2
                by_cases hifill :
                    i < pos + countT (filter.take (min size filter.length))
                · refine ⟨x, ?_, List.get?_mem hg⟩
                  rw [hbelow2 i (by omega)]
                  exact fill_get?_in _ t pos x i hi1 hifill (by omega)
                · exact hin2 i (by omega) (by omega)
          · rw [if_neg hncr] at h
            obtain ⟨hl2, hbl2, hbelow2, hin2⟩ :=
              ih (filter.drop (min size filter.length)) ring t pos rowsLeft
                hR (by omega) (by simp only [List.length_drop]; omega)
                hcap t' h
            exact ⟨hl2, hbl2, hbelow2, hin2⟩
      | Bitpacked xs =>
        rw [goMReq, if_neg hrl0] at h
        simp only [] at h
        rw [streamLen, chunkSize] at hsl
        have hcw := countT_words (filter.take (min xs.length filter.length))
        have hcle2 := countT_take_le filter (min xs.length filter.length)
        have htd := countT_take_drop filter (min xs.length filter.length)
        split at h
        · next e1 m1 heq => simp at h
        · next m1 heq =>
          obtain ⟨hpos1, hrl1, hl1, hbl1, hbelow1, hin1, hrg1, hpi1⟩ :=
            goReqWords_content hd _ ⟨t, ⟨xs, ring, 0, 0, 0⟩, 0, pos, rowsLeft⟩
              (by exact Nat.succ_pos 3) (by exact hR)
              (by
                show pos + ((fullWords56 (filter.take
                  (min xs.length filter.length))).map countT).sum
                  ≤ t.buf.length
                omega) m1 heq
          simp only [] at hpos1 hrl1 hl1 hbl1 hbelow1 hin1
          split at h
          · next e2 m2 heq2 => simp at h
          · next m2 heq2 =>
            obtain ⟨hpos2, hrl2, hl2, hbl2, hbelow2, hin2, hrg2, hpi2⟩ :=
              iterReq_content hd _ _ m1 hpi1 hrg1
                (by rw [hbl1, hpos1]; omega) m2 heq2
            obtain ⟨hl3, hbl3, hbelow3, hin3⟩ :=
              ih (filter.drop (min xs.length filter.length)) m2.s.ring m2.t
                m2.pos m2.rowsLeft hrg2
                (by rw [hrl2, hrl1]; omega)
                (by simp only [List.length_drop]; omega)
                (by rw [hbl2, hbl1, hpos2, hpos1, hrl2, hrl1]; omega) t' h
            refine ⟨by rw [hl3, hl2, hl1], by rw [hbl3, hbl2, hbl1], ?_, ?_⟩
            · intro i hi
              rw [hbelow3 i (by omega), hbelow2 i (by omega), hbelow1 i hi]
            · intro i hi1 hi2
              by_cases hiA : i < m1.pos
              · obtain ⟨x, hx1, hx2⟩ := hin1 i hi1 hiA
                refine ⟨x, ?_, hx2⟩
                rw [hbelow3 i (by omega), hbelow2 i hiA]
                exact hx1
              · by_cases hiB : i < m2.pos
                · obtain ⟨x, hx1, hx2⟩ := hin2 i (by omega) hiB
                  refine ⟨x, ?_, hx2⟩
                  rw [hbelow3 i hiB]
                  exact hx1
                · exact hin3 i (by omega) (by omega)

end PQ

namespace PQ

theorem decode_masked_required_slots {B : Type} (z : B)
    {values : HybridRleDecoder} {dict : List B} {filter : List Bool}
    {target : Vek B} {t' : Vek B}
    (hfl : filter.length ≤ values.len)
    (h : decode_masked_required_dict values dict filter target = (.ok (), t')) :
    ∀ i, target.len ≤ i → i < t'.len →
      ∃ x, t'.buf.get? i = some (some x) ∧ x ∈ dict := by
  rw [decode_masked_required_dict] at h
  simp only [] at h
  by_cases h1 : countT filter = filter.length
  · rw [if_pos h1] at h
    exact (decode_required_slots z h).2
  · rw [if_neg h1] at h
    by_cases h2 : dict.isEmpty ∧ ¬ filter.isEmpty
    · rw [if_pos h2] at h
      simp at h
    · rw [if_neg h2] at h
      try simp only [] at h
      have hfne : filter ≠ [] := fun hnil => h1 (by rw [hnil]; rfl)
      have hfe : filter.isEmpty = false := by
        cases filter with
        | nil => exact absurd rfl hfne
        | cons b bs => rfl
      have hdne : dict ≠ [] := fun hnil =>
        h2 ⟨by rw [hnil]; rfl, by rw [hfe]; simp⟩
      have hd : 0 < dict.length := List.length_pos.mpr hdne
      cases hgo : goMReq dict (values.limit_to filter.length).chunks filter
          (List.replicate 128 0) (target.reserve (countT filter)) target.len
          (countT filter) with
      | mk r0 t1 =>
        rw [hgo] at h
        cases r0 with
        | error e0 => simp at h
        | ok u =>
          obtain ⟨⟩ := u
          simp only [] at h
          injection h with h1' h2'
          subst h2'
          obtain ⟨hl1, hbl1, hbelow1, hin1⟩ :=
            goMReq_content hd _ filter (List.replicate 128 0)
              (target.reserve (countT filter)) target.len (countT filter)
              (RingOK_init hd) rfl
              (by
                show filter.length
                  ≤ streamLen (truncateChunks values.chunks filter.length)
                rw [streamLen_truncate,
                  Nat.min_eq_right (show filter.length ≤ streamLen values.chunks
                    from hfl)])
              (by
                simp [Vek.reserve]
                try omega) t1 hgo
          intro i hi1 hi2
          have hi2' : i < target.len + countT filter := hi2
          exact hin1 i hi1 (by omega)

theorem walkOpt_content {B : Type} (dict : List B) (ring : List Nat)
    (hR : RingOK dict.length ring) (f v : List Bool)
    (offset numRead numWritten pos : Nat) (t : Vek B) :
    pos + numWritten + countT f ≤ t.buf.length →
    ∀ r t' nr nw,
      walkOpt dict ring f v offset numRead numWritten pos t = (r, t', nr, nw) →
      r = .ok () ∧ nw = numWritten + countT f ∧
      t'.len = t.len ∧ t'.buf.length = t.buf.length ∧
      (∀ i, i < pos + numWritten → t'.buf.get? i = t.buf.get? i) ∧
      (∀ i, pos + numWritten ≤ i → i < pos + nw →
        ∃ x, t'.buf.get? i = some (some x) ∧ x ∈ dict) := by
  induction f, v, offset, numRead, numWritten, pos, t
      using walkOpt.induct dict ring with
  | case1 f v offset numRead numWritten pos t hf e heq =>
    intro hcap r t' nr nw h
    exfalso
    have hlt := ringGet_lt hR
      (offset + (numRead + countT (v.take (firstTrueIdx f))))
    rw [dictUnchecked] at heq
    cases hg : dict.get? (ringGet ring
        (offset + (numRead + countT (v.take (firstTrueIdx f))))) with
    | none =>
      rw [List.get?_eq_none] at hg
      omega
    | some x =>
      rw [hg] at heq
      simp at heq
  | case2 f v offset numRead numWritten pos t hf x heq ih =>
    intro hcap r t' nr nw h
    rw [walkOpt] at h
    simp only [dif_pos hf, heq] at h
    have hx : x ∈ dict := dictUnchecked_mem heq
    have hcnt := countT_drop_firstTrue hf
    obtain ⟨ho, hnw, hl, hbl, hbelow, hin⟩ := ih (by simp; omega) r t' nr nw h
    refine ⟨ho, by omega, by rw [hl]; rfl, by rw [hbl]; simp, ?_, ?_⟩
    · intro i hi
      rw [hbelow i (by omega)]
      exact wr_get?_ne t (pos + numWritten) x i (by omega)
    · intro i hi1 hi2
      by_cases hip : i = pos + numWritten
      · subst hip
        rw [hbelow _ (by omega)]
        exact ⟨x, wr_get?_eq t _ x (by omega), hx⟩
      · exact hin i (by omega) (by omega)
  | case3 f v offset numRead numWritten pos t hf =>
    intro hcap r t' nr nw h
    rw [walkOpt] at h
    simp only [dif_neg hf] at h
    injection h with h1 h2
    injection h2 with h2a h2b
    injection h2b with h2c h2d
    subst h1; subst h2a; subst h2c; subst h2d
    refine ⟨rfl, by rw [hasTrue_false_countT hf]; omega, rfl, rfl,
      fun i _ => rfl, ?_⟩
    intro i hi1 hi2
    omega

theorem iterOpt_content {B : Type} {dict : List B} (hd : 0 < dict.length)
    (f v : List Bool) (m : MState B)
    (hp : m.s.partIdx < 4) (hR : RingOK dict.length m.s.ring)
    (hcap : m.pos + countT f ≤ m.t.buf.length) :
    ∀ m', iterOpt dict f v m = (.ok (), m') →
      m'.pos = m.pos + countT f ∧ m'.rowsLeft = m.rowsLeft - countT f ∧
      m'.t.len = m.t.len ∧ m'.t.buf.length = m.t.buf.length ∧
      (∀ i, i < m.pos → m'.t.buf.get? i = m.t.buf.get? i) ∧
      (∀ i, m.pos ≤ i → i < m'.pos →
        ∃ x, m'.t.buf.get? i = some (some x) ∧ x ∈ dict) ∧
      RingOK dict.length m'.s.ring ∧ m'.s.partIdx < 4 := by
  intro m' h
  rw [iterOpt] at h
  by_cases hf : ¬ hasTrue f
  · rw [if_pos hf] at h
    injection h with h1 h2
    subst h2
    rw [hasTrue_false_countT hf]
    refine ⟨by show m.pos = m.pos + 0; omega,
      by show m.rowsLeft = m.rowsLeft - 0; omega, rfl, rfl, fun i _ => rfl,
      fun i hi1 hi2 => absurd (show i < m.pos from hi2) (by omega), hR, hp⟩
  · rw [if_neg hf] at h
    simp only [] at h
    split at h
    · next e1 heq => simp at h
    · next s3 skip3 heq =>
      have hs3 := (refillSkip_inv dict.length (countT v) hd _ _ (by exact hp)
        (by exact hR)).2 s3 skip3 heq
      cases hwr : walkOpt dict s3.ring f v s3.offset 0 0 m.pos m.t with
      | mk r0 rest =>
        obtain ⟨t1, nr1, nw1⟩ := rest
        obtain ⟨ho, hnw, hl, hbl, hbelow, hin⟩ :=
          walkOpt_content dict s3.ring hs3.1 f v s3.offset 0 0 m.pos m.t
            (by omega) r0 t1 nr1 nw1 hwr
        rw [hwr, ho] at h
        simp only [] at h
        injection h with h1 h2
        subst h2
        refine ⟨by show m.pos + nw1 = m.pos + countT f; omega,
          by show m.rowsLeft - nw1 = m.rowsLeft - countT f; omega,
          hl, hbl, ?_, ?_, hs3.1, hs3.2⟩
        · intro i hi
          exact hbelow i (by omega)
        · intro i hi1 hi2
          exact hin i (by omega) (show i < m.pos + nw1 from hi2)

theorem sum_zip_le (fws : List (List Bool)) :
    ∀ (vws : List (List Bool)),
      (((fws.zip vws).map (fun p => countT p.1)).sum)
        ≤ (fws.map countT).sum := by
  induction fws with
  | nil => intro vws; simp
  | cons f fws ih =>
    intro vws
    cases vws with
    | nil => simp
    | cons v vws =>
      simp only [List.zip_cons_cons, List.map_cons, List.sum_cons]
      exact Nat.add_le_add_left (ih vws) _

theorem goMOptWords_content {B : Type} {dict : List B} (hd : 0 < dict.length) :
    ∀ (fws vws : List (List Bool)) (m : MState B), m.s.partIdx < 4 →
      RingOK dict.length m.s.ring →
      m.pos + (((fws.zip vws).map (fun p => countT p.1)).sum)
        ≤ m.t.buf.length →
      ∀ m', goMOptWords dict fws vws m = (.ok (), m') →
        m'.pos = m.pos + (((fws.zip vws).map (fun p => countT p.1)).sum) ∧
        m'.rowsLeft
          = m.rowsLeft - (((fws.zip vws).map (fun p => countT p.1)).sum) ∧
        m'.t.len = m.t.len ∧ m'.t.buf.length = m.t.buf.length ∧
        (∀ i, i < m.pos → m'.t.buf.get? i = m.t.buf.get? i) ∧
        (∀ i, m.pos ≤ i → i < m'.pos →
          ∃ x, m'.t.buf.get? i = some (some x) ∧ x ∈ dict) ∧
        RingOK dict.length m'.s.ring ∧ m'.s.partIdx < 4 := by
  intro fws
  induction fws with
  | nil =>
    intro vws m hp hR hcap m' h
    rw [show goMOptWords dict [] vws m = (.ok (), m) from rfl] at h
    injection h with h1 h2
    subst h2
    refine ⟨by simp, by simp, rfl, rfl, fun i _ => rfl,
      fun i hi1 hi2 => absurd (show i < m.pos from hi2) (by omega), hR, hp⟩
  | cons f fws ih =>
    intro vws m hp hR hcap m' h
    cases vws with
    | nil =>
      rw [show goMOptWords dict (f :: fws) [] m = (.ok (), m) from rfl] at h
      injection h with h1 h2
      subst h2
      refine ⟨by simp, by simp, rfl, rfl, fun i _ => rfl,
        fun i hi1 hi2 => absurd (show i < m.pos from hi2) (by omega), hR, hp⟩
    | cons v vws =>
      rw [goMOptWords] at h
      cases hit : iterOpt dict f v m with
      | mk r0 m0 =>
        rw [hit] at h
        cases r0 with
        | error e0 => simp only [] at h; simp at h
        | ok u =>
          obtain ⟨⟩ := u
          simp only [] at h
          simp only [List.zip_cons_cons, List.map_cons, List.sum_cons] at hcap
          obtain ⟨hpos, hrl, hl, hbl, hbelow, hin, hrg, hpi⟩ :=
            iterOpt_content hd f v m hp hR (by omega) m0 hit
          obtain ⟨hpos2, hrl2, hl2, hbl2, hbelow2, hin2, hrg2, hpi2⟩ :=
            ih vws m0 hpi hrg (by rw [hbl, hpos]; omega) m' h
          simp only [List.zip_cons_cons, List.map_cons, List.sum_cons]
          refine ⟨by omega, by omega, by rw [hl2, hl], by rw [hbl2, hbl],
            ?_, ?_, hrg2, hpi2⟩
          · intro i hi
            rw [hbelow2 i (by omega), hbelow i hi]
          · intro i hi1 hi2
            by_cases hi0 : i < m0.pos
            · obtain ⟨x, hx1, hx2⟩ := hin i hi1 hi0
              exact ⟨x, by rw [hbelow2 i hi0]; exact hx1, hx2⟩
            · exact hin2 i (by omega) hi2

end PQ

namespace PQ

theorem goMOpt_content {B : Type} {dict : List B} (hd : 0 < dict.length) :
    ∀ (cs : List HChunk) (filter validity : List Bool) (ring : List Nat)
      (t : Vek B) (pos rowsLeft : Nat),
      RingOK dict.length ring →
      countT filter ≤ rowsLeft →
      pos + rowsLeft ≤ t.buf.length →
      ∀ t' pos' rowsLeft',
        goMOpt dict cs filter validity ring t pos rowsLeft
          = (.ok (), t', pos', rowsLeft') →
        ∃ W, W ≤ rowsLeft ∧ pos' = pos + W ∧ rowsLeft' = rowsLeft - W ∧
          t'.len = t.len ∧ t'.buf.length = t.buf.length ∧
          (∀ i, i < pos → t'.buf.get? i = t.buf.get? i) ∧
          (∀ i, pos ≤ i → i < pos' →
            ∃ x, t'.buf.get? i = some (some x) ∧ x ∈ dict) := by
  intro cs
  induction cs with
  | nil =>
    intro filter validity ring t pos rowsLeft hR hge hcap t' pos' rowsLeft' h
    rw [goMOpt] at h
    injection h with h1 h2
    injection h2 with h2a h2b
    injection h2b with h2c h2d
    subst h2a; subst h2c; subst h2d
    exact ⟨0, by omega, by omega, by omega, rfl, rfl, fun i _ => rfl,
      fun i hi1 hi2 => by omega⟩
  | cons c cs ih =>
    intro filter validity ring t pos rowsLeft hR hge hcap t' pos' rowsLeft' h
    by_cases hrl0 : rowsLeft = 0
    · cases c <;>
      · rw [goMOpt, if_pos hrl0] at h
        injection h with h1 h2
        injection h2 with h2a h2b
        injection h2b with h2c h2d
        subst h2a; subst h2c; subst h2d
        exact ⟨0, by omega, by omega, by omega, rfl, rfl, fun i _ => rfl,
          fun i hi1 hi2 => by omega⟩
    · cases c with
      | Rle value size =>
        rw [goMOpt, if_neg hrl0] at h
        by_cases hs : size = 0
        · rw [if_pos hs] at h
          exact ih filter validity ring t pos rowsLeft hR hge hcap
            t' pos' rowsLeft' h
        · rw [if_neg hs] at h
          simp only [] at h
          have hctl := countT_take_le filter
            ((nthSetBitIdx validity size).getD validity.length)
          have htd := countT_take_drop filter
            ((nthSetBitIdx validity size).getD validity.length)
          by_cases hncr : 0 < countT (filter.take
              ((nthSetBitIdx validity size).getD validity.length))
          · rw [if_pos hncr] at h
            cases hg : dict.get? value with
            | none =>
              rw [hg] at h
              simp at h
            | some x =>
              rw [hg] at h
              simp only [] at h
              obtain ⟨W, hW1, hW2, hW3, hl2, hbl2, hbelow2, hin2⟩ :=
                ih (filter.drop
                    ((nthSetBitIdx validity size).getD validity.length))
                  (validity.drop
                    ((nthSetBitIdx validity size).getD validity.length))
                  ring
                  (t.fill pos (countT (filter.take
                    ((nthSetBitIdx validity size).getD validity.length))) x)
                  (pos + countT (filter.take
                    ((nthSetBitIdx validity size).getD validity.length)))
                  (rowsLeft - countT (filter.take
                    ((nthSetBitIdx validity size).getD validity.length)))
                  hR (by omega) (by simp only [fill_buflen]; omega)
                  t' pos' rowsLeft' h
              refine ⟨countT (filter.take
                  ((nthSetBitIdx validity size).getD validity.length)) + W,
                by omega, by omega, by omega,
                by rw [hl2]; simp, by rw [hbl2]; simp, ?_, ?_⟩
              · intro i hi
                rw [hbelow2 i (by omega)]
                exact fill_get?_out _ t pos x i (by omega)
              · intro i hi1 hi2
                by_cases hifill : i < pos + countT (filter.take
                    ((nthSetBitIdx validity size).getD validity.length))
                · refine ⟨x, ?_, List.get?_mem hg⟩
                  rw [hbelow2 i (by omega)]
                  exact fill_get?_in _ t pos x i hi1 hifill (by omega)
                · exact hin2 i (by omega) (by omega)
          · rw [if_neg hncr] at h
            obtain ⟨W, hW1, hW2, hW3, hl2, hbl2, hbelow2, hin2⟩ :=
              ih (filter.drop
                  ((nthSetBitIdx validity size).getD validity.length))
                (validity.drop
                  ((nthSetBitIdx validity size).getD validity.length))
                ring t pos rowsLeft hR (by omega) hcap t' pos' rowsLeft' h
            exact ⟨W, hW1, hW2, hW3, hl2, hbl2, hbelow2, hin2⟩
      | Bitpacked xs =>
        rw [goMOpt, if_neg hrl0] at h
        simp only [] at h
        have hctl := countT_take_le filter
          ((nthSetBitIdx validity xs.length).getD validity.length)
        have htd := countT_take_drop filter
          ((nthSetBitIdx validity xs.length).getD validity.length)
        have hcw := countT_words (filter.take
          ((nthSetBitIdx validity xs.length).getD validity.length))
        have hszl := sum_zip_le
          (fullWords56 (filter.take
            ((nthSetBitIdx validity xs.length).getD validity.length)))
          (fullWords56 (validity.take
            ((nthSetBitIdx validity xs.length).getD validity.length)))
        split at h
        · next e1 m1 heq => simp at h
        · next m1 heq =>
          obtain ⟨hpos1, hrl1, hl1, hbl1, hbelow1, hin1, hrg1, hpi1⟩ :=
            goMOptWords_content hd _ _
              ⟨t, ⟨xs, ring, 0, 0, 0⟩, 0, pos, rowsLeft⟩
              (by exact Nat.succ_pos 3) (by exact hR)
              (by
                show pos + _ ≤ t.buf.length
                omega) m1 heq
          simp only [] at hpos1 hrl1 hl1 hbl1 hbelow1 hin1
          by_cases hlen : (rem56 (filter.take
              ((nthSetBitIdx validity xs.length).getD validity.length))).length
              ≠ (rem56 (validity.take
              ((nthSetBitIdx validity xs.length).getD validity.length))).length
          · rw [if_pos hlen] at h
            simp at h
          · rw [if_neg hlen] at h
            split at h
            · next e2 m2 heq2 => simp at h
            · next m2 heq2 =>
              obtain ⟨hpos2, hrl2, hl2, hbl2, hbelow2, hin2, hrg2, hpi2⟩ :=
                iterOpt_content hd _ _ m1 hpi1 hrg1
                  (by rw [hbl1, hpos1]; omega) m2 heq2
              obtain ⟨W, hW1, hW2, hW3, hl3, hbl3, hbelow3, hin3⟩ :=
                ih (filter.drop
                    ((nthSetBitIdx validity xs.length).getD validity.length))
                  (validity.drop
                    ((nthSetBitIdx validity xs.length).getD validity.length))
                  m2.s.ring m2.t m2.pos m2.rowsLeft hrg2
                  (by rw [hrl2, hrl1]; omega)
                  (by rw [hbl2, hbl1, hpos2, hpos1, hrl2, hrl1]; omega)
                  t' pos' rowsLeft' h
              refine ⟨(((fullWords56 (filter.take
                  ((nthSetBitIdx validity xs.length).getD validity.length))).zip
                  (fullWords56 (validity.take
                  ((nthSetBitIdx validity xs.length).getD validity.length)))).map
                  (fun p => countT p.1)).sum
                + countT (rem56 (filter.take
                  ((nthSetBitIdx validity xs.length).getD validity.length)))
                + W,
                by omega, by omega, by omega,
                by rw [hl3, hl2, hl1], by rw [hbl3, hbl2, hbl1], ?_, ?_⟩
              · intro i hi
                rw [hbelow3 i (by omega), hbelow2 i (by omega), hbelow1 i hi]
              · intro i hi1 hi2
                by_cases hiA : i < m1.pos
                · obtain ⟨x, hx1, hx2⟩ := hin1 i hi1 hiA
                  refine ⟨x, ?_, hx2⟩
                  rw [hbelow3 i (by omega), hbelow2 i hiA]
                  exact hx1
                · by_cases hiB : i < m2.pos
                  · obtain ⟨x, hx1, hx2⟩ := hin2 i (by omega) hiB
                    refine ⟨x, ?_, hx2⟩
                    rw [hbelow3 i hiB]
                    exact hx1
                  · exact hin3 i (by omega) (by omega)

end PQ

namespace PQ

theorem decode_masked_optional_slots {B : Type} {z : B}
    {values : HybridRleDecoder} {dict : List B} {filter validity : List Bool}
    {target : Vek B} {t' : Vek B}
    (hfl : filter.length ≤ values.len)
    (h : decode_masked_optional_dict z values dict filter validity target
      = (.ok (), t')) :
    ∀ i, target.len ≤ i → i < t'.len →
      ∃ x, t'.buf.get? i = some (some x) ∧ (x = z ∨ x ∈ dict) := by
  rw [decode_masked_optional_dict] at h
  simp only [] at h
  by_cases h1 : countT filter = filter.length
  · rw [if_pos h1] at h
    exact decode_optional_slots h
  · rw [if_neg h1] at h
    by_cases h2 : countT validity = validity.length
    · rw [if_pos h2] at h
      intro i hi1 hi2
      obtain ⟨x, hx1, hx2⟩ := decode_masked_required_slots z hfl h i hi1 hi2
      exact ⟨x, hx1, Or.inr hx2⟩
    · rw [if_neg h2] at h
      by_cases h3 : dict.isEmpty ∧ 0 < countT validity
      · rw [if_pos h3] at h
        simp at h
      · rw [if_neg h3] at h
        by_cases h4 : ¬ countT validity ≤ values.len
        · rw [if_pos h4] at h
          simp at h
        · rw [if_neg h4] at h
          try simp only [] at h
          have hcap0 : target.len + countT filter
              ≤ (target.reserve (countT filter)).buf.length := by
            simp [Vek.reserve]
            try omega
          by_cases hde : dict.isEmpty
          · have hnv : countT validity = 0 := by
              by_contra hc
              exact h3 ⟨hde, Nat.pos_of_ne_zero hc⟩
            rw [hnv, show (values.limit_to 0).chunks = []
              from truncateChunks_zero _] at h
            rw [goMOpt] at h
            simp only [] at h
            injection h with h1' h2'
            subst h2'
            intro i hi1 hi2
            have hi2' : i < target.len + countT filter := hi2
            refine ⟨z, ?_, Or.inl rfl⟩
            show ((target.reserve (countT filter)).fill target.len
              (countT filter) z).buf.get? i = some (some z)
            apply fill_get?_in
            · exact hi1
            · exact hi2'
            · omega
          · have hdne : dict ≠ [] := fun hnil => hde (by rw [hnil]; rfl)
            have hd : 0 < dict.length := List.length_pos.mpr hdne
            cases hgo : goMOpt dict (values.limit_to (countT validity)).chunks
                filter validity (List.replicate 128 0)
                (target.reserve (countT filter)) target.len (countT filter) with
            | mk r0 rest =>
              obtain ⟨t1, pos1, rowsLeft1⟩ := rest
              rw [hgo] at h
              cases r0 with
              | error e0 => simp at h
              | ok u =>
                obtain ⟨⟩ := u
                simp only [] at h
                injection h with h1' h2'
                subst h2'
                obtain ⟨W, hW1, hW2, hW3, hl1, hbl1, hbelow1, hin1⟩ :=
                  goMOpt_content hd _ filter validity (List.replicate 128 0)
                    (target.reserve (countT filter)) target.len (countT filter)
                    (RingOK_init hd) (Nat.le_refl _) hcap0
                    t1 pos1 rowsLeft1 hgo
                intro i hi1 hi2
                have hi2' : i < target.len + countT filter := hi2
                by_cases hiw : i < pos1
                · obtain ⟨x, hx1, hx2⟩ := hin1 i hi1 hiw
                  refine ⟨x, ?_, Or.inr hx2⟩
                  show (t1.fill pos1 rowsLeft1 z).buf.get? i = some (some x)
                  rw [fill_get?_out _ t1 pos1 z i (Or.inl hiw)]
                  exact hx1
                · refine ⟨z, ?_, Or.inl rfl⟩
                  show (t1.fill pos1 rowsLeft1 z).buf.get? i = some (some z)
                  apply fill_get?_in
                  · omega
                  · omega
                  · rw [hbl1]
                    omega

end PQ

namespace PQ

/-- C2: corrected null-padding law. On every successful call of the two
nulls-aware kernels, every slot appended to the target is defined, holding
either the zeroed placeholder `z` or a dictionary element — but, as the
counterexample shows, a slot whose validity bit is cleared need not hold
`z`: RLE runs and the branchless bitpacked loop write the current dictionary
value into null slots.  The masked kernel carries the dispatch contract
`filter.len() <= values.len()`. -/
theorem C2_defined_slots {B : Type} (z : B) (values : HybridRleDecoder)
    (dict : List B) (filter validity : List Bool) (target : Vek B) :
    (∀ t', decode_optional_dict z values dict validity target = (.ok (), t') →
      ∀ i, target.len ≤ i → i < t'.len →
        ∃ x, t'.buf.get? i = some (some x) ∧ (x = z ∨ x ∈ dict)) ∧
    (filter.length ≤ values.len →
      ∀ t', decode_masked_optional_dict z values dict filter validity target
          = (.ok (), t') →
        ∀ i, target.len ≤ i → i < t'.len →
          ∃ x, t'.buf.get? i = some (some x) ∧ (x = z ∨ x ∈ dict)) :=
  ⟨fun _ h => decode_optional_slots h,
   fun hfl _ h => decode_masked_optional_slots hfl h⟩

/-- Witness for C2: both parts applied at concrete inputs — the optional
kernel on the counterexample input (slot 1, the null slot, is defined and
holds a dictionary element) and the masked optional kernel on a two-row page
with one selected row. -/
theorem C2_defined_slots_witness :
    (∃ x, (decode_optional_dict 99 ⟨[.Rle 0 1]⟩ [7] [true, false]
        ⟨0, []⟩).2.buf.get? 1 = some (some x) ∧ (x = 99 ∨ x ∈ [7])) ∧
    (∃ x, (decode_masked_optional_dict 99 ⟨[.Rle 0 2]⟩ [7] [true, false]
        [true, false] ⟨0, []⟩).2.buf.get? 0 = some (some x)
      ∧ (x = 99 ∨ x ∈ [7])) := by
  constructor
  · exact (C2_defined_slots 99 ⟨[.Rle 0 1]⟩ [7] [] [true, false] ⟨0, []⟩).1
      (decode_optional_dict 99 ⟨[.Rle 0 1]⟩ [7] [true, false] ⟨0, []⟩).2
      (by decide) 1 (by decide) (by decide)
  · exact (C2_defined_slots 99 ⟨[.Rle 0 2]⟩ [7] [true, false] [true, false]
        ⟨0, []⟩).2 (by decide)
      (decode_masked_optional_dict 99 ⟨[.Rle 0 2]⟩ [7] [true, false]
        [true, false] ⟨0, []⟩).2
      (by decide) 0 (by decide) (by decide)

end PQ
